import Mathlib

/-
Verification of the basicmac unicorn simulator against its specification.

The Python sources are shallowly embedded:
* `unicorn/simul/medium.py` (the final revision of the medium; the draft in
  `unicorn/nsimul/medium.py` is superseded): radio parameter sets (`Rps`),
  `LoraMsg` with its airtime calculus over exact rationals, `SimpleMedium`,
  `LoraMsgTransmitter` and `LoraMsgReceiver`.
* `unicorn/nsimul/runtime.py`: the tick scheduler (`Job`, `Runtime`) together
  with a faithful embedding of CPython's `heapq` (`heappush` / `heappop` with
  `_siftdown` / `_siftup`), on which `Runtime.step` is built.
* `unicorn/nsimul/lorawan.py`: `UniversalGateway.msg_complete` / `sched_dn`,
  `SessionManager` and `LNS.join` / `LNS.try_unpack`.  The external byte-level
  codec (`loramsg`, `loracrypto`, ...) is out of scope of the spec and is
  passed in as an abstract record of functions.

Python `float` seconds are modelled as exact rationals; machine integers are
unbounded in Python, so `Nat`/`Int` model them directly.  Fallible code
(asserts, raised exceptions) returns `Option`/`Except`.  Loops whose
termination is not structural are given explicit fuel; every theorem that
uses fuel assumes enough of it, and the fuel bounds are proved sufficient.
-/

/-! ### Rps — radio parameter sets (medium.py, class Rps) -/

namespace Rps

/-- `Rps.IQINV = 1 << 16` (medium.py line 17). -/
def IQINV : ℕ := 1 <<< 16

/-- `[125000,250000,500000].index(bw)`; `none` models the `ValueError`
raised by `list.index` when `bw` is not in the list. -/
def bwIndex (bw : ℕ) : Option ℕ :=
  if bw = 125000 then some 0
  else if bw = 250000 then some 1
  else if bw = 500000 then some 2
  else none

/-- `Rps.makeRps` (medium.py lines 19-23).  In every use sanctioned by the
spec `sf` is `0` or in `7..12`, so the Python signed subtraction `sf-6`
agrees with truncated subtraction on `ℕ`.  `none` models the `ValueError`
of `list.index` for an unsupported bandwidth. -/
def makeRps (sf bw cr crc ih : ℕ) (iqinv : Bool) : Option ℕ :=
  if sf ≠ 0 then
    (bwIndex bw).map fun idx =>
      (sf - 6) ||| (idx <<< 3) ||| ((cr - 1) <<< 5) ||| ((crc ^^^ 1) <<< 7)
        ||| ((ih &&& 0xFF) <<< 8) ||| (if iqinv then IQINV else 0)
  else some 0

/-- `Rps.getSf` (medium.py lines 25-28). -/
def getSf (rps : ℕ) : ℕ :=
  if rps &&& 0x7 ≠ 0 then (rps &&& 0x7) + 6 else 0

/-- `Rps.getBw` (medium.py lines 30-32). -/
def getBw (rps : ℕ) : ℕ :=
  (1 <<< ((rps >>> 3) &&& 0x3)) * 125000

/-- `Rps.getCr` (medium.py lines 34-36). -/
def getCr (rps : ℕ) : ℕ :=
  ((rps >>> 5) &&& 0x3) + 1

/-- `Rps.getCrc` (medium.py lines 38-40). -/
def getCrc (rps : ℕ) : ℕ :=
  ((rps >>> 7) &&& 0x1) ^^^ 1

/-- `Rps.getIh` (medium.py lines 42-44). -/
def getIh (rps : ℕ) : ℕ :=
  (rps >>> 8) &&& 0xff

/-- `Rps.validate` (medium.py lines 54-62): `true` iff none of the five
assertions fires. -/
def validateB (rps : ℕ) : Bool :=
  if getSf rps ≠ 0 then
    decide ((getBw rps = 125000 ∨ getBw rps = 250000 ∨ getBw rps = 500000)
      ∧ (7 ≤ getSf rps ∧ getSf rps ≤ 12)
      ∧ (1 ≤ getCr rps ∧ getCr rps ≤ 4)
      ∧ (getIh rps = 0 ∨ getIh rps = 1)
      ∧ (getCrc rps = 0 ∨ getCrc rps = 1))
  else true

/-- `Rps.isFSK` (medium.py lines 64-66). -/
def isFSK (rps : ℕ) : Bool := (rps &&& 0x7) = 0

/-- `Rps.isIqInv` (medium.py lines 68-70). -/
def isIqInv (rps : ℕ) : Bool := rps &&& IQINV ≠ 0

end Rps

/-! ### LoraMsg — airtime calculus (medium.py, class LoraMsg) -/

/-- Exact integer ceiling of the rational `a / b` (for `b > 0`), mirroring
Python's `math.ceil` applied to the exact quotient; kept executable via
integer (floor) division. -/
def ceilDiv (a b : ℤ) : ℤ := -((-a) / b)

namespace LoraMsg

/-- `LoraMsg.symtime` (medium.py lines 131-139): duration of `nsym` symbols
in seconds, as an exact rational.  `Rs = bw / (1 << sf)`, `Ts = 1 / Rs`. -/
def symtime (rps : ℕ) (nsym : ℕ) : ℚ :=
  if Rps.getSf rps = 0 then
    (8 * nsym : ℚ) / 50000
  else
    (nsym : ℚ) * (1 / ((Rps.getBw rps : ℚ) / ((2 : ℚ) ^ Rps.getSf rps)))

/-- `LoraMsg.airtimes` (medium.py lines 141-154): preamble and payload
airtime of a message with payload `pdu`, parameters `rps`, low-data-rate
flag `dro` and preamble length `npreamble`. -/
def airtimes (pdu : List ℕ) (rps : ℕ) (dro : ℕ) (npreamble : ℕ) : ℚ × ℚ :=
  if Rps.isFSK rps then
    (8 * symtime rps 1, (3 + 1 + 2 + (pdu.length : ℚ)) * symtime rps 1)
  else
    ((npreamble + 4.25) * symtime rps 1,
      ((8 + max 0 (ceilDiv
          (8 * (pdu.length : ℤ) - 4 * (Rps.getSf rps : ℤ) + 28
            + 16 * (Rps.getCrc rps : ℤ) - (Rps.getIh rps : ℤ) * 20)
          (4 * (Rps.getSf rps : ℤ) - (dro : ℤ) * 8)
        * ((Rps.getCr rps : ℤ) + 4)) : ℤ) : ℚ) * symtime rps 1)

/-- The `dro` initialisation of `LoraMsg.__init__` (medium.py lines 93-100):
derived when not supplied, asserted to be `0` or `1` when supplied, forced
to `0` for FSK. -/
def droInit (rps : ℕ) (dro : Option ℕ) : Option ℕ :=
  if Rps.getSf rps ≠ 0 then
    match dro with
    | none => some (if (11 ≤ Rps.getSf rps ∧ Rps.getBw rps = 125000)
        ∨ (Rps.getSf rps = 12 ∧ Rps.getBw rps = 250000) then 1 else 0)
    | some d => if d = 0 ∨ d = 1 then some d else none
  else some 0

end LoraMsg

/-- The `LoraMsg` record after a successful `__init__` (medium.py lines
84-115).  Times are exact rationals; `src` is an opaque origin tag. -/
structure LoraMsg where
  pdu : List ℕ
  freq : ℤ
  rps : ℕ
  xpow : Option ℚ
  rssi : Option ℚ
  snr : Option ℚ
  dro : ℕ
  npreamble : ℕ
  src : Option ℕ
  xbeg : ℚ
  xpld : ℚ
  xend : ℚ
  deriving DecidableEq

/-- `LoraMsg.__init__` (medium.py lines 84-115): `none` models a failed
assertion (`len(pdu) <= 255`, `Rps.validate`, `dro in {0,1}`). -/
def mkLoraMsg (time : ℚ) (pdu : List ℕ) (freq : ℤ) (rps : ℕ)
    (xpow rssi snr : Option ℚ) (dro : Option ℕ) (npreamble : ℕ)
    (src : Option ℕ) : Option LoraMsg :=
  if pdu.length ≤ 255 ∧ Rps.validateB rps = true then
    (LoraMsg.droInit rps dro).map fun d =>
      { pdu := pdu, freq := freq, rps := rps, xpow := xpow, rssi := rssi,
        snr := snr, dro := d, npreamble := npreamble, src := src,
        xbeg := time,
        xpld := time + (LoraMsg.airtimes pdu rps d npreamble).1,
        xend := time + (LoraMsg.airtimes pdu rps d npreamble).1
          + (LoraMsg.airtimes pdu rps d npreamble).2 }
  else none

/-- `LoraMsg.match` (medium.py lines 127-129); named `matched` because
`match` is a Lean keyword. -/
def LoraMsg.matched (m : LoraMsg) (freq : ℤ) (rps : ℕ) : Bool :=
  m.freq = freq && (if Rps.isFSK m.rps then Rps.isFSK rps else m.rps = rps)

/-- Concrete FSK message used to instantiate the airtime theorem:
`LoraMsg(0.0, b'', 868, rps=0)`.  One FSK symbol lasts `8/50000 s`, so the
preamble ends at `64/50000 = 4/3125` and the frame at `112/50000 = 7/3125`. -/
def c1msgW : LoraMsg :=
  { pdu := [], freq := 868, rps := 0, xpow := none, rssi := none, snr := none,
    dro := 0, npreamble := 8, src := none,
    xbeg := 0, xpld := 4 / 3125, xend := 7 / 3125 }

/-! ### SimpleMedium (medium.py, lines 179-212) -/

/-- The operations of the `SimpleMedium` interface; listeners and messages
are identified by opaque ids. -/
inductive MOp where
  | addListener (l : ℕ) (t : Option ℚ)
  | removeListener (l : ℕ)
  | preamble (m : ℕ) (t : Option ℚ)
  | payload (m : ℕ)
  | complete (m : ℕ)
  | abort (m : ℕ)
  deriving DecidableEq

/-- A callback delivered to one listener. -/
inductive MEvent where
  | preamble (m : ℕ) (t : Option ℚ)
  | payload (m : ℕ)
  | complete (m : ℕ)
  | abort (m : ℕ)
  deriving DecidableEq

/-- `SimpleMedium.__init__`: the `pmsg` and `listeners` sets, kept as
duplicate-free lists. -/
structure MediumState where
  pmsg : List ℕ
  listeners : List ℕ
  deriving DecidableEq

/-- Python `set.add`. -/
def setInsert (x : ℕ) (s : List ℕ) : List ℕ := if x ∈ s then s else s ++ [x]

/-- One `SimpleMedium` method call: the new state and the list of
`(listener, callback)` deliveries it makes (medium.py lines 185-212).
`add_listener` replays `msg_preamble(msg, t)` for every `msg` in `pmsg`;
the fan-outs of `msg_preamble` pass no time (`t = None`); `msg_payload` and
`msg_abort` discard from `pmsg`; `msg_complete` does not. -/
def applyMOp (st : MediumState) (op : MOp) : MediumState × List (ℕ × MEvent) :=
  match op with
  | .addListener l t =>
      ({ st with listeners := setInsert l st.listeners },
        st.pmsg.map fun m => (l, .preamble m t))
  | .removeListener l =>
      ({ st with listeners := st.listeners.erase l }, [])
  | .preamble m _ =>
      ({ st with pmsg := setInsert m st.pmsg },
        st.listeners.map fun l => (l, .preamble m none))
  | .payload m =>
      ({ st with pmsg := st.pmsg.filter (fun x => x ≠ m) },
        st.listeners.map fun l => (l, .payload m))
  | .complete m =>
      (st, st.listeners.map fun l => (l, .complete m))
  | .abort m =>
      ({ st with pmsg := st.pmsg.filter (fun x => x ≠ m) },
        st.listeners.map fun l => (l, .abort m))

/-- Run a list of medium operations from a state, collecting deliveries. -/
def runMOpsFrom (st : MediumState) : List MOp → MediumState × List (ℕ × MEvent)
  | [] => (st, [])
  | op :: ops =>
      ((runMOpsFrom (applyMOp st op).1 ops).1,
        (applyMOp st op).2 ++ (runMOpsFrom (applyMOp st op).1 ops).2)

/-- Run a list of medium operations on a fresh `SimpleMedium`. -/
def mediumRun (ops : List MOp) : MediumState × List (ℕ × MEvent) :=
  runMOpsFrom { pmsg := [], listeners := [] } ops

/-- Whether message `m` is in its preamble phase after the operation `op`:
set by `msg_preamble`, cleared by `msg_payload` and `msg_abort`, untouched
by `msg_complete`. -/
def preambleStep (m : ℕ) (b : Bool) (op : MOp) : Bool :=
  match op with
  | .preamble m' _ => if m' = m then true else b
  | .payload m' => if m' = m then false else b
  | .abort m' => if m' = m then false else b
  | _ => b

/-- Whether message `m` is in its preamble phase after a run of `ops`. -/
def preamblePhase (ops : List MOp) (m : ℕ) : Bool :=
  ops.foldl (preambleStep m) false

/-- Does `op` add listener `l`? -/
def isAddListenerOf (l : ℕ) : MOp → Bool
  | .addListener l' _ => l' = l
  | _ => false

/-! ### UniversalGateway (lorawan.py, lines 66-91) -/

/-- `UniversalGateway.msg_complete` (lorawan.py lines 77-82): appends the
message to the uplink queue iff its source is not this gateway and its rps
is not IQ-inverted, after annotating `rssi = xpow - 50` and `snr = 10`.
`none` models the failing `assert msg.xpow is not None`.  The gateway is
identified by an opaque id, and `src is not self` is id inequality. -/
def gwMsgComplete (gwid : ℕ) (q : List LoraMsg) (m : LoraMsg) :
    Option (List LoraMsg) :=
  if m.src ≠ some gwid ∧ ¬ Rps.isIqInv m.rps then
    match m.xpow with
    | none => none
    | some p => some (q ++ [{ m with rssi := some (p - 50), snr := some 10 }])
  else some q

/-- The `msg.src = self` assignment of `UniversalGateway.sched_dn`
(lorawan.py lines 89-91) before the message is handed to the transmitter. -/
def schedDnTag (gwid : ℕ) (m : LoraMsg) : LoraMsg := { m with src := some gwid }

/-! ### LNS and SessionManager (lorawan.py, lines 102-223) -/

/-- Decoded Join-Request, as produced by the external `loramsg.unpack_jreq`. -/
structure JReq where
  deveui : ℕ
  devnonce : ℕ
  deriving DecidableEq

/-- A decoded uplink data frame, as produced by the external
`loramsg.unpack_dataframe`; only the fields the claims touch are kept. -/
structure UpDF where
  devaddr : ℤ
  fcnt : ℕ
  deriving DecidableEq

/-- Key-derivation tag `loramsg.KD_NwkSKey`. -/
def kdNwkSKey : ℕ := 1

/-- Key-derivation tag `loramsg.KD_AppSKey`. -/
def kdAppSKey : ℕ := 2

/-- The external byte-level codec and region data consumed by `LNS.join`
(spec §1 declares the `lorawan_codec` library out of scope; it is used only
through this interface). -/
structure JoinCodec where
  unpack_jreq : List ℕ → Option JReq
  verify_jreq : List ℕ → List ℕ → Bool
  dlsettings_pack : ℕ → ℕ → Bool → ℕ
  dlsettings_unpack : ℕ → ℕ × ℕ × Bool
  derive : List ℕ → ℕ → ℕ → ℕ → ℕ → List ℕ
  pack_jacc : List ℕ → ℕ → ℕ → ℤ → ℕ → ℕ → Option (List ℕ) → ℕ → List ℕ
  get_cflist : Option (List ℕ)
  crc_devaddr : ℕ → ℤ
  rx2dr_default : ℕ
  rx2freq : ℕ

/-- A LoRaWAN session as built by `LNS.join` (lorawan.py lines 194-208);
the `region` object is reduced to an opaque id. -/
structure Session where
  deveui : ℕ
  devaddr : ℤ
  nwkkey : List ℕ
  nwkskey : List ℕ
  appskey : List ℕ
  fcntup : ℕ
  fcntdn : ℕ
  rx1delay : ℕ
  rx1droff : ℕ
  rx2dr : ℕ
  rx2freq : ℕ
  devnonce : ℕ
  region : ℕ
  deriving DecidableEq

/-- `LNS.join` (lorawan.py lines 169-208).  Exceptions become
`Except.error`: a failed `unpack_jreq`, a failed MIC check, and the
`DevNonce is not strictly increasing` `ValueError`. -/
def LNS.join (c : JoinCodec) (pdu : List ℕ) (region : ℕ) (pdevnonce : ℤ)
    (nwkkey : List ℕ) (appnonce netid : ℕ) (devaddr : Option ℤ)
    (dlset : Option ℕ) (rxdly : ℕ) : Except String (List ℕ × Session) :=
  match c.unpack_jreq pdu with
  | none => .error "unpack_jreq failed"
  | some jreq =>
    if c.verify_jreq nwkkey pdu = false then .error "MIC verify failed"
    else if pdevnonce ≥ (jreq.devnonce : ℤ) then
      .error "DevNonce is not strictly increasing"
    else
      .ok (c.pack_jacc nwkkey appnonce netid
            (devaddr.getD (c.crc_devaddr jreq.deveui))
            (dlset.getD (c.dlsettings_pack 0 c.rx2dr_default false))
            rxdly c.get_cflist jreq.devnonce,
        { deveui := jreq.deveui,
          devaddr := devaddr.getD (c.crc_devaddr jreq.deveui),
          nwkkey := nwkkey,
          nwkskey := c.derive nwkkey jreq.devnonce appnonce netid kdNwkSKey,
          appskey := c.derive nwkkey jreq.devnonce appnonce netid kdAppSKey,
          fcntup := 0, fcntdn := 0, rx1delay := max rxdly 1,
          rx1droff := (c.dlsettings_unpack
            (dlset.getD (c.dlsettings_pack 0 c.rx2dr_default false))).1,
          rx2dr := (c.dlsettings_unpack
            (dlset.getD (c.dlsettings_pack 0 c.rx2dr_default false))).2.1,
          rx2freq := c.rx2freq,
          devnonce := jreq.devnonce, region := region })

/-- Python dict lookup `d.get(k, default=None)` on an insertion-ordered
association list. -/
def dictGet {α β : Type} [DecidableEq α] (k : α) : List (α × β) → Option β
  | [] => none
  | (k', v) :: rest => if k' = k then some v else dictGet k rest

/-- Python dict assignment `d[k] = v`: replace in place, else append. -/
def dictSet {α β : Type} [DecidableEq α] (k : α) (v : β) :
    List (α × β) → List (α × β)
  | [] => [(k, v)]
  | (k', v') :: rest =>
      if k' = k then (k', v) :: rest else (k', v') :: dictSet k v rest

/-- `d.setdefault(k, {})[k2] = v` on the two-level index. -/
def outerSet {α β : Type} [DecidableEq α] [DecidableEq β] (k : α) (k2 : β)
    (s : Session) : List (α × List (β × Session)) → List (α × List (β × Session))
  | [] => [(k, [(k2, s)])]
  | (k', inner) :: rest =>
      if k' = k then (k', dictSet k2 s inner) :: rest
      else (k', inner) :: outerSet k k2 s rest

/-- `SessionManager` (lorawan.py lines 102-140): two two-level indices,
kept as insertion-ordered association lists (Python dicts preserve
insertion order, which fixes the scan order of `try_unpack`). -/
structure SessionManager where
  addr2sess : List (ℤ × List (ℕ × Session))
  eui2sess : List (ℕ × List (ℤ × Session))
  deriving DecidableEq

/-- `SessionManager.add` (lorawan.py lines 107-111). -/
def SessionManager.add (sm : SessionManager) (s : Session) : SessionManager :=
  { addr2sess := outerSet s.devaddr s.deveui s sm.addr2sess,
    eui2sess := outerSet s.deveui s.devaddr s sm.eui2sess }

/-- `SessionManager.get_by_addr` (lorawan.py lines 126-131):
`list(d.get(k, {}).values())` in insertion order. -/
def SessionManager.get_by_addr (sm : SessionManager) (devaddr : ℤ) :
    List Session :=
  ((dictGet devaddr sm.addr2sess).getD []).map Prod.snd

/-- The scan loop of `LNS.try_unpack` (lorawan.py lines 210-216): return the
first session for which `unpack_dataframe` verifies; `udf` abstracts the
external `loramsg.unpack_dataframe pdu fcntup nwkskey appskey`, with `none`
modelling its `VerifyError`. -/
def tryUnpackGo (udf : List ℕ → ℕ → List ℕ → List ℕ → Option UpDF)
    (pdu : List ℕ) (devaddr : ℤ) : List Session → Except String (Session × UpDF)
  | [] => .error ("no matching session found for devaddr " ++ toString devaddr)
  | s :: rest =>
      match udf pdu s.fcntup s.nwkskey s.appskey with
      | some m => .ok (s, m)
      | none => tryUnpackGo udf pdu devaddr rest

/-- `LNS.try_unpack` (lorawan.py lines 210-216). -/
def LNS.try_unpack (udf : List ℕ → ℕ → List ℕ → List ℕ → Option UpDF)
    (sm : SessionManager) (pdu : List ℕ) (devaddr : ℤ) :
    Except String (Session × UpDF) :=
  tryUnpackGo udf pdu devaddr (sm.get_by_addr devaddr)

/-- `LNS.unpack` (lorawan.py lines 218-223): this is the function that
updates `fcntup` to the frame's `FCnt` (and asserts the DevAddr matches);
`try_unpack` does not call it. -/
def LNS.unpack (udf : List ℕ → ℕ → List ℕ → List ℕ → Option UpDF)
    (s : Session) (pdu : List ℕ) : Option (Session × UpDF) :=
  match udf pdu s.fcntup s.nwkskey s.appskey with
  | none => none
  | some m =>
      if s.devaddr = m.devaddr then some ({ s with fcntup := m.fcnt }, m)
      else none

/-- A concrete `unpack_dataframe` stub that accepts every frame as DevAddr
`1`, FCnt `7`: used to exhibit that `try_unpack` leaves `fcntup` alone. -/
def c5udf : List ℕ → ℕ → List ℕ → List ℕ → Option UpDF :=
  fun _ _ _ _ => some { devaddr := 1, fcnt := 7 }

/-- A concrete session with `fcntup = 0` registered under DevAddr `1`. -/
def c5sess : Session :=
  { deveui := 42, devaddr := 1, nwkkey := [], nwkskey := [], appskey := [],
    fcntup := 0, fcntdn := 0, rx1delay := 1, rx1droff := 0, rx2dr := 0,
    rx2freq := 869525000, devnonce := 5, region := 0 }

/-- A concrete codec stub for instantiating the join theorem. -/
def c4codec : JoinCodec :=
  { unpack_jreq := fun _ => some { deveui := 42, devnonce := 5 },
    verify_jreq := fun _ _ => true,
    dlsettings_pack := fun _ _ _ => 0,
    dlsettings_unpack := fun _ => (0, 0, false),
    derive := fun _ _ _ _ _ => [],
    pack_jacc := fun _ _ _ _ _ _ _ _ => [9],
    get_cflist := none,
    crc_devaddr := fun _ => 3,
    rx2dr_default := 0,
    rx2freq := 869525000 }

/-! ### Receiver / transmitter system (medium.py, lines 215-299)

`unicorn/simul/medium.py` drives `LoraMsgTransmitter` and `LoraMsgReceiver`
through `Runtime` and `JobGroup` from `unicorn/simul/runtime.py`, which is
not among the sources; the scheduler below is modelled from the spec.  The
system has one receiver (the claims' subject) and one transmitter per
message; message ids are indices into a fixed environment list. -/

instance : Inhabited LoraMsg := ⟨c1msgW⟩

/-- Message record for id `m` in the environment. -/
def msgAt (env : List LoraMsg) (m : ℕ) : LoraMsg := env.getD m default

/-- The `symdetect` constructor default of `LoraMsgReceiver` (line 248). -/
def symdetect : ℕ := 5

/-- The jobs of this system: the receiver's `rxstart`, named `timeout` and
`lock` jobs, and each transmitter's `txstart`/`txpayload`/`txdone`. -/
inductive SJobAct where
  | rxstart
  | rxtimeout
  | rxlock
  | txstart (m : ℕ)
  | txpayload (m : ℕ)
  | txdone (m : ℕ)
  deriving DecidableEq

/-- A scheduled job.  Modelled from the spec: `unicorn/simul/runtime.py` is
absent from the sources; per spec §3/§4.A a job is a closure with `{ticks,
cancelled}`, ordered by time with insertion order breaking ties. -/
structure SJob where
  time : ℚ
  seq : ℕ
  cancelled : Bool
  act : SJobAct
  deriving DecidableEq

/-- `LoraMsgReceiver` state (medium.py lines 247-268). -/
structure RcvState where
  freq : ℤ
  rps : ℕ
  minsyms : ℕ
  rxtime : ℚ
  msg : Option ℕ
  locked : Bool
  deriving DecidableEq

/-- Events recorded while the system runs (for stating claims): candidate
adoption, the `lock` job firing (with the candidate it locks), the
`timeout` job firing, and the medium's payload/complete phases. -/
inductive SEvent where
  | adopt (m : ℕ) (t : ℚ)
  | lock (cand : Option ℕ)
  | timeout
  | payload (m : ℕ)
  | complete (m : ℕ)
  deriving DecidableEq

/-- The whole simulation state: the single receiver, the medium's listener
flag (is the receiver subscribed?) and preamble set, the job queue, the
fresh sequence counter, the receive callback trace `cbs`, and the event
log. -/
structure Sys where
  listening : Bool
  pmsg : List ℕ
  rcv : RcvState
  queue : List SJob
  nseq : ℕ
  cbs : List (Option ℕ)
  log : List SEvent
  deriving DecidableEq

/-- Modelled from the spec: insert a job into the time-ordered queue;
equal-time jobs keep insertion order (spec §3 `Job`). -/
def insertJob (j : SJob) : List SJob → List SJob
  | [] => [j]
  | j' :: rest => if j.time < j'.time then j :: j' :: rest
      else j' :: insertJob j rest

/-- Modelled from the spec: `Runtime.schedule` / `JobGroup.schedule`. -/
def schedule (sys : Sys) (t : ℚ) (a : SJobAct) : Sys :=
  { sys with
    queue := insertJob ⟨t, sys.nseq, false, a⟩ sys.queue
    nseq := sys.nseq + 1 }

/-- Modelled from the spec: `JobGroup.cancel(name)` — mark the pending job
with this name cancelled (each named receiver job is identified by its
act). -/
def cancelAct (a : SJobAct) (q : List SJob) : List SJob :=
  q.map fun j => if j.act = a then { j with cancelled := true } else j

/-- Is this one of the receiver's `JobGroup` jobs? -/
def isRxAct : SJobAct → Bool
  | .rxstart => true
  | .rxtimeout => true
  | .rxlock => true
  | _ => false

/-- Modelled from the spec: `JobGroup.cancel_all()` for the receiver's job
group. -/
def cancelRxAll (q : List SJob) : List SJob :=
  q.map fun j => if isRxAct j.act then { j with cancelled := true } else j

/-- The adoption test of `LoraMsgReceiver.msg_preamble` (medium.py line
283): the message's frequency and rps must equal the receiver's exactly. -/
def rxMatch (env : List LoraMsg) (sys : Sys) (m : ℕ) : Prop :=
  (msgAt env m).freq = sys.rcv.freq ∧ (msgAt env m).rps = sys.rcv.rps

instance (env : List LoraMsg) (sys : Sys) (m : ℕ) :
    Decidable (rxMatch env sys m) := by unfold rxMatch; infer_instance

/-- The adoption branch of `LoraMsgReceiver.msg_preamble` (medium.py lines
284-285): remember the candidate and arm the `lock` job at
`t + symtime(self.rps, symdetect)` (`t` defaults to `msg.xbeg`). -/
def rxAdopt (env : List LoraMsg) (sys : Sys) (m : ℕ) (t : Option ℚ) : Sys :=
  let sys1 := schedule sys (t.getD (msgAt env m).xbeg
    + LoraMsg.symtime sys.rcv.rps symdetect) .rxlock
  { sys1 with
    rcv := { sys1.rcv with msg := some m }
    log := sys1.log ++ [.adopt m (t.getD (msgAt env m).xbeg)] }

/-- `LoraMsgReceiver.msg_preamble` (medium.py lines 280-285): adopt the
message as candidate iff it matches and no candidate is held. -/
def rxPreamble (env : List LoraMsg) (sys : Sys) (m : ℕ) (t : Option ℚ) : Sys :=
  if rxMatch env sys m ∧ sys.rcv.msg = none then rxAdopt env sys m t
  else sys

/-- `LoraMsgReceiver.msg_payload` (medium.py lines 291-294). -/
def rxPayload (sys : Sys) (m : ℕ) : Sys :=
  if sys.rcv.msg = some m ∧ sys.rcv.locked = false then
    { sys with
      queue := cancelAct .rxlock sys.queue
      rcv := { sys.rcv with msg := none } }
  else sys

/-- `LoraMsgReceiver.msg_complete` (medium.py lines 296-299). -/
def rxComplete (sys : Sys) (m : ℕ) : Sys :=
  if sys.rcv.msg = some m ∧ sys.rcv.locked = true then
    { sys with cbs := sys.cbs ++ [some m] }
  else sys

/-- `SimpleMedium.add_listener` replay loop (medium.py lines 185-188) as
seen by the single receiver: deliver `msg_preamble(msg, t)` for every
in-flight message with `t = rxtime`. -/
def rxReplay (env : List LoraMsg) (sys : Sys) : List ℕ → Sys
  | [] => sys
  | m :: rest => rxReplay env (rxPreamble env sys m (some sys.rcv.rxtime)) rest

/-- Run one job (medium.py lines 230-245 for the transmitter and 270-299
for the receiver, with the `SimpleMedium` fan-out of lines 193-212 inlined
for the single listener). -/
def runAct (env : List LoraMsg) (sys : Sys) (a : SJobAct) : Sys :=
  match a with
  | .txstart m =>
      let sys1 := { sys with pmsg := setInsert m sys.pmsg }
      let sys2 := if sys1.listening then rxPreamble env sys1 m none else sys1
      schedule sys2 (msgAt env m).xpld (.txpayload m)
  | .txpayload m =>
      let sys1 := { sys with
        pmsg := sys.pmsg.filter (fun x => x ≠ m)
        log := sys.log ++ [.payload m] }
      let sys2 := if sys1.listening then rxPayload sys1 m else sys1
      schedule sys2 (msgAt env m).xend (.txdone m)
  | .txdone m =>
      let sys1 := { sys with log := sys.log ++ [.complete m] }
      if sys1.listening then rxComplete sys1 m else sys1
  | .rxstart =>
      let sys1 := { sys with listening := true }
      let sys2 := rxReplay env sys1 sys1.pmsg
      schedule sys2 (sys2.rcv.rxtime
        + LoraMsg.symtime sys2.rcv.rps sys2.rcv.minsyms) .rxtimeout
  | .rxtimeout =>
      { sys with
        listening := false
        queue := cancelRxAll sys.queue
        cbs := sys.cbs ++ [none]
        log := sys.log ++ [.timeout] }
  | .rxlock =>
      { sys with
        queue := cancelAct .rxtimeout sys.queue
        rcv := { sys.rcv with locked := true }
        log := sys.log ++ [.lock sys.rcv.msg] }

/-- Modelled from the spec: one scheduler step — pop the earliest job, skip
it if cancelled, otherwise run it. -/
def drainStep (env : List LoraMsg) (sys : Sys) : Sys :=
  match sys.queue with
  | [] => sys
  | j :: rest =>
      if j.cancelled then { sys with queue := rest }
      else runAct env { sys with queue := rest } j.act

/-- Modelled from the spec: run the scheduler to quiescence (with fuel; the
claims assume a full drain, i.e. an empty final queue). -/
def drain (env : List LoraMsg) : ℕ → Sys → Sys
  | 0, sys => sys
  | fuel + 1, sys =>
      match sys.queue with
      | [] => sys
      | j :: rest =>
          drain env fuel (if j.cancelled then { sys with queue := rest }
            else runAct env { sys with queue := rest } j.act)

/-- `LoraMsgReceiver.receive` (medium.py lines 256-268): FSK rps collapses
to `0`; state is reset and `rxstart` is scheduled at `rxtime`. -/
def receiveCall (sys : Sys) (rxtime : ℚ) (freq : ℤ) (rps : ℕ)
    (minsyms : ℕ) : Sys :=
  schedule
    { sys with rcv := ⟨freq, if Rps.isFSK rps then 0 else rps,
        minsyms, rxtime, none, false⟩ }
    rxtime .rxstart

/-- `LoraMsgTransmitter.transmit` (medium.py lines 225-228) for message
id `m`: schedule `txstart` at `msg.xbeg`. -/
def transmitCall (env : List LoraMsg) (sys : Sys) (m : ℕ) : Sys :=
  schedule sys (msgAt env m).xbeg (.txstart m)

/-- Transmit message ids `[0, n)` in order. -/
def transmitAll (env : List LoraMsg) (sys : Sys) : ℕ → Sys
  | 0 => sys
  | n + 1 => transmitCall env (transmitAll env sys n) n

/-- The empty system. -/
def sys0 : Sys :=
  ⟨false, [], ⟨0, 0, 0, 0, none, false⟩, [], 0, [], []⟩

/-- The initial system of the receive claims: every message of `env` is
handed to its transmitter, then `receive(t, f, r, minsyms=k)` is called. -/
def sysInit (env : List LoraMsg) (t : ℚ) (freq : ℤ) (rps : ℕ)
    (minsyms : ℕ) : Sys :=
  receiveCall (transmitAll env sys0 env.length) t freq rps minsyms

/-- Pending (uncancelled) jobs with a given act. -/
def nPend (q : List SJob) (a : SJobAct) : ℕ :=
  q.countP fun j => decide (j.act = a) && !j.cancelled

/-- No adoption event in the log. -/
def noAdoptEv (L : List SEvent) : Prop := ∀ m t, SEvent.adopt m t ∉ L

/-- No lock event in the log. -/
def noLockEv (L : List SEvent) : Prop := ∀ c, SEvent.lock c ∉ L

/-- Transmission lifecycle of message id `m`: untransmitted or not yet
started / in preamble (in `pmsg`) / in payload / completed, with the
matching pending jobs and logged phases. -/
def TxInv (sys : Sys) (m : ℕ) : Prop :=
  (nPend sys.queue (.txstart m) = 1 ∧ nPend sys.queue (.txpayload m) = 0
    ∧ nPend sys.queue (.txdone m) = 0 ∧ m ∉ sys.pmsg
    ∧ SEvent.payload m ∉ sys.log ∧ SEvent.complete m ∉ sys.log)
  ∨ (nPend sys.queue (.txstart m) = 0 ∧ nPend sys.queue (.txpayload m) = 1
    ∧ nPend sys.queue (.txdone m) = 0 ∧ m ∈ sys.pmsg
    ∧ SEvent.payload m ∉ sys.log ∧ SEvent.complete m ∉ sys.log)
  ∨ (nPend sys.queue (.txstart m) = 0 ∧ nPend sys.queue (.txpayload m) = 0
    ∧ nPend sys.queue (.txdone m) = 1 ∧ m ∉ sys.pmsg
    ∧ SEvent.payload m ∈ sys.log ∧ SEvent.complete m ∉ sys.log)
  ∨ (nPend sys.queue (.txstart m) = 0 ∧ nPend sys.queue (.txpayload m) = 0
    ∧ nPend sys.queue (.txdone m) = 0 ∧ m ∉ sys.pmsg
    ∧ SEvent.payload m ∈ sys.log ∧ SEvent.complete m ∈ sys.log)
  ∨ (nPend sys.queue (.txstart m) = 0 ∧ nPend sys.queue (.txpayload m) = 0
    ∧ nPend sys.queue (.txdone m) = 0 ∧ m ∉ sys.pmsg
    ∧ SEvent.payload m ∉ sys.log ∧ SEvent.complete m ∉ sys.log)

/-- Receiver phase: `receive` called, `rxstart` still pending. -/
def RxPh0 (sys : Sys) : Prop :=
  sys.listening = false ∧ sys.rcv.msg = none ∧ sys.rcv.locked = false
  ∧ nPend sys.queue .rxstart = 1 ∧ nPend sys.queue .rxtimeout = 0
  ∧ nPend sys.queue .rxlock = 0
  ∧ noAdoptEv sys.log ∧ noLockEv sys.log ∧ SEvent.timeout ∉ sys.log
  ∧ sys.cbs = []

/-- Receiver phase: listening, not locked, timeout armed; either no
candidate, or an adopted candidate with its `lock` job pending and its
payload phase not yet begun. -/
def RxPh1 (sys : Sys) : Prop :=
  sys.listening = true ∧ sys.rcv.locked = false
  ∧ nPend sys.queue .rxstart = 0 ∧ nPend sys.queue .rxtimeout = 1
  ∧ noLockEv sys.log ∧ SEvent.timeout ∉ sys.log ∧ sys.cbs = []
  ∧ ((sys.rcv.msg = none ∧ nPend sys.queue .rxlock = 0)
    ∨ (∃ m, sys.rcv.msg = some m ∧ nPend sys.queue .rxlock = 1
        ∧ (∃ tp, SEvent.adopt m tp ∈ sys.log)
        ∧ SEvent.payload m ∉ sys.log ∧ SEvent.complete m ∉ sys.log))

/-- Receiver phase: locked onto candidate `m`; the callback fires with `m`
exactly when `m` completes. -/
def RxPh2 (sys : Sys) : Prop :=
  ∃ m, sys.listening = true ∧ sys.rcv.locked = true ∧ sys.rcv.msg = some m
  ∧ nPend sys.queue .rxstart = 0 ∧ nPend sys.queue .rxtimeout = 0
  ∧ nPend sys.queue .rxlock = 0
  ∧ (∃ tp, SEvent.adopt m tp ∈ sys.log)
  ∧ SEvent.lock (some m) ∈ sys.log
  ∧ (∀ c, SEvent.lock c ∈ sys.log → c = some m)
  ∧ SEvent.timeout ∉ sys.log
  ∧ ((SEvent.complete m ∈ sys.log ∧ sys.cbs = [some m])
    ∨ (SEvent.complete m ∉ sys.log ∧ sys.cbs = []))

/-- Receiver phase: timed out — listener removed, receiver jobs cancelled,
callback fired once with `None`. -/
def RxPh3 (sys : Sys) : Prop :=
  sys.listening = false ∧ sys.rcv.locked = false
  ∧ nPend sys.queue .rxstart = 0 ∧ nPend sys.queue .rxtimeout = 0
  ∧ nPend sys.queue .rxlock = 0
  ∧ noLockEv sys.log ∧ SEvent.timeout ∈ sys.log
  ∧ sys.cbs = [none]

/-- The full system invariant preserved by the scheduler. -/
def SysInv (sys : Sys) : Prop :=
  (∀ m, TxInv sys m) ∧ (RxPh0 sys ∨ RxPh1 sys ∨ RxPh2 sys ∨ RxPh3 sys)

/-- An FSK message (low three rps bits zero) with nonzero bandwidth bits:
`LoraMsg(0.0, b'', 868, rps=8)`.  FSK airtime ignores the remaining bits,
so the times equal those of `c1msgW`. -/
def c6msg : LoraMsg :=
  { pdu := [], freq := 868, rps := 8, xpow := none, rssi := none, snr := none,
    dro := 0, npreamble := 8, src := none,
    xbeg := 0, xpld := 4 / 3125, xend := 7 / 3125 }

/-! ### `Runtime` scheduling (nsimul/runtime.py) over CPython `heapq`

`Runtime.schedule` pushes jobs onto a binary heap with `heapq.heappush`;
`Job.__lt__` (runtime.py lines 38-41) compares `_ticks` only.  `step`
(lines 84-93) pops and runs every job due at the captured `now`; running a
job may schedule further jobs (`rewind` is a no-op during the sweep since
`self.stepping` is set).  The heap routines below transcribe CPython's
`heapq._siftdown`, `heapq._siftup`, `heappush` and `heappop`; loops are
fuelled, with enough fuel to agree with the unbounded originals. -/

/-- What a job's `run()` does: schedule further jobs, each with its own
ticks and behaviour.  `Act.nil` is a no-op callback. -/
inductive Act where
  | nil : Act
  | cons (t : ℤ) (child : Act) (rest : Act) : Act
  deriving DecidableEq

/-- A `Job` after `_prepare` (runtime.py lines 33-47): `_ticks` (the only
field `__lt__` compares), `_cancelled`, and its behaviour; `seq` records
the order of `schedule` calls (for stating the claims only — the code
keeps no such field). -/
structure Job where
  ticks : ℤ
  seq : ℕ
  cancelled : Bool
  act : Act
  deriving DecidableEq

instance : Inhabited Job := ⟨⟨0, 0, false, Act.nil⟩⟩

/-- `heap[i]` (total, with a default). -/
def hget (h : List Job) (i : ℕ) : Job := h.getD i default

/-- CPython `heapq._siftdown(heap, startpos, pos)`: bubble `newitem` up
from `pos` toward `startpos`.  Fuel `≥ pos` makes the recursion agree with
the loop, since the position strictly decreases. -/
def siftdownGo : ℕ → List Job → ℕ → ℕ → Job → List Job
  | 0, h, _, pos, newitem => h.set pos newitem
  | fuel + 1, h, startpos, pos, newitem =>
      if startpos < pos then
        if newitem.ticks < (hget h ((pos - 1) / 2)).ticks then
          siftdownGo fuel (h.set pos (hget h ((pos - 1) / 2))) startpos
            ((pos - 1) / 2) newitem
        else h.set pos newitem
      else h.set pos newitem

/-- CPython `heapq._siftdown`. -/
def siftdown (h : List Job) (startpos pos : ℕ) : List Job :=
  siftdownGo pos h startpos pos (hget h pos)

/-- CPython `heapq.heappush`: append, then sift down from the new slot. -/
def heappush (h : List Job) (x : Job) : List Job :=
  siftdown (h ++ [x]) 0 h.length

/-- The walk of CPython `heapq._siftup`: move the smaller child up until
reaching a leaf; returns the array and the final hole position.  Fuel
`≥ length - pos` suffices, since the position strictly increases. -/
def siftupGo : ℕ → List Job → ℕ → List Job × ℕ
  | 0, h, pos => (h, pos)
  | fuel + 1, h, pos =>
      if 2 * pos + 1 < h.length then
        if 2 * pos + 2 < h.length
            ∧ ¬((hget h (2 * pos + 1)).ticks
                < (hget h (2 * pos + 2)).ticks) then
          siftupGo fuel (h.set pos (hget h (2 * pos + 2))) (2 * pos + 2)
        else
          siftupGo fuel (h.set pos (hget h (2 * pos + 1))) (2 * pos + 1)
      else (h, pos)

/-- CPython `heapq._siftup(heap, pos)`: walk the hole to a leaf, place the
item there and bubble it up with `_siftdown(heap, pos, leafpos)`. -/
def siftup (h : List Job) (pos : ℕ) : List Job :=
  siftdown
    ((siftupGo h.length h pos).1.set (siftupGo h.length h pos).2
      (hget h pos))
    pos (siftupGo h.length h pos).2

def heappop (h : List Job) : Option (Job × List Job) :=
  match h with
  | [] => none
  | _ :: _ =>
      if h.length = 1 then some (hget h 0, [])
      else some (hget h 0, siftup (h.dropLast.set 0 (hget h (h.length - 1))) 0)

/-- `Runtime.schedule(t, job)` (runtime.py lines 73-78) with integer
ticks: `job._prepare(t)` resets the cancelled flag, then `heappush`.
(`rewind` only re-arms the asyncio wake-up and prunes cancelled heap
prefixes, which `step` skips anyway.) -/
def rtSchedule (h : List Job) (n : ℕ) (t : ℤ) (a : Act) : List Job × ℕ :=
  (heappush h ⟨t, n, false, a⟩, n + 1)

/-- Run a job's callbacks: schedule each requested job in order (the
`rewind` inside `schedule` returns immediately while stepping).  Returns
the heap, the next sequence number, and the jobs pushed. -/
def pushAct : List Job → ℕ → Act → List Job × ℕ × List Job
  | h, n, Act.nil => (h, n, [])
  | h, n, Act.cons t child rest =>
      ((pushAct (heappush h ⟨t, n, false, child⟩) (n + 1) rest).1,
        (pushAct (heappush h ⟨t, n, false, child⟩) (n + 1) rest).2.1,
        ⟨t, n, false, child⟩
          :: (pushAct (heappush h ⟨t, n, false, child⟩) (n + 1) rest).2.2)

structure StepRes where
  heap : List Job
  nseq : ℕ
  trace : List Job
  skipped : List Job
  pushed : List Job
  deriving DecidableEq

/-- One `Runtime.step()` sweep (runtime.py lines 84-93):
`while jobs and jobs[0]._ticks <= now: j = heappop(jobs); if not
j._cancelled: j.run()`.  `trace` records the jobs run in order, `skipped`
the cancelled pops, `pushed` the jobs scheduled by running jobs. -/
def stepGo : ℕ → ℤ → List Job → ℕ → StepRes
  | 0, _, h, n => ⟨h, n, [], [], []⟩
  | fuel + 1, now, h, n =>
      match h with
      | [] => ⟨h, n, [], [], []⟩
      | _ :: _ =>
          if (hget h 0).ticks ≤ now then
            match heappop h with
            | none => ⟨h, n, [], [], []⟩
            | some (j, h1) =>
                if j.cancelled then
                  let r := stepGo fuel now h1 n
                  ⟨r.heap, r.nseq, r.trace, j :: r.skipped, r.pushed⟩
                else
                  let p := pushAct h1 n j.act
                  let r := stepGo fuel now p.1 p.2.1
                  ⟨r.heap, r.nseq, j :: r.trace, r.skipped, p.2.2 ++ r.pushed⟩
          else ⟨h, n, [], [], []⟩

/-- `Runtime.step()` with the captured `now`. -/
def rtStep (fuel : ℕ) (now : ℤ) (h : List Job) (n : ℕ) : StepRes :=
  stepGo fuel now h n

/-- The binary-heap invariant maintained by `heapq`: every element is at
least its parent (comparison on `_ticks`, as by `Job.__lt__`). -/
def heapInv (h : List Job) : Prop :=
  ∀ i, i < h.length → 0 < i →
    (hget h ((i - 1) / 2)).ticks ≤ (hget h i).ticks

instance (h : List Job) : Decidable (heapInv h) := by
  unfold heapInv
  infer_instance

/-- The sweep is over: nothing remains, or the earliest job is later than
`now`. -/
def sweepDone (r : StepRes) (now : ℤ) : Prop :=
  r.heap = [] ∨ now < (hget r.heap 0).ticks

instance (r : StepRes) (now : ℤ) : Decidable (sweepDone r now) := by
  unfold sweepDone
  infer_instance

/-- The `schedule` sequence of the C3 counterexample: three no-op jobs
with ticks `1`, `1`, `0`, in this order. -/
def c3heap : List Job :=
  (rtSchedule (rtSchedule (rtSchedule [] 0 1 Act.nil).1 1 1 Act.nil).1
    2 0 Act.nil).1

/-- Invariant of the `_siftdown` bubble-up loop: the array with `x`
placed in the hole at `pos` is a heap except possibly between `pos` and
its parent, and the hole's children are at least the hole's parent. -/
def bubbleInv (h : List Job) (pos : ℕ) (x : Job) : Prop :=
  (∀ i, i < h.length → 0 < i → i ≠ pos →
    (hget (h.set pos x) ((i - 1) / 2)).ticks
      ≤ (hget (h.set pos x) i).ticks)
  ∧ (0 < pos → ∀ c, c < h.length → 0 < c → (c - 1) / 2 = pos →
      (hget h ((pos - 1) / 2)).ticks ≤ (hget h c).ticks)

/-- Invariant of the `_siftup` walk-down loop: heap everywhere except at
the hole `pos` (as child or parent), and the hole's children are at least
the hole's parent. -/
def walkInv (h : List Job) (pos : ℕ) : Prop :=
  (∀ i, i < h.length → 0 < i → i ≠ pos → (i - 1) / 2 ≠ pos →
    (hget h ((i - 1) / 2)).ticks ≤ (hget h i).ticks)
  ∧ (0 < pos → ∀ c, c < h.length → 0 < c → (c - 1) / 2 = pos →
      (hget h ((pos - 1) / 2)).ticks ≤ (hget h c).ticks)

/-! ## Theorems -/

/-! ### Bit-level helpers for the Rps encoding -/

/-- Disjoint bit-or is addition: if `a` fits below bit `k`, or-ing in `b <<< k`
is the same as adding it. -/
theorem lor_shiftLeft_eq_add : ∀ (k a b : ℕ), a < 2 ^ k → a ||| b <<< k = a + b <<< k := by
  intro k
  induction k with
  | zero =>
    intro a b h
    have ha : a = 0 := by omega
    simp [ha, Nat.shiftLeft_zero, Nat.zero_or]
  | succ k ih =>
    intro a b h
    have hd : a.div2 < 2 ^ k := by
      rw [Nat.div2_val]
      have : 2 ^ (k + 1) = 2 * 2 ^ k := by ring
      omega
    have hbit : a = Nat.bit a.bodd a.div2 := (Nat.bit_decomp a).symm
    have hsh : b <<< (k + 1) = Nat.bit false (b <<< k) := by
      rw [Nat.bit_val]
      simp [Nat.shiftLeft_succ, Nat.shiftLeft_eq]
    rw [hbit, hsh, Nat.lor_bit, ih _ b hd]
    rw [Nat.bit_val, Nat.bit_val, Nat.bit_val]
    cases a.bodd <;> simp <;> ring

/-- `Rps.bwIndex` inverts the bandwidth table. -/
theorem bwIndex_spec (bw idx : ℕ) (h : Rps.bwIndex bw = some idx) :
    idx ≤ 2 ∧ (1 <<< idx) * 125000 = bw := by
  unfold Rps.bwIndex at h
  split_ifs at h with h1 h2 h3
  · injection h with h'
    subst h'
    subst h1
    exact ⟨by omega, by decide⟩
  · injection h with h'
    subst h'
    subst h2
    exact ⟨by omega, by decide⟩
  · injection h with h'
    subst h'
    subst h3
    exact ⟨by omega, by decide⟩

/-- Closed arithmetic form of `Rps.makeRps` on the documented domain. -/
theorem makeRps_nf (sf bw cr crc ih : ℕ) (iq : Bool) (idx : ℕ)
    (hsf1 : 7 ≤ sf) (hsf2 : sf ≤ 12) (hcr1 : 1 ≤ cr) (hcr2 : cr ≤ 4)
    (hcrc : crc ≤ 1) (hih : ih ≤ 255) (hbw : Rps.bwIndex bw = some idx) :
    Rps.makeRps sf bw cr crc ih iq =
      some ((sf - 6) + 8 * idx + 32 * (cr - 1) + 128 * (crc ^^^ 1) + 256 * ih
        + (if iq then 65536 else 0)) := by
  obtain ⟨hidx, -⟩ := bwIndex_spec bw idx hbw
  have hd : crc ^^^ 1 ≤ 1 := by interval_cases crc <;> decide
  have hih255 : ih &&& 0xFF = ih := by
    have h := Nat.and_pow_two_sub_one_eq_mod ih 8
    have h2 : (2 : ℕ) ^ 8 - 1 = 0xFF := by norm_num
    rw [h2] at h
    omega
  have p3 : (2 : ℕ) ^ 3 = 8 := by norm_num
  have p5 : (2 : ℕ) ^ 5 = 32 := by norm_num
  have p7 : (2 : ℕ) ^ 7 = 128 := by norm_num
  have p8 : (2 : ℕ) ^ 8 = 256 := by norm_num
  have p16 : (2 : ℕ) ^ 16 = 65536 := by norm_num
  unfold Rps.makeRps
  rw [if_pos (by omega : sf ≠ 0), hbw, Option.map_some', hih255]
  have s1 : (sf - 6) ||| idx <<< 3 = sf - 6 + 8 * idx := by
    rw [lor_shiftLeft_eq_add 3 _ idx (by omega), Nat.shiftLeft_eq]
    omega
  rw [s1]
  have s2 : (sf - 6 + 8 * idx) ||| (cr - 1) <<< 5
      = sf - 6 + 8 * idx + 32 * (cr - 1) := by
    rw [lor_shiftLeft_eq_add 5 _ _ (by omega), Nat.shiftLeft_eq]
    omega
  rw [s2]
  have s3 : (sf - 6 + 8 * idx + 32 * (cr - 1)) ||| (crc ^^^ 1) <<< 7
      = sf - 6 + 8 * idx + 32 * (cr - 1) + 128 * (crc ^^^ 1) := by
    rw [lor_shiftLeft_eq_add 7 _ _ (by omega), Nat.shiftLeft_eq]
    omega
  rw [s3]
  have s4 : (sf - 6 + 8 * idx + 32 * (cr - 1) + 128 * (crc ^^^ 1)) ||| ih <<< 8
      = sf - 6 + 8 * idx + 32 * (cr - 1) + 128 * (crc ^^^ 1) + 256 * ih := by
    rw [lor_shiftLeft_eq_add 8 _ _ (by omega), Nat.shiftLeft_eq]
    omega
  rw [s4]
  cases iq with
  | false => simp [Nat.or_zero]
  | true =>
    have hiq : Rps.IQINV = 1 <<< 16 := rfl
    simp only [if_true]
    rw [hiq, lor_shiftLeft_eq_add 16 _ 1 (by omega), Nat.shiftLeft_eq]

/-- Base-2 digit extraction from the packed Rps word. -/
theorem nf_digits (s6 idx c1 d ih f : ℕ) (h1 : 1 ≤ s6) (h2 : s6 ≤ 6)
    (h3 : idx ≤ 2) (h4 : c1 ≤ 3) (h5 : d ≤ 1) (h6 : ih ≤ 255) (h7 : f ≤ 1) :
    (s6 + 8 * idx + 32 * c1 + 128 * d + 256 * ih + 65536 * f) % 8 = s6
    ∧ (s6 + 8 * idx + 32 * c1 + 128 * d + 256 * ih + 65536 * f) / 8 % 4 = idx
    ∧ (s6 + 8 * idx + 32 * c1 + 128 * d + 256 * ih + 65536 * f) / 32 % 4 = c1
    ∧ (s6 + 8 * idx + 32 * c1 + 128 * d + 256 * ih + 65536 * f) / 128 % 2 = d
    ∧ (s6 + 8 * idx + 32 * c1 + 128 * d + 256 * ih + 65536 * f) / 256 % 256 = ih
    ∧ (s6 + 8 * idx + 32 * c1 + 128 * d + 256 * ih + 65536 * f) / 65536 = f := by
  omega

/-- The five getters and `isIqInv` on the packed normal form. -/
theorem rps_getters_nf (sf idx cr crc ih : ℕ) (iq : Bool)
    (hsf1 : 7 ≤ sf) (hsf2 : sf ≤ 12) (hidx : idx ≤ 2) (hcr1 : 1 ≤ cr) (hcr2 : cr ≤ 4)
    (hcrc : crc ≤ 1) (hih : ih ≤ 255) :
    Rps.getSf ((sf - 6) + 8 * idx + 32 * (cr - 1) + 128 * (crc ^^^ 1) + 256 * ih
        + (if iq then 65536 else 0)) = sf
    ∧ Rps.getBw ((sf - 6) + 8 * idx + 32 * (cr - 1) + 128 * (crc ^^^ 1) + 256 * ih
        + (if iq then 65536 else 0)) = (1 <<< idx) * 125000
    ∧ Rps.getCr ((sf - 6) + 8 * idx + 32 * (cr - 1) + 128 * (crc ^^^ 1) + 256 * ih
        + (if iq then 65536 else 0)) = cr
    ∧ Rps.getCrc ((sf - 6) + 8 * idx + 32 * (cr - 1) + 128 * (crc ^^^ 1) + 256 * ih
        + (if iq then 65536 else 0)) = crc
    ∧ Rps.getIh ((sf - 6) + 8 * idx + 32 * (cr - 1) + 128 * (crc ^^^ 1) + 256 * ih
        + (if iq then 65536 else 0)) = ih
    ∧ Rps.isIqInv ((sf - 6) + 8 * idx + 32 * (cr - 1) + 128 * (crc ^^^ 1) + 256 * ih
        + (if iq then 65536 else 0)) = iq := by
  have hd : crc ^^^ 1 ≤ 1 := by interval_cases crc <;> decide
  have hdxor : (crc ^^^ 1) ^^^ 1 = crc := by interval_cases crc <;> decide
  have hfeq : (if iq then 65536 else 0) = 65536 * (if iq then 1 else 0) := by
    cases iq <;> simp
  rw [hfeq]
  have hf : (if iq then 1 else 0) ≤ 1 := by cases iq <;> simp
  obtain ⟨d1, d2, d3, d4, d5, d6⟩ :=
    nf_digits (sf - 6) idx (cr - 1) (crc ^^^ 1) ih (if iq then 1 else 0)
      (by omega) (by omega) hidx (by omega) hd hih hf
  have m3 : ∀ x : ℕ, x &&& 7 = x % 8 := by
    intro x
    have h := Nat.and_pow_two_sub_one_eq_mod x 3
    norm_num at h
    exact h
  have m2 : ∀ x : ℕ, x &&& 3 = x % 4 := by
    intro x
    have h := Nat.and_pow_two_sub_one_eq_mod x 2
    norm_num at h
    exact h
  have m1 : ∀ x : ℕ, x &&& 1 = x % 2 := by
    intro x
    simpa using Nat.and_pow_two_sub_one_eq_mod x 1
  have m8 : ∀ x : ℕ, x &&& 255 = x % 256 := by
    intro x
    have h := Nat.and_pow_two_sub_one_eq_mod x 8
    norm_num at h
    exact h
  have r3 : ∀ x : ℕ, x >>> 3 = x / 8 := by
    intro x
    have h := Nat.shiftRight_eq_div_pow x 3
    norm_num at h
    exact h
  have r5 : ∀ x : ℕ, x >>> 5 = x / 32 := by
    intro x
    have h := Nat.shiftRight_eq_div_pow x 5
    norm_num at h
    exact h
  have r7 : ∀ x : ℕ, x >>> 7 = x / 128 := by
    intro x
    have h := Nat.shiftRight_eq_div_pow x 7
    norm_num at h
    exact h
  have r8 : ∀ x : ℕ, x >>> 8 = x / 256 := by
    intro x
    have h := Nat.shiftRight_eq_div_pow x 8
    norm_num at h
    exact h
  refine ⟨?_, ?_, ?_, ?_, ?_, ?_⟩
  · simp only [Rps.getSf, m3, d1]
    rw [if_pos (by omega)]
    omega
  · simp only [Rps.getBw, r3, m2, d2]
  · simp only [Rps.getCr, r5, m2, d3]
    omega
  · simp only [Rps.getCrc, r7, m1, d4, hdxor]
  · simp only [Rps.getIh, m8, r8, d5]
  · simp only [Rps.isIqInv]
    have hand := Nat.and_two_pow
      ((sf - 6) + 8 * idx + 32 * (cr - 1) + 128 * (crc ^^^ 1) + 256 * ih
        + 65536 * (if iq then 1 else 0)) 16
    have htb := @Nat.testBit_to_div_mod 16
      ((sf - 6) + 8 * idx + 32 * (cr - 1) + 128 * (crc ^^^ 1) + 256 * ih
        + 65536 * (if iq then 1 else 0))
    have hp16 : (2 : ℕ) ^ 16 = 65536 := by norm_num
    rw [hp16] at hand htb
    rw [d6] at htb
    have hIQ : Rps.IQINV = 65536 := by decide
    rw [hIQ, hand, htb]
    cases iq <;> simp

/-- C9 (amended): on the documented domain (`sf` in `7..12`, `bw` in
`{125000, 250000, 500000}`, `cr` in `1..4`, `crc ≤ 1`, `ih ≤ 255`) the five
getters and `isIqInv` invert `makeRps`; `makeRps` with `sf = 0` yields `0`;
and `validate` succeeds exactly when the decoded `sf` is `0`, or the decoded
`sf` is in `7..12`, the decoded `bw` is one of the three table entries, and
the decoded `ih` and `crc` are in `{0,1}`.  (The bandwidth condition is the
amendment: the claim's domain omitted it.) -/
theorem c9_rps_roundtrip_validate :
    (∀ sf bw cr crc ih iq rps,
        7 ≤ sf → sf ≤ 12 → 1 ≤ cr → cr ≤ 4 → crc ≤ 1 → ih ≤ 255 →
        Rps.makeRps sf bw cr crc ih iq = some rps →
        Rps.getSf rps = sf ∧ Rps.getBw rps = bw ∧ Rps.getCr rps = cr ∧
          Rps.getCrc rps = crc ∧ Rps.getIh rps = ih ∧ Rps.isIqInv rps = iq)
    ∧ (∀ bw cr crc ih iq, Rps.makeRps 0 bw cr crc ih iq = some 0)
    ∧ (∀ rps, Rps.validateB rps = true ↔
        (Rps.getSf rps = 0 ∨ (7 ≤ Rps.getSf rps ∧ Rps.getSf rps ≤ 12 ∧
          (Rps.getBw rps = 125000 ∨ Rps.getBw rps = 250000 ∨ Rps.getBw rps = 500000) ∧
          Rps.getIh rps ≤ 1 ∧ Rps.getCrc rps ≤ 1))) := by
  refine ⟨?_, ?_, ?_⟩
  · intro sf bw cr crc ih iq rps h1 h2 h3 h4 h5 h6 hmk
    cases hbwi : Rps.bwIndex bw with
    | none =>
      exfalso
      unfold Rps.makeRps at hmk
      rw [if_pos (by omega : sf ≠ 0), hbwi] at hmk
      simp at hmk
    | some idx =>
      have hnf := makeRps_nf sf bw cr crc ih iq idx h1 h2 h3 h4 h5 h6 hbwi
      rw [hnf] at hmk
      injection hmk with h'
      subst h'
      obtain ⟨hidx, hbwval⟩ := bwIndex_spec bw idx hbwi
      have hg := rps_getters_nf sf idx cr crc ih iq h1 h2 hidx h3 h4 h5 h6
      rw [hbwval] at hg
      exact hg
  · intro bw cr crc ih iq
    unfold Rps.makeRps
    simp
  · intro rps
    unfold Rps.validateB
    by_cases h0 : Rps.getSf rps = 0
    · rw [if_neg (by simpa using h0)]
      simp [h0]
    · rw [if_pos h0, decide_eq_true_eq]
      have hcrB : (rps >>> 5) &&& 3 ≤ 3 := Nat.and_le_right
      constructor
      · rintro ⟨hbw, ⟨hs1, hs2⟩, -, hih, hcrc⟩
        exact Or.inr ⟨hs1, hs2, hbw, by omega, by omega⟩
      · rintro (h | ⟨hs1, hs2, hbw, hih, hcrc⟩)
        · exact absurd h h0
        · refine ⟨hbw, ⟨hs1, hs2⟩, ⟨?_, ?_⟩, by omega, by omega⟩
          · unfold Rps.getCr
            omega
          · unfold Rps.getCr
            omega

/-- C9 counterexample: `rps = 25` decodes to `sf = 7` with `ih` and `crc` in
`{0,1}`, so it lies in the domain the claim states for `validate`, yet
`validate` rejects it (its decoded bandwidth index `3` maps to `1000000`,
which is unsupported). -/
theorem c9_counterexample :
    Rps.validateB 25 = false ∧ Rps.getSf 25 = 7
      ∧ (Rps.getIh 25 = 0 ∨ Rps.getIh 25 = 1)
      ∧ (Rps.getCrc 25 = 0 ∨ Rps.getCrc 25 = 1) := by
  decide

/-- Witness for C9: the round-trip theorem applied at
`makeRps 7 125000 1 1 0 false = some 1`. -/
theorem c9_witness :
    Rps.makeRps 7 125000 1 1 0 false = some 1 ∧
      (Rps.getSf 1 = 7 ∧ Rps.getBw 1 = 125000 ∧ Rps.getCr 1 = 1 ∧ Rps.getCrc 1 = 1
        ∧ Rps.getIh 1 = 0 ∧ Rps.isIqInv 1 = false) :=
  ⟨by decide, c9_rps_roundtrip_validate.1 7 125000 1 1 0 false 1 (by decide) (by decide)
      (by decide) (by decide) (by decide) (by decide) (by decide)⟩

/-! ### Airtime lemmas (claim C1) -/

/-- The decoded bandwidth is always positive. -/
theorem getBw_pos (rps : ℕ) : 0 < Rps.getBw rps := by
  unfold Rps.getBw
  rw [Nat.shiftLeft_eq]
  positivity

/-- `ceilDiv` computes the rational ceiling. -/
theorem ceilDiv_eq_ceil (a b : ℤ) (hb : 0 < b) :
    ceilDiv a b = ⌈(a : ℚ) / (b : ℚ)⌉ := by
  obtain ⟨d, rfl⟩ : ∃ d : ℕ, b = (d : ℤ) := ⟨b.toNat, (Int.toNat_of_nonneg hb.le).symm⟩
  have h1 : (a : ℚ) / (((d : ℤ) : ℚ)) = -((((-a) : ℤ) : ℚ) / ((d : ℕ) : ℚ)) := by
    push_cast
    ring
  rw [h1, Int.ceil_neg, Rat.floor_intCast_div_natCast]
  rfl

/-- Symbol time is never negative. -/
theorem symtime_nonneg (rps n : ℕ) : 0 ≤ LoraMsg.symtime rps n := by
  unfold LoraMsg.symtime
  split_ifs
  · positivity
  · positivity

/-- For LoRa parameters the symbol time is `2^sf / bw`. -/
theorem symtime_lora (rps : ℕ) (h : Rps.getSf rps ≠ 0) :
    LoraMsg.symtime rps 1 = (2 : ℚ) ^ Rps.getSf rps / (Rps.getBw rps : ℚ) := by
  unfold LoraMsg.symtime
  rw [if_neg h]
  have hbw : (0 : ℚ) < (Rps.getBw rps : ℚ) := by exact_mod_cast getBw_pos rps
  field_simp

/-- For FSK the symbol time of one symbol is `8 / 50000`. -/
theorem symtime_fsk (rps : ℕ) (h : Rps.getSf rps = 0) :
    LoraMsg.symtime rps 1 = (8 : ℚ) / 50000 := by
  unfold LoraMsg.symtime
  rw [if_pos h]
  norm_num

/-- `isFSK` holds exactly when the decoded spreading factor is `0`. -/
theorem isFSK_iff_getSf (rps : ℕ) : Rps.isFSK rps = true ↔ Rps.getSf rps = 0 := by
  unfold Rps.isFSK Rps.getSf
  by_cases h : rps &&& 7 = 0 <;> simp [h]

/-- A validated non-FSK rps decodes to `sf` in `7..12`. -/
theorem validate_sf_range (rps : ℕ) (h : Rps.validateB rps = true)
    (h0 : Rps.getSf rps ≠ 0) : 7 ≤ Rps.getSf rps ∧ Rps.getSf rps ≤ 12 := by
  unfold Rps.validateB at h
  rw [if_pos h0, decide_eq_true_eq] at h
  exact h.2.1

/-- `droInit` only produces `0` or `1`. -/
theorem droInit_le_one (rps : ℕ) (dro : Option ℕ) (d : ℕ)
    (h : LoraMsg.droInit rps dro = some d) : d ≤ 1 := by
  unfold LoraMsg.droInit at h
  cases dro with
  | none =>
    split_ifs at h <;>
      first
        | (simp only [Option.some.injEq] at h; omega)
        | simp at h
  | some d0 =>
    by_cases h0 : Rps.getSf rps ≠ 0
    · rw [if_pos h0] at h
      dsimp only at h
      by_cases h1 : d0 = 0 ∨ d0 = 1
      · rw [if_pos h1] at h
        simp only [Option.some.injEq] at h
        rcases h1 with h1 | h1 <;> omega
      · rw [if_neg h1] at h
        simp at h
    · rw [if_neg h0] at h
      simp only [Option.some.injEq] at h
      omega

/-- Both components of `airtimes` are nonnegative. -/
theorem airtimes_nonneg (pdu : List ℕ) (rps dro npreamble : ℕ) :
    0 ≤ (LoraMsg.airtimes pdu rps dro npreamble).1
    ∧ 0 ≤ (LoraMsg.airtimes pdu rps dro npreamble).2 := by
  have hts := symtime_nonneg rps 1
  unfold LoraMsg.airtimes
  split_ifs
  · exact ⟨by positivity, by positivity⟩
  · constructor
    · positivity
    · have h8 : (0 : ℤ) ≤ 8 + max 0 (ceilDiv
          (8 * (pdu.length : ℤ) - 4 * (Rps.getSf rps : ℤ) + 28
            + 16 * (Rps.getCrc rps : ℤ) - (Rps.getIh rps : ℤ) * 20)
          (4 * (Rps.getSf rps : ℤ) - (dro : ℤ) * 8)
          * ((Rps.getCr rps : ℤ) + 4)) := by omega
      have h8q : (0 : ℚ) ≤ ((8 + max 0 (ceilDiv
          (8 * (pdu.length : ℤ) - 4 * (Rps.getSf rps : ℤ) + 28
            + 16 * (Rps.getCrc rps : ℤ) - (Rps.getIh rps : ℤ) * 20)
          (4 * (Rps.getSf rps : ℤ) - (dro : ℤ) * 8)
          * ((Rps.getCr rps : ℤ) + 4)) : ℤ) : ℚ) := by exact_mod_cast h8
      exact mul_nonneg h8q hts

/-- Eliminator for a successful `LoraMsg` construction. -/
theorem mkLoraMsg_elim {time : ℚ} {pdu : List ℕ} {freq : ℤ} {rps : ℕ}
    {xpow rssi snr : Option ℚ} {dro : Option ℕ} {npreamble : ℕ}
    {src : Option ℕ} {msg : LoraMsg}
    (h : mkLoraMsg time pdu freq rps xpow rssi snr dro npreamble src = some msg) :
    pdu.length ≤ 255 ∧ Rps.validateB rps = true ∧
      ∃ d, LoraMsg.droInit rps dro = some d ∧
        msg.rps = rps ∧ msg.dro = d ∧ msg.xbeg = time ∧
        msg.xpld = time + (LoraMsg.airtimes pdu rps d npreamble).1 ∧
        msg.xend = time + (LoraMsg.airtimes pdu rps d npreamble).1
          + (LoraMsg.airtimes pdu rps d npreamble).2 := by
  unfold mkLoraMsg at h
  split_ifs at h with hc
  · cases hd : LoraMsg.droInit rps dro with
    | none =>
      rw [hd] at h
      simp at h
    | some d =>
      rw [hd, Option.map_some'] at h
      injection h with h'
      subst h'
      exact ⟨hc.1, hc.2, d, rfl, rfl, rfl, rfl, rfl, rfl⟩

/-- C1 (confirmed): every successfully constructed `LoraMsg` satisfies
`xbeg ≤ xpld ≤ xend` with `xpld − xbeg = Tpreamble` and
`xend − xpld = Tpayload`, where for LoRa (`sf ≥ 7`)
`Ts = 2^sf/bw`, `Tpreamble = (npreamble + 4.25)·Ts` and
`Tpayload = (8 + max(0, ceil((8·len − 4·sf + 28 + 16·crc − 20·ih)/(4·sf − 8·dro))·(cr+4)))·Ts`,
and for FSK (`sf = 0`) `Ts = 8/50000`, `Tpreamble = 8·Ts`,
`Tpayload = (3+1+2+len)·Ts`. -/
theorem c1_loramsg_airtimes :
    ∀ (time : ℚ) (pdu : List ℕ) (freq : ℤ) (rps : ℕ)
      (xpow rssi snr : Option ℚ) (dro : Option ℕ) (npreamble : ℕ)
      (src : Option ℕ) (msg : LoraMsg),
      mkLoraMsg time pdu freq rps xpow rssi snr dro npreamble src = some msg →
      (msg.xbeg ≤ msg.xpld ∧ msg.xpld ≤ msg.xend)
      ∧ (7 ≤ Rps.getSf rps →
          msg.xpld - msg.xbeg
            = ((npreamble : ℚ) + 4.25)
              * ((2 : ℚ) ^ Rps.getSf rps / (Rps.getBw rps : ℚ))
          ∧ msg.xend - msg.xpld
            = ((8 + max 0 (⌈(8 * (pdu.length : ℚ) - 4 * (Rps.getSf rps : ℚ) + 28
                    + 16 * (Rps.getCrc rps : ℚ) - 20 * (Rps.getIh rps : ℚ))
                    / (4 * (Rps.getSf rps : ℚ) - 8 * (msg.dro : ℚ))⌉
                  * ((Rps.getCr rps : ℤ) + 4)) : ℤ) : ℚ)
              * ((2 : ℚ) ^ Rps.getSf rps / (Rps.getBw rps : ℚ)))
      ∧ (Rps.getSf rps = 0 →
          msg.xpld - msg.xbeg = 8 * ((8 : ℚ) / 50000)
          ∧ msg.xend - msg.xpld
            = (3 + 1 + 2 + (pdu.length : ℚ)) * ((8 : ℚ) / 50000)) := by
  intro time pdu freq rps xpow rssi snr dro npreamble src msg h
  obtain ⟨hlen, hval, d, hd, hmrps, hmdro, hxbeg, hxpld, hxend⟩ := mkLoraMsg_elim h
  obtain ⟨ha1, ha2⟩ := airtimes_nonneg pdu rps d npreamble
  refine ⟨⟨?_, ?_⟩, ?_, ?_⟩
  · rw [hxbeg, hxpld]
    linarith
  · rw [hxpld, hxend]
    linarith
  · intro hsf7
    have hsf0 : Rps.getSf rps ≠ 0 := by omega
    have hfsk : ¬ Rps.isFSK rps = true := by
      rw [isFSK_iff_getSf]
      exact hsf0
    have hd1 : d ≤ 1 := droInit_le_one rps dro d hd
    have hdz : (d : ℤ) ≤ 1 := by exact_mod_cast hd1
    have hsfz : (7 : ℤ) ≤ (Rps.getSf rps : ℤ) := by exact_mod_cast hsf7
    have hden : (0 : ℤ) < 4 * (Rps.getSf rps : ℤ) - (d : ℤ) * 8 := by omega
    constructor
    · rw [hxpld, hxbeg]
      have hsub : time + (LoraMsg.airtimes pdu rps d npreamble).1 - time
          = (LoraMsg.airtimes pdu rps d npreamble).1 := by ring
      rw [hsub]
      unfold LoraMsg.airtimes
      rw [if_neg hfsk]
      dsimp only
      rw [symtime_lora rps hsf0]
    · rw [hxend, hxpld]
      have hsub : time + (LoraMsg.airtimes pdu rps d npreamble).1
            + (LoraMsg.airtimes pdu rps d npreamble).2
            - (time + (LoraMsg.airtimes pdu rps d npreamble).1)
          = (LoraMsg.airtimes pdu rps d npreamble).2 := by ring
      rw [hsub]
      unfold LoraMsg.airtimes
      rw [if_neg hfsk]
      dsimp only
      rw [symtime_lora rps hsf0, ceilDiv_eq_ceil _ _ hden, hmdro]
      have harg : ((8 * (pdu.length : ℤ) - 4 * (Rps.getSf rps : ℤ) + 28
              + 16 * (Rps.getCrc rps : ℤ) - (Rps.getIh rps : ℤ) * 20 : ℤ) : ℚ)
            / ((4 * (Rps.getSf rps : ℤ) - (d : ℤ) * 8 : ℤ) : ℚ)
          = (8 * (pdu.length : ℚ) - 4 * (Rps.getSf rps : ℚ) + 28
              + 16 * (Rps.getCrc rps : ℚ) - 20 * (Rps.getIh rps : ℚ))
            / (4 * (Rps.getSf rps : ℚ) - 8 * (d : ℚ)) := by
        push_cast
        ring_nf
      rw [harg]
  · intro hsf0
    have hfsk : Rps.isFSK rps = true := (isFSK_iff_getSf rps).mpr hsf0
    constructor
    · rw [hxpld, hxbeg]
      have hsub : time + (LoraMsg.airtimes pdu rps d npreamble).1 - time
          = (LoraMsg.airtimes pdu rps d npreamble).1 := by ring
      rw [hsub]
      unfold LoraMsg.airtimes
      rw [if_pos hfsk]
      dsimp only
      rw [symtime_fsk rps hsf0]
    · rw [hxend, hxpld]
      have hsub : time + (LoraMsg.airtimes pdu rps d npreamble).1
            + (LoraMsg.airtimes pdu rps d npreamble).2
            - (time + (LoraMsg.airtimes pdu rps d npreamble).1)
          = (LoraMsg.airtimes pdu rps d npreamble).2 := by ring
      rw [hsub]
      unfold LoraMsg.airtimes
      rw [if_pos hfsk]
      dsimp only
      rw [symtime_fsk rps hsf0]

unseal Rat.add Rat.mul Rat.inv in
/-- Witness for C1: the theorem applied to the concrete FSK message
`LoraMsg(0.0, b'', 868, rps=0)`. -/
theorem c1_witness :
    mkLoraMsg 0 [] 868 0 none none none none 8 none = some c1msgW
    ∧ (c1msgW.xbeg ≤ c1msgW.xpld ∧ c1msgW.xpld ≤ c1msgW.xend) :=
  ⟨by decide,
    (c1_loramsg_airtimes 0 [] 868 0 none none none none 8 none c1msgW (by decide)).1⟩

/-! ### SimpleMedium lemmas (claim C8) -/

/-- Membership in `pmsg` evolves exactly as `preambleStep` prescribes. -/
theorem pmsg_step (st : MediumState) (op : MOp) (m : ℕ) :
    decide (m ∈ (applyMOp st op).1.pmsg)
      = preambleStep m (decide (m ∈ st.pmsg)) op := by
  cases op with
  | addListener l t => rfl
  | removeListener l => rfl
  | preamble m' t =>
    simp only [applyMOp, preambleStep, setInsert]
    by_cases he : m' = m
    · subst he
      rw [if_pos rfl]
      split_ifs with hin
      · simp [hin]
      · simp [List.mem_append]
    · rw [if_neg he]
      split_ifs with hin
      · rfl
      · simp [List.mem_append, Ne.symm he]
  | payload m' =>
    simp only [applyMOp, preambleStep]
    by_cases he : m' = m
    · subst he
      rw [if_pos rfl]
      simp [List.mem_filter]
    · rw [if_neg he]
      simp [List.mem_filter, Ne.symm he]
  | complete m' => rfl
  | abort m' =>
    simp only [applyMOp, preambleStep]
    by_cases he : m' = m
    · subst he
      rw [if_pos rfl]
      simp [List.mem_filter]
    · rw [if_neg he]
      simp [List.mem_filter, Ne.symm he]

/-- `pmsg` after a run is the fold of `preambleStep` over the run. -/
theorem runMOps_pmsg (m : ℕ) : ∀ (ops : List MOp) (st : MediumState),
    (m ∈ (runMOpsFrom st ops).1.pmsg
      ↔ ops.foldl (preambleStep m) (decide (m ∈ st.pmsg)) = true) := by
  intro ops
  induction ops with
  | nil =>
    intro st
    simp [runMOpsFrom]
  | cons op ops ih =>
    intro st
    simp only [runMOpsFrom, List.foldl_cons]
    rw [← pmsg_step st op m]
    exact ih (applyMOp st op).1

/-- Listeners never reappear: if `l` is not subscribed and no operation adds
it, `l` stays unsubscribed and receives no callback. -/
theorem removed_listener_silent (l : ℕ) : ∀ (ops : List MOp) (st : MediumState),
    l ∉ st.listeners →
    ops.all (fun op => ! isAddListenerOf l op) = true →
    (∀ e, (l, e) ∉ (runMOpsFrom st ops).2)
      ∧ l ∉ (runMOpsFrom st ops).1.listeners := by
  intro ops
  induction ops with
  | nil =>
    intro st hl _
    simp [runMOpsFrom]
    exact hl
  | cons op ops ih =>
    intro st hl hall
    simp only [List.all_cons, Bool.and_eq_true] at hall
    obtain ⟨hop, hops⟩ := hall
    have hstep : l ∉ (applyMOp st op).1.listeners
        ∧ ∀ e, (l, e) ∉ (applyMOp st op).2 := by
      cases op with
      | addListener l' t =>
        simp only [isAddListenerOf, Bool.not_eq_true', decide_eq_false_iff_not] at hop
        constructor
        · simp only [applyMOp, setInsert]
          split_ifs with hmem
          · exact hl
          · intro hmem2
            rcases List.mem_append.mp hmem2 with h | h
            · exact hl h
            · simp at h
              exact hop h.symm
        · intro e he
          simp only [applyMOp, List.mem_map, Prod.mk.injEq] at he
          obtain ⟨m, -, hleq, -⟩ := he
          exact hop hleq
      | removeListener l' =>
        refine ⟨fun hmem => hl (List.mem_of_mem_erase hmem), ?_⟩
        intro e he
        simp [applyMOp] at he
      | preamble m t =>
        refine ⟨hl, ?_⟩
        intro e he
        simp only [applyMOp, List.mem_map, Prod.mk.injEq] at he
        obtain ⟨l', hl', hleq, -⟩ := he
        exact hl (hleq ▸ hl')
      | payload m =>
        refine ⟨hl, ?_⟩
        intro e he
        simp only [applyMOp, List.mem_map, Prod.mk.injEq] at he
        obtain ⟨l', hl', hleq, -⟩ := he
        exact hl (hleq ▸ hl')
      | complete m =>
        refine ⟨hl, ?_⟩
        intro e he
        simp only [applyMOp, List.mem_map, Prod.mk.injEq] at he
        obtain ⟨l', hl', hleq, -⟩ := he
        exact hl (hleq ▸ hl')
      | abort m =>
        refine ⟨hl, ?_⟩
        intro e he
        simp only [applyMOp, List.mem_map, Prod.mk.injEq] at he
        obtain ⟨l', hl', hleq, -⟩ := he
        exact hl (hleq ▸ hl')
    obtain ⟨hrest, hfinal⟩ := ih (applyMOp st op).1 hstep.1 hops
    refine ⟨?_, hfinal⟩
    intro e he
    simp only [runMOpsFrom, List.mem_append] at he
    rcases he with he | he
    · exact hstep.2 e he
    · exact hrest e he

/-- C8 (confirmed): `add_listener` replays `msg_preamble(m, t)` exactly for
the messages that have received `msg_preamble` but not yet `msg_payload` or
`msg_abort` (`msg_complete` does not end the preamble bookkeeping); hence a
listener added after a message's `msg_payload` gets no replay for it, and a
listener absent from the listener set (e.g. removed via `remove_listener`)
receives no further callbacks while it is not re-added. -/
theorem c8_simplemedium_replay :
    (∀ ops m, m ∈ (mediumRun ops).1.pmsg ↔ preamblePhase ops m = true)
    ∧ (∀ ops l t l' e,
        ((l', e) ∈ (applyMOp (mediumRun ops).1 (MOp.addListener l t)).2
          ↔ (l' = l ∧ ∃ m, preamblePhase ops m = true ∧ e = MEvent.preamble m t)))
    ∧ (∀ (ops1 ops2 : List MOp) (l : ℕ),
        l ∉ (mediumRun ops1).1.listeners →
        ops2.all (fun op => ! isAddListenerOf l op) = true →
        ∀ e, (l, e) ∉ (runMOpsFrom (mediumRun ops1).1 ops2).2) := by
  have h1 : ∀ ops m, m ∈ (mediumRun ops).1.pmsg ↔ preamblePhase ops m = true := by
    intro ops m
    have h := runMOps_pmsg m ops { pmsg := [], listeners := [] }
    simpa [mediumRun, preamblePhase] using h
  refine ⟨h1, ?_, ?_⟩
  · intro ops l t l' e
    constructor
    · intro he
      simp only [applyMOp, List.mem_map, Prod.mk.injEq] at he
      obtain ⟨m, hm, hleq, heq⟩ := he
      exact ⟨hleq.symm, m, (h1 ops m).mp hm, heq.symm⟩
    · rintro ⟨rfl, m, hm, rfl⟩
      simp only [applyMOp, List.mem_map]
      exact ⟨m, (h1 ops m).mpr hm, rfl⟩
  · intro ops1 ops2 l hl hall
    exact (removed_listener_silent l ops2 (mediumRun ops1).1 hl hall).1

/-- Witness for C8: a listener subscribed at preamble and removed before
completion receives nothing further. -/
theorem c8_witness :
    (1 : ℕ) ∉ (mediumRun [MOp.addListener 1 none, MOp.preamble 5 none,
        MOp.removeListener 1]).1.listeners
    ∧ [MOp.payload 5, MOp.complete 5].all (fun op => ! isAddListenerOf 1 op) = true
    ∧ ∀ e, (1, e) ∉ (runMOpsFrom (mediumRun [MOp.addListener 1 none,
        MOp.preamble 5 none, MOp.removeListener 1]).1
        [MOp.payload 5, MOp.complete 5]).2 :=
  ⟨by decide, by decide,
    c8_simplemedium_replay.2.2
      [MOp.addListener 1 none, MOp.preamble 5 none, MOp.removeListener 1]
      [MOp.payload 5, MOp.complete 5] 1 (by decide) (by decide)⟩

/-! ### UniversalGateway theorems (claims C7, C10) -/

/-- C7 (confirmed): a completed message with transmit power recorded is
enqueued to the uplink queue iff its `src` is not the gateway itself and its
rps is not IQ-inverted; a message whose `src` is the gateway, or whose rps
is IQ-inverted, leaves the queue untouched (no assertion is even reached);
in particular a message tagged by `sched_dn` is never enqueued, so it is
never returned by `next_up`. -/
theorem c7_gateway_upfilter :
    (∀ gwid q m, m.xpow.isSome = true →
        ((∃ m', gwMsgComplete gwid q m = some (q ++ [m']))
          ↔ (m.src ≠ some gwid ∧ Rps.isIqInv m.rps = false)))
    ∧ (∀ gwid q m, (m.src = some gwid ∨ Rps.isIqInv m.rps = true) →
        gwMsgComplete gwid q m = some q)
    ∧ (∀ gwid q m, gwMsgComplete gwid q (schedDnTag gwid m) = some q) := by
  have h2 : ∀ gwid q m, (m.src = some gwid ∨ Rps.isIqInv m.rps = true) →
      gwMsgComplete gwid q m = some q := by
    intro gwid q m h
    unfold gwMsgComplete
    rw [if_neg]
    rcases h with h | h
    · exact fun hc => hc.1 h
    · exact fun hc => hc.2 (by simp [h])
  refine ⟨?_, h2, ?_⟩
  · intro gwid q m hx
    constructor
    · rintro ⟨m', hm'⟩
      by_contra hc
      rw [not_and_or] at hc
      have : gwMsgComplete gwid q m = some q := by
        apply h2
        rcases hc with hc | hc
        · left
          simpa using hc
        · right
          simpa using hc
      rw [this] at hm'
      injection hm' with h'
      have : q.length = (q ++ [m']).length := by rw [← h']
      simp at this
    · rintro ⟨h1, h3⟩
      obtain ⟨p, hp⟩ := Option.isSome_iff_exists.mp hx
      refine ⟨{ m with rssi := some (p - 50), snr := some 10 }, ?_⟩
      unfold gwMsgComplete
      rw [if_pos ⟨h1, by simp [h3]⟩, hp]
  · intro gwid q m
    apply h2
    left
    rfl

/-- Witness for C7: a fresh uplink with `xpow = 14` is enqueued. -/
theorem c7_witness :
    ({ c1msgW with xpow := some 14 } : LoraMsg).xpow.isSome = true
    ∧ ((∃ m', gwMsgComplete 0 [] { c1msgW with xpow := some 14 }
          = some ([] ++ [m']))
        ↔ (({ c1msgW with xpow := some 14 } : LoraMsg).src ≠ some 0
            ∧ Rps.isIqInv ({ c1msgW with xpow := some 14 } : LoraMsg).rps = false)) :=
  ⟨by decide,
    c7_gateway_upfilter.1 0 [] { c1msgW with xpow := some 14 } (by decide)⟩

/-- C10 (confirmed): completing a message that is an uplink by source and
orientation but has `xpow = None` fails the assertion (no enqueue); and every
message the gateway appends to the uplink queue has `xpow` set with
`rssi = xpow − 50` and `snr = 10`, so every uplink surfaced by `next_up`
carries these annotations. -/
theorem c10_gateway_xpow_assert :
    (∀ gwid q m, m.src ≠ some gwid → Rps.isIqInv m.rps = false → m.xpow = none →
        gwMsgComplete gwid q m = none)
    ∧ (∀ gwid q q' m, gwMsgComplete gwid q m = some q' →
        ∀ m' ∈ q', m' ∈ q ∨ (∃ p, m'.xpow = some p
          ∧ m'.rssi = some (p - 50) ∧ m'.snr = some 10)) := by
  constructor
  · intro gwid q m h1 h2 h3
    unfold gwMsgComplete
    rw [if_pos ⟨h1, by simp [h2]⟩, h3]
  · intro gwid q q' m hq m' hm'
    unfold gwMsgComplete at hq
    split_ifs at hq with hc
    · cases hx : m.xpow with
      | none =>
        rw [hx] at hq
        exact absurd hq (by simp)
      | some p =>
        rw [hx] at hq
        injection hq with h'
        subst h'
        rcases List.mem_append.mp hm' with h | h
        · exact Or.inl h
        · simp only [List.mem_singleton] at h
          subst h
          exact Or.inr ⟨p, rfl, rfl, rfl⟩
    · injection hq with h'
      subst h'
      exact Or.inl hm'

/-- Witness for C10: completing an uplink without `xpow` hits the assertion. -/
theorem c10_witness :
    c1msgW.src ≠ some 0 ∧ Rps.isIqInv c1msgW.rps = false ∧ c1msgW.xpow = none
    ∧ gwMsgComplete 0 [] c1msgW = none :=
  ⟨by decide, by decide, by decide,
    c10_gateway_xpow_assert.1 0 [] c1msgW (by decide) (by decide) (by decide)⟩

/-! ### LNS.join (claim C4) -/

/-- C4 (confirmed): for a decodable, MIC-valid Join-Request carrying
DevNonce `d`, `LNS.join` raises `DevNonce is not strictly increasing` iff
`pdevnonce ≥ d` (and then returns no session), and for `pdevnonce < d` it
returns the Join-Accept bytes with a fresh session whose
`fcntup = 0`, `fcntdn = 0`, `rx1delay = max(rxdly, 1)` and `devnonce = d`. -/
theorem c4_lns_join_devnonce :
    ∀ (c : JoinCodec) (pdu : List ℕ) (region : ℕ) (pdevnonce : ℤ)
      (nwkkey : List ℕ) (appnonce netid : ℕ) (devaddr : Option ℤ)
      (dlset : Option ℕ) (rxdly : ℕ) (jreq : JReq),
      c.unpack_jreq pdu = some jreq →
      c.verify_jreq nwkkey pdu = true →
      ((LNS.join c pdu region pdevnonce nwkkey appnonce netid devaddr dlset rxdly
          = Except.error "DevNonce is not strictly increasing")
        ↔ pdevnonce ≥ (jreq.devnonce : ℤ))
      ∧ (pdevnonce < (jreq.devnonce : ℤ) →
          ∃ jacc s,
            LNS.join c pdu region pdevnonce nwkkey appnonce netid devaddr dlset
              rxdly = Except.ok (jacc, s)
            ∧ s.fcntup = 0 ∧ s.fcntdn = 0 ∧ s.rx1delay = max rxdly 1
            ∧ s.devnonce = jreq.devnonce) := by
  intro c pdu region pdevnonce nwkkey appnonce netid devaddr dlset rxdly jreq
    hun hver
  unfold LNS.join
  rw [hun]
  dsimp only
  rw [if_neg (by simp [hver])]
  by_cases hn : pdevnonce ≥ (jreq.devnonce : ℤ)
  · rw [if_pos hn]
    exact ⟨⟨fun _ => hn, fun _ => rfl⟩, fun hlt => absurd hn (not_le.mpr hlt)⟩
  · rw [if_neg hn]
    refine ⟨⟨fun h => absurd h (by simp), fun h => absurd h hn⟩, ?_⟩
    intro _
    exact ⟨_, _, rfl, rfl, rfl, rfl, rfl⟩

/-- Witness for C4: the join theorem applied to a concrete codec stub with
DevNonce `5` and `pdevnonce = 4`. -/
theorem c4_witness :
    c4codec.unpack_jreq [0] = some { deveui := 42, devnonce := 5 }
    ∧ c4codec.verify_jreq [] [0] = true
    ∧ (((LNS.join c4codec [0] 0 4 [] 0 1 none none 0
          = Except.error "DevNonce is not strictly increasing")
        ↔ (4 : ℤ) ≥ (({ deveui := 42, devnonce := 5 } : JReq).devnonce : ℤ))
      ∧ ((4 : ℤ) < (({ deveui := 42, devnonce := 5 } : JReq).devnonce : ℤ) →
          ∃ jacc s,
            LNS.join c4codec [0] 0 4 [] 0 1 none none 0 = Except.ok (jacc, s)
            ∧ s.fcntup = 0 ∧ s.fcntdn = 0 ∧ s.rx1delay = max 0 1
            ∧ s.devnonce = ({ deveui := 42, devnonce := 5 } : JReq).devnonce)) :=
  ⟨rfl, rfl,
    c4_lns_join_devnonce c4codec [0] 0 4 [] 0 1 none none 0
      { deveui := 42, devnonce := 5 } rfl rfl⟩

/-! ### LNS.try_unpack (claim C5) -/

/-- The scan loop returns the first verifying session and frame. -/
theorem tryUnpackGo_ok_iff
    (udf : List ℕ → ℕ → List ℕ → List ℕ → Option UpDF)
    (pdu : List ℕ) (devaddr : ℤ) :
    ∀ (l : List Session) (s : Session) (m : UpDF),
      (tryUnpackGo udf pdu devaddr l = .ok (s, m)
        ↔ ∃ pre post, l = pre ++ s :: post
            ∧ (∀ s' ∈ pre, udf pdu s'.fcntup s'.nwkskey s'.appskey = none)
            ∧ udf pdu s.fcntup s.nwkskey s.appskey = some m) := by
  intro l
  induction l with
  | nil =>
    intro s m
    constructor
    · intro h
      exact absurd h (by simp [tryUnpackGo])
    · rintro ⟨pre, post, h, -, -⟩
      exact absurd h (by simp)
  | cons s0 rest ih =>
    intro s m
    unfold tryUnpackGo
    cases h0 : udf pdu s0.fcntup s0.nwkskey s0.appskey with
    | some m0 =>
      change Except.ok (s0, m0) = Except.ok (s, m) ↔ _
      constructor
      · intro h
        injection h with h'
        injection h' with h1 h2
        subst h1
        subst h2
        exact ⟨[], rest, rfl, by simp, h0⟩
      · rintro ⟨pre, post, heq, hpre, hs⟩
        cases pre with
        | nil =>
          simp only [List.nil_append, List.cons.injEq] at heq
          obtain ⟨rfl, rfl⟩ := heq
          rw [h0] at hs
          injection hs with h'
          rw [h']
        | cons p ps =>
          simp only [List.cons_append, List.cons.injEq] at heq
          obtain ⟨rfl, -⟩ := heq
          exact absurd h0 (by rw [hpre s0 (List.mem_cons_self s0 ps)]; simp)
    | none =>
      change tryUnpackGo udf pdu devaddr rest = Except.ok (s, m) ↔ _
      constructor
      · intro h
        obtain ⟨pre, post, heq, hpre, hs⟩ := (ih s m).mp h
        refine ⟨s0 :: pre, post, by rw [heq, List.cons_append], ?_, hs⟩
        intro s' hs'
        rcases List.mem_cons.mp hs' with rfl | hs'
        · exact h0
        · exact hpre s' hs'
      · rintro ⟨pre, post, heq, hpre, hs⟩
        cases pre with
        | nil =>
          simp only [List.nil_append, List.cons.injEq] at heq
          obtain ⟨rfl, -⟩ := heq
          rw [h0] at hs
          exact absurd hs (by simp)
        | cons p ps =>
          simp only [List.cons_append, List.cons.injEq] at heq
          obtain ⟨rfl, hrest⟩ := heq
          exact (ih s m).mpr ⟨ps, post, hrest, fun s' hs' =>
            hpre s' (List.mem_cons_of_mem _ hs'), hs⟩

/-- The scan loop raises `VerifyError` iff no session verifies. -/
theorem tryUnpackGo_error_iff
    (udf : List ℕ → ℕ → List ℕ → List ℕ → Option UpDF)
    (pdu : List ℕ) (devaddr : ℤ) :
    ∀ (l : List Session),
      (tryUnpackGo udf pdu devaddr l
          = .error ("no matching session found for devaddr " ++ toString devaddr)
        ↔ ∀ s ∈ l, udf pdu s.fcntup s.nwkskey s.appskey = none) := by
  intro l
  induction l with
  | nil =>
    simp [tryUnpackGo]
  | cons s0 rest ih =>
    unfold tryUnpackGo
    cases h0 : udf pdu s0.fcntup s0.nwkskey s0.appskey with
    | some m0 =>
      change Except.ok (s0, m0) = _ ↔ _
      constructor
      · intro h
        exact absurd h (by simp)
      · intro h
        exact absurd h0 (by rw [h s0 (List.mem_cons_self s0 rest)]; simp)
    | none =>
      change tryUnpackGo udf pdu devaddr rest = _ ↔ _
      constructor
      · intro h s hs
        rcases List.mem_cons.mp hs with rfl | hs
        · exact h0
        · exact ih.mp h s hs
      · intro h
        exact ih.mpr fun s hs => h s (List.mem_cons_of_mem _ hs)

/-- C5 (amended): `try_unpack` returns the first session registered under
the DevAddr whose MIC verifies, together with the decoded frame; it does not
modify any session (in particular `fcntup` is left alone — `LNS.unpack` is
the function that advances it); if no session verifies it raises
`VerifyError` and again nothing changes. -/
theorem c5_try_unpack_first :
    ∀ (udf : List ℕ → ℕ → List ℕ → List ℕ → Option UpDF)
      (sm : SessionManager) (pdu : List ℕ) (devaddr : ℤ),
      (∀ s m, LNS.try_unpack udf sm pdu devaddr = .ok (s, m)
        ↔ ∃ pre post, sm.get_by_addr devaddr = pre ++ s :: post
            ∧ (∀ s' ∈ pre, udf pdu s'.fcntup s'.nwkskey s'.appskey = none)
            ∧ udf pdu s.fcntup s.nwkskey s.appskey = some m)
      ∧ (LNS.try_unpack udf sm pdu devaddr
          = .error ("no matching session found for devaddr " ++ toString devaddr)
        ↔ ∀ s ∈ sm.get_by_addr devaddr,
            udf pdu s.fcntup s.nwkskey s.appskey = none) := by
  intro udf sm pdu devaddr
  exact ⟨fun s m => tryUnpackGo_ok_iff udf pdu devaddr _ s m,
    tryUnpackGo_error_iff udf pdu devaddr _⟩

/-- C5 counterexample: with a stub `unpack_dataframe` that accepts the frame
with FCnt `7`, `try_unpack` returns the stored session whose `fcntup` is
still `0` — it does not update `fcntup` to the frame's FCnt as claimed
(that is `LNS.unpack`'s job). -/
theorem c5_counterexample :
    (LNS.try_unpack c5udf (SessionManager.add ⟨[], []⟩ c5sess) [1, 2, 3] 1).toOption
      = some (c5sess, { devaddr := 1, fcnt := 7 })
    ∧ c5sess.fcntup = 0
    ∧ ({ devaddr := 1, fcnt := 7 } : UpDF).fcnt = 7
    ∧ LNS.unpack c5udf c5sess [1, 2, 3]
      = some ({ c5sess with fcntup := 7 }, { devaddr := 1, fcnt := 7 }) := by
  refine ⟨rfl, rfl, rfl, rfl⟩

/-- Witness for C5: the first-match theorem applied to a one-session
manager. -/
theorem c5_witness :
    (SessionManager.add ⟨[], []⟩ c5sess).get_by_addr 1 = [] ++ c5sess :: []
    ∧ c5udf [1, 2, 3] c5sess.fcntup c5sess.nwkskey c5sess.appskey
      = some { devaddr := 1, fcnt := 7 }
    ∧ LNS.try_unpack c5udf (SessionManager.add ⟨[], []⟩ c5sess) [1, 2, 3] 1
      = .ok (c5sess, { devaddr := 1, fcnt := 7 }) :=
  ⟨rfl, rfl,
    ((c5_try_unpack_first c5udf (SessionManager.add ⟨[], []⟩ c5sess) [1, 2, 3] 1).1
        c5sess { devaddr := 1, fcnt := 7 }).mpr
      ⟨[], [], rfl, by simp, rfl⟩⟩

/-! ### Scheduler toolkit for the receiver claims -/

theorem nPend_cons (j : SJob) (q : List SJob) (a : SJobAct) :
    nPend (j :: q) a
      = nPend q a + (if j.act = a ∧ j.cancelled = false then 1 else 0) := by
  unfold nPend
  rw [List.countP_cons]
  cases hc : j.cancelled <;> by_cases h1 : j.act = a <;> simp [h1, hc]

theorem nPend_insertJob (j : SJob) (q : List SJob) (a : SJobAct) :
    nPend (insertJob j q) a = nPend (j :: q) a := by
  induction q with
  | nil => rfl
  | cons j' q ih =>
      unfold insertJob
      by_cases h : j.time < j'.time
      · rw [if_pos h]
      · rw [if_neg h]
        simp only [nPend_cons, ih]
        omega

theorem nPend_schedule (sys : Sys) (t : ℚ) (a b : SJobAct) :
    nPend (schedule sys t a).queue b
      = nPend sys.queue b + (if a = b then 1 else 0) := by
  unfold schedule
  simp [nPend_insertJob, nPend_cons]

theorem nPend_cancelAct_same (a : SJobAct) (q : List SJob) :
    nPend (cancelAct a q) a = 0 := by
  induction q with
  | nil => rfl
  | cons j q ih =>
      unfold cancelAct at ih ⊢
      simp only [List.map_cons]
      by_cases h : j.act = a <;> simp [h, nPend_cons, ih]

theorem nPend_cancelAct_ne (a b : SJobAct) (q : List SJob) (h : b ≠ a) :
    nPend (cancelAct a q) b = nPend q b := by
  induction q with
  | nil => rfl
  | cons j q ih =>
      unfold cancelAct at ih ⊢
      simp only [List.map_cons]
      by_cases h1 : j.act = a
      · rw [if_pos h1, nPend_cons, nPend_cons, ih]
        have h2 : ¬(j.act = b) := by rw [h1]; exact fun hh => h hh.symm
        simp [h2]
      · rw [if_neg h1, nPend_cons, nPend_cons, ih]

theorem nPend_cancelRxAll_rx (a : SJobAct) (q : List SJob)
    (h : isRxAct a = true) : nPend (cancelRxAll q) a = 0 := by
  induction q with
  | nil => rfl
  | cons j q ih =>
      unfold cancelRxAll at ih ⊢
      simp only [List.map_cons]
      by_cases h1 : isRxAct j.act
      · simp [h1, nPend_cons, ih]
      · rw [if_neg h1, nPend_cons, ih]
        have h2 : ¬(j.act = a) := fun hh => h1 (by rw [hh]; exact h)
        simp [h2]

theorem nPend_cancelRxAll_tx (a : SJobAct) (q : List SJob)
    (h : isRxAct a = false) : nPend (cancelRxAll q) a = nPend q a := by
  induction q with
  | nil => rfl
  | cons j q ih =>
      unfold cancelRxAll at ih ⊢
      simp only [List.map_cons]
      by_cases h1 : isRxAct j.act
      · rw [if_pos h1, nPend_cons, nPend_cons, ih]
        have h2 : ¬(j.act = a) := fun hh => by rw [hh] at h1; rw [h] at h1; exact Bool.noConfusion h1
        simp [h2]
      · rw [if_neg h1, nPend_cons, nPend_cons, ih]

theorem noLockEv_append (L : List SEvent) (e : SEvent) (h : noLockEv L)
    (he : ∀ c, e ≠ SEvent.lock c) : noLockEv (L ++ [e]) := by
  intro c hc
  rcases List.mem_append.mp hc with h1 | h1
  · exact h c h1
  · exact he c (List.mem_singleton.mp h1).symm

theorem noAdoptEv_append (L : List SEvent) (e : SEvent) (h : noAdoptEv L)
    (he : ∀ m t, e ≠ SEvent.adopt m t) : noAdoptEv (L ++ [e]) := by
  intro m t hc
  rcases List.mem_append.mp hc with h1 | h1
  · exact h m t h1
  · exact he m t (List.mem_singleton.mp h1).symm

theorem rxReplay_of_some (env : List LoraMsg) (l : List ℕ) (sys : Sys)
    (m0 : ℕ) (h : sys.rcv.msg = some m0) : rxReplay env sys l = sys := by
  induction l with
  | nil => rfl
  | cons m rest ih =>
      have hg : ¬(rxMatch env sys m ∧ sys.rcv.msg = none) := by simp [h]
      unfold rxReplay rxPreamble
      rw [if_neg hg]
      exact ih

theorem rxReplay_cases (env : List LoraMsg) (l : List ℕ) (sys : Sys)
    (h : sys.rcv.msg = none) :
    rxReplay env sys l = sys
    ∨ ∃ m, m ∈ l ∧ rxMatch env sys m
        ∧ rxReplay env sys l = rxAdopt env sys m (some sys.rcv.rxtime) := by
  induction l with
  | nil => exact Or.inl rfl
  | cons m rest ih =>
      unfold rxReplay rxPreamble
      by_cases hm : rxMatch env sys m
      · rw [if_pos ⟨hm, h⟩]
        exact Or.inr ⟨m, List.mem_cons_self m rest, hm,
          rxReplay_of_some env rest _ m rfl⟩
      · rw [if_neg (by simp [hm])]
        rcases ih with h1 | ⟨m1, hm1, hmatch, heq⟩
        · exact Or.inl h1
        · exact Or.inr ⟨m1, List.mem_cons_of_mem m hm1, hmatch, heq⟩

theorem TxInv_transport (sys sys' : Sys) (m : ℕ)
    (hqs : nPend sys'.queue (SJobAct.txstart m)
      = nPend sys.queue (SJobAct.txstart m))
    (hqp : nPend sys'.queue (SJobAct.txpayload m)
      = nPend sys.queue (SJobAct.txpayload m))
    (hqd : nPend sys'.queue (SJobAct.txdone m)
      = nPend sys.queue (SJobAct.txdone m))
    (hpm : m ∈ sys'.pmsg ↔ m ∈ sys.pmsg)
    (hlp : SEvent.payload m ∈ sys'.log ↔ SEvent.payload m ∈ sys.log)
    (hlc : SEvent.complete m ∈ sys'.log ↔ SEvent.complete m ∈ sys.log)
    (h : TxInv sys m) : TxInv sys' m := by
  unfold TxInv at h ⊢
  rw [hqs, hqp, hqd, hpm, hlp, hlc]
  exact h

theorem RxPh_transport (sys sys' : Sys)
    (hl : sys'.listening = sys.listening)
    (hmsg : sys'.rcv.msg = sys.rcv.msg)
    (hlk : sys'.rcv.locked = sys.rcv.locked)
    (hq : ∀ a, isRxAct a = true → nPend sys'.queue a = nPend sys.queue a)
    (hlck : ∀ c, SEvent.lock c ∈ sys'.log ↔ SEvent.lock c ∈ sys.log)
    (hto : SEvent.timeout ∈ sys'.log ↔ SEvent.timeout ∈ sys.log)
    (had : ∀ m t, SEvent.adopt m t ∈ sys'.log ↔ SEvent.adopt m t ∈ sys.log)
    (hpl : ∀ m, SEvent.payload m ∈ sys'.log ↔ SEvent.payload m ∈ sys.log)
    (hcm : ∀ m, SEvent.complete m ∈ sys'.log ↔ SEvent.complete m ∈ sys.log)
    (hcbs : sys'.cbs = sys.cbs)
    (h : RxPh0 sys ∨ RxPh1 sys ∨ RxPh2 sys ∨ RxPh3 sys) :
    RxPh0 sys' ∨ RxPh1 sys' ∨ RxPh2 sys' ∨ RxPh3 sys' := by
  have hqs := hq SJobAct.rxstart rfl
  have hqt := hq SJobAct.rxtimeout rfl
  have hqlk := hq SJobAct.rxlock rfl
  rcases h with ⟨g1,g2,g3,g4,g5,g6,g7,g8,g9,g10⟩
    | ⟨g1,g2,g3,g4,g5,g6,g7,g8⟩
    | ⟨m,g1,g2,g3,g4,g5,g6,g7,g8,g9,g10,g11⟩
    | ⟨g1,g2,g3,g4,g5,g6,g7,g8⟩
  · exact Or.inl ⟨hl.trans g1, hmsg.trans g2, hlk.trans g3,
      hqs.trans g4, hqt.trans g5, hqlk.trans g6,
      fun m t hm => g7 m t ((had m t).mp hm),
      fun c hm => g8 c ((hlck c).mp hm),
      fun hm => g9 (hto.mp hm), hcbs.trans g10⟩
  · refine Or.inr (Or.inl ⟨hl.trans g1, hlk.trans g2, hqs.trans g3,
      hqt.trans g4, fun c hm => g5 c ((hlck c).mp hm),
      fun hm => g6 (hto.mp hm), hcbs.trans g7, ?_⟩)
    rcases g8 with ⟨ga, gb⟩ | ⟨mc, ga, gb, ⟨tp, gc⟩, gd, ge⟩
    · exact Or.inl ⟨hmsg.trans ga, hqlk.trans gb⟩
    · exact Or.inr ⟨mc, hmsg.trans ga, hqlk.trans gb, ⟨tp, (had mc tp).mpr gc⟩,
        fun hm => gd ((hpl mc).mp hm), fun hm => ge ((hcm mc).mp hm)⟩
  · refine Or.inr (Or.inr (Or.inl ⟨m, hl.trans g1, hlk.trans g2,
      hmsg.trans g3, hqs.trans g4, hqt.trans g5, hqlk.trans g6,
      ?_, (hlck (some m)).mpr g8,
      fun c hm => g9 c ((hlck c).mp hm),
      fun hm => g10 (hto.mp hm), ?_⟩))
    · obtain ⟨tp, gc⟩ := g7
      exact ⟨tp, (had m tp).mpr gc⟩
    · rcases g11 with ⟨ga, gb⟩ | ⟨ga, gb⟩
      · exact Or.inl ⟨(hcm m).mpr ga, hcbs.trans gb⟩
      · exact Or.inr ⟨fun hm => ga ((hcm m).mp hm), hcbs.trans gb⟩
  · exact Or.inr (Or.inr (Or.inr ⟨hl.trans g1, hlk.trans g2, hqs.trans g3,
      hqt.trans g4, hqlk.trans g5, fun c hm => g6 c ((hlck c).mp hm),
      hto.mpr g7, hcbs.trans g8⟩))

theorem notin_append_ne {e f : SEvent} (L : List SEvent) (h : e ∉ L)
    (hne : e ≠ f) : e ∉ L ++ [f] := by
  intro hm
  rcases List.mem_append.mp hm with h1 | h1
  · exact h h1
  · exact hne (List.mem_singleton.mp h1)

theorem sysInv_run_txdone (env : List LoraMsg) (sys : Sys) (j : SJob)
    (rest : List SJob) (m : ℕ) (hq : sys.queue = j :: rest)
    (hc : j.cancelled = false) (ha : j.act = SJobAct.txdone m)
    (hinv : SysInv sys) :
    SysInv (runAct env { sys with queue := rest } (SJobAct.txdone m)) := by
  have hnp : ∀ b, nPend sys.queue b
      = nPend rest b + (if SJobAct.txdone m = b then 1 else 0) := by
    intro b; rw [hq, nPend_cons, ha, hc]; simp
  have hds := hnp (SJobAct.txdone m)
  simp at hds
  have hph : nPend sys.queue (SJobAct.txdone m) = 1
      ∧ nPend sys.queue (SJobAct.txstart m) = 0
      ∧ nPend sys.queue (SJobAct.txpayload m) = 0
      ∧ m ∉ sys.pmsg ∧ SEvent.payload m ∈ sys.log
      ∧ SEvent.complete m ∉ sys.log := by
    rcases hinv.1 m with ⟨h1,h2,h3,h4,h5,h6⟩|⟨h1,h2,h3,h4,h5,h6⟩
      |⟨h1,h2,h3,h4,h5,h6⟩|⟨h1,h2,h3,h4,h5,h6⟩|⟨h1,h2,h3,h4,h5,h6⟩ <;>
      first
        | exact ⟨h3, h1, h2, h4, h5, h6⟩
        | omega
  obtain ⟨hc1, hc2, hc3, hc4, hc5, hc6⟩ := hph
  have hrest : ∀ b, b ≠ SJobAct.txdone m → nPend rest b = nPend sys.queue b := by
    intro b hb
    have := hnp b
    rw [if_neg (fun hh => hb hh.symm)] at this
    omega
  have hts : nPend rest (SJobAct.txstart m) = 0 :=
    (hrest _ (by simp)).trans hc2
  have htp : nPend rest (SJobAct.txpayload m) = 0 :=
    (hrest _ (by simp)).trans hc3
  have htd : nPend rest (SJobAct.txdone m) = 0 := by omega
  have hrx : ∀ a, isRxAct a = true → nPend rest a = nPend sys.queue a := by
    intro a haa
    refine hrest a fun hh => ?_
    rw [hh] at haa
    simp [isRxAct] at haa
  have htx : ∀ m', TxInv
      { sys with queue := rest, log := sys.log ++ [SEvent.complete m] } m' := by
    intro m'
    by_cases hm : m' = m
    · subst hm
      exact Or.inr (Or.inr (Or.inr (Or.inl ⟨hts, htp, htd, hc4,
        List.mem_append_left _ hc5, by simp⟩)))
    · exact TxInv_transport sys _ m' (hrest _ (by simp)) (hrest _ (by simp))
        (hrest _ (by simp [hm])) Iff.rfl (by simp) (by simp [hm])
        (hinv.1 m')
  have hrun0 : runAct env { sys with queue := rest } (SJobAct.txdone m)
      = (if sys.listening = true then
          rxComplete
            { sys with queue := rest, log := sys.log ++ [SEvent.complete m] } m
        else
          { sys with queue := rest, log := sys.log ++ [SEvent.complete m] }) :=
    rfl
  rw [hrun0]
  rcases hinv.2 with ⟨g1,g2,g3,g4,g5,g6,g7,g8,g9,g10⟩
    | ⟨g1,g2,g3,g4,g5,g6,g7,g8⟩
    | ⟨mx,g1,g2,g3,g4,g5,g6,g7,g8,g9,g10,g11⟩
    | ⟨g1,g2,g3,g4,g5,g6,g7,g8⟩
  · -- phase 0: not listening
    rw [if_neg (by simp [g1])]
    refine ⟨htx, Or.inl ⟨g1, g2, g3,
      (hrx SJobAct.rxstart rfl).trans g4, (hrx SJobAct.rxtimeout rfl).trans g5, (hrx SJobAct.rxlock rfl).trans g6,
      noAdoptEv_append _ _ g7 (by intro mm tt; simp),
      noLockEv_append _ _ g8 (by intro cc; simp),
      notin_append_ne _ g9 (by simp), g10⟩⟩
  · -- phase 1: listening, not locked
    rw [if_pos g1]
    unfold rxComplete
    rw [if_neg (by simp [g2])]
    refine ⟨htx, Or.inr (Or.inl ⟨g1, g2,
      (hrx SJobAct.rxstart rfl).trans g3, (hrx SJobAct.rxtimeout rfl).trans g4,
      noLockEv_append _ _ g5 (by intro cc; simp),
      notin_append_ne _ g6 (by simp), g7, ?_⟩)⟩
    rcases g8 with ⟨ga, gb⟩ | ⟨mc, ga, gb, ⟨tp, gc⟩, gd, ge⟩
    · exact Or.inl ⟨ga, (hrx SJobAct.rxlock rfl).trans gb⟩
    · have hmc : mc ≠ m := fun hh => gd (by rw [hh]; exact hc5)
      exact Or.inr ⟨mc, ga, (hrx SJobAct.rxlock rfl).trans gb,
        ⟨tp, List.mem_append_left _ gc⟩,
        notin_append_ne _ gd (by simp),
        notin_append_ne _ ge (by simp [hmc])⟩
  · -- phase 2: locked on mx
    rw [if_pos g1]
    by_cases hm : mx = m
    · -- the locked candidate completes: the callback fires
      subst hm
      unfold rxComplete
      rw [if_pos (by exact ⟨g3, g2⟩)]
      have gcb : sys.cbs = [] := by
        rcases g11 with ⟨ga, _⟩ | ⟨_, gb⟩
        · exact absurd ga hc6
        · exact gb
      refine ⟨fun m' => htx m', Or.inr (Or.inr (Or.inl ⟨mx, g1, g2, g3,
        (hrx SJobAct.rxstart rfl).trans g4, (hrx SJobAct.rxtimeout rfl).trans g5, (hrx SJobAct.rxlock rfl).trans g6,
        ?_, List.mem_append_left _ g8, ?_,
        notin_append_ne _ g10 (by simp), ?_⟩))⟩
      · obtain ⟨tp, gc⟩ := g7
        exact ⟨tp, List.mem_append_left _ gc⟩
      · intro c hcm
        rcases List.mem_append.mp hcm with h1 | h1
        · exact g9 c h1
        · exact absurd (List.mem_singleton.mp h1) (by simp)
      · refine Or.inl ⟨by simp, ?_⟩
        show sys.cbs ++ [some mx] = [some mx]
        rw [gcb]
        rfl
    · -- some other message completes: no callback
      unfold rxComplete
      rw [if_neg (by simp [g3, hm])]
      refine ⟨htx, Or.inr (Or.inr (Or.inl ⟨mx, g1, g2, g3,
        (hrx SJobAct.rxstart rfl).trans g4, (hrx SJobAct.rxtimeout rfl).trans g5, (hrx SJobAct.rxlock rfl).trans g6,
        ?_, List.mem_append_left _ g8, ?_,
        notin_append_ne _ g10 (by simp), ?_⟩))⟩
      · obtain ⟨tp, gc⟩ := g7
        exact ⟨tp, List.mem_append_left _ gc⟩
      · intro c hcm
        rcases List.mem_append.mp hcm with h1 | h1
        · exact g9 c h1
        · exact absurd (List.mem_singleton.mp h1) (by simp)
      · rcases g11 with ⟨ga, gb⟩ | ⟨ga, gb⟩
        · exact Or.inl ⟨List.mem_append_left _ ga, gb⟩
        · exact Or.inr ⟨notin_append_ne _ ga (by simp [hm]), gb⟩
  · -- phase 3: timed out
    rw [if_neg (by simp [g1])]
    exact ⟨htx, Or.inr (Or.inr (Or.inr ⟨g1, g2,
      (hrx SJobAct.rxstart rfl).trans g3, (hrx SJobAct.rxtimeout rfl).trans g4, (hrx SJobAct.rxlock rfl).trans g5,
      noLockEv_append _ _ g6 (by intro cc; simp),
      List.mem_append_left _ g7, g8⟩))⟩

theorem sysInv_run_txpayload (env : List LoraMsg) (sys : Sys) (j : SJob)
    (rest : List SJob) (m : ℕ) (hq : sys.queue = j :: rest)
    (hc : j.cancelled = false) (ha : j.act = SJobAct.txpayload m)
    (hinv : SysInv sys) :
    SysInv (runAct env { sys with queue := rest } (SJobAct.txpayload m)) := by
  have hnp : ∀ b, nPend sys.queue b
      = nPend rest b + (if SJobAct.txpayload m = b then 1 else 0) := by
    intro b; rw [hq, nPend_cons, ha, hc]; simp
  have hds := hnp (SJobAct.txpayload m)
  simp at hds
  have hph : nPend sys.queue (SJobAct.txpayload m) = 1
      ∧ nPend sys.queue (SJobAct.txstart m) = 0
      ∧ nPend sys.queue (SJobAct.txdone m) = 0
      ∧ m ∈ sys.pmsg ∧ SEvent.payload m ∉ sys.log
      ∧ SEvent.complete m ∉ sys.log := by
    rcases hinv.1 m with ⟨h1,h2,h3,h4,h5,h6⟩|⟨h1,h2,h3,h4,h5,h6⟩
      |⟨h1,h2,h3,h4,h5,h6⟩|⟨h1,h2,h3,h4,h5,h6⟩|⟨h1,h2,h3,h4,h5,h6⟩ <;>
      first
        | exact ⟨h2, h1, h3, h4, h5, h6⟩
        | omega
  obtain ⟨hc1, hc2, hc3, hc4, hc5, hc6⟩ := hph
  have hrest : ∀ b, b ≠ SJobAct.txpayload m
      → nPend rest b = nPend sys.queue b := by
    intro b hb
    have := hnp b
    rw [if_neg (fun hh => hb hh.symm)] at this
    omega
  have hrx : ∀ a, isRxAct a = true → nPend rest a = nPend sys.queue a := by
    intro a haa
    refine hrest a fun hh => ?_
    rw [hh] at haa
    simp [isRxAct] at haa
  -- the transmitter invariant after the payload step, for any receiver
  -- reaction that leaves `pmsg`, the log and the transmitter jobs alone
  have htx2 : ∀ (sys2 : Sys),
      sys2.pmsg = sys.pmsg.filter (fun x => x ≠ m) →
      sys2.log = sys.log ++ [SEvent.payload m] →
      (∀ b, isRxAct b = false → nPend sys2.queue b = nPend rest b) →
      ∀ m', TxInv (schedule sys2 (msgAt env m).xend (SJobAct.txdone m)) m' := by
    intro sys2 hpm hlog hq2 m'
    have hcount : ∀ b, isRxAct b = false →
        nPend (schedule sys2 (msgAt env m).xend (SJobAct.txdone m)).queue b
          = nPend rest b + (if SJobAct.txdone m = b then 1 else 0) := by
      intro b hb
      rw [nPend_schedule, hq2 b hb]
    have hpm2 : (schedule sys2 (msgAt env m).xend (SJobAct.txdone m)).pmsg
        = sys.pmsg.filter (fun x => x ≠ m) := hpm
    have hlog2 : (schedule sys2 (msgAt env m).xend (SJobAct.txdone m)).log
        = sys.log ++ [SEvent.payload m] := hlog
    by_cases hm : m' = m
    · rw [hm]
      refine Or.inr (Or.inr (Or.inl ⟨?_, ?_, ?_, ?_, ?_, ?_⟩))
      · rw [hcount (SJobAct.txstart m) rfl, if_neg (by simp),
          hrest (SJobAct.txstart m) (by simp)]
        omega
      · rw [hcount (SJobAct.txpayload m) rfl, if_neg (by simp)]
        omega
      · rw [hcount (SJobAct.txdone m) rfl, if_pos rfl,
          hrest (SJobAct.txdone m) (by simp)]
        omega
      · rw [hpm2]
        simp
      · rw [hlog2]
        simp
      · rw [hlog2]
        exact notin_append_ne _ hc6 (by simp)
    · have hm2 : ¬(m = m') := fun hh => hm hh.symm
      refine TxInv_transport sys _ m' ?_ ?_ ?_ ?_ ?_ ?_ (hinv.1 m')
      · rw [hcount (SJobAct.txstart m') rfl, if_neg (by simp),
          hrest (SJobAct.txstart m') (by simp)]
        omega
      · rw [hcount (SJobAct.txpayload m') rfl, if_neg (by simp),
          hrest (SJobAct.txpayload m') (by simp [hm, hm2])]
        omega
      · rw [hcount (SJobAct.txdone m') rfl, if_neg (by simp [hm, hm2]),
          hrest (SJobAct.txdone m') (by simp)]
        omega
      · rw [hpm2]
        simp [hm, hm2]
      · rw [hlog2]
        simp [hm, hm2]
      · rw [hlog2]
        simp
  have hrun0 : runAct env { sys with queue := rest } (SJobAct.txpayload m)
      = schedule
          (if sys.listening = true then
            rxPayload { sys with
              queue := rest
              pmsg := sys.pmsg.filter (fun x => x ≠ m)
              log := sys.log ++ [SEvent.payload m] } m
          else { sys with
              queue := rest
              pmsg := sys.pmsg.filter (fun x => x ≠ m)
              log := sys.log ++ [SEvent.payload m] })
          (msgAt env m).xend (SJobAct.txdone m) := rfl
  rw [hrun0]
  rcases hinv.2 with ⟨g1,g2,g3,g4,g5,g6,g7,g8,g9,g10⟩
    | ⟨g1,g2,g3,g4,g5,g6,g7,g8⟩
    | ⟨mx,g1,g2,g3,g4,g5,g6,g7,g8,g9,g10,g11⟩
    | ⟨g1,g2,g3,g4,g5,g6,g7,g8⟩
  · -- phase 0: not listening
    rw [if_neg (by simp [g1])]
    refine ⟨htx2 _ rfl rfl (fun b _ => rfl), Or.inl ⟨g1, g2, g3,
      ?_, ?_, ?_,
      noAdoptEv_append _ _ g7 (by intro mm tt; simp),
      noLockEv_append _ _ g8 (by intro cc; simp),
      notin_append_ne _ g9 (by simp), g10⟩⟩
    · rw [nPend_schedule, if_neg (by simp)]
      dsimp only
      rw [hrx SJobAct.rxstart rfl, g4]
    · rw [nPend_schedule, if_neg (by simp)]
      dsimp only
      rw [hrx SJobAct.rxtimeout rfl, g5]
    · rw [nPend_schedule, if_neg (by simp)]
      dsimp only
      rw [hrx SJobAct.rxlock rfl, g6]
  · -- phase 1
    rw [if_pos g1]
    rcases g8 with ⟨ga, gb⟩ | ⟨mc, ga, gb, ⟨tp, gc⟩, gd, ge⟩
    · -- no candidate: msg_payload does nothing
      unfold rxPayload
      rw [if_neg (by simp [ga])]
      refine ⟨htx2 _ rfl rfl (fun b _ => rfl), Or.inr (Or.inl ⟨g1, g2,
        ?_, ?_,
        noLockEv_append _ _ g5 (by intro cc; simp),
        notin_append_ne _ g6 (by simp), g7,
        Or.inl ⟨ga, ?_⟩⟩)⟩
      · rw [nPend_schedule, if_neg (by simp)]
        dsimp only
        rw [hrx SJobAct.rxstart rfl, g3]
      · rw [nPend_schedule, if_neg (by simp)]
        dsimp only
        rw [hrx SJobAct.rxtimeout rfl, g4]
      · rw [nPend_schedule, if_neg (by simp)]
        dsimp only
        rw [hrx SJobAct.rxlock rfl, gb]
    · by_cases hmc : mc = m
      · -- the candidate's payload begins before lock: drop the candidate
        subst hmc
        unfold rxPayload
        rw [if_pos (by exact ⟨ga, g2⟩)]
        refine ⟨htx2 _ rfl rfl ?_, Or.inr (Or.inl ⟨g1, g2, ?_, ?_,
          noLockEv_append _ _ g5 (by intro cc; simp),
          notin_append_ne _ g6 (by simp), g7, Or.inl ⟨rfl, ?_⟩⟩)⟩
        · intro b hb
          dsimp only
          refine nPend_cancelAct_ne SJobAct.rxlock b rest fun hh => ?_
          rw [hh] at hb
          simp [isRxAct] at hb
        · rw [nPend_schedule, if_neg (by simp)]
          dsimp only
          rw [nPend_cancelAct_ne SJobAct.rxlock SJobAct.rxstart rest
            (by simp), hrx SJobAct.rxstart rfl, g3]
        · rw [nPend_schedule, if_neg (by simp)]
          dsimp only
          rw [nPend_cancelAct_ne SJobAct.rxlock SJobAct.rxtimeout rest
            (by simp), hrx SJobAct.rxtimeout rfl, g4]
        · rw [nPend_schedule, if_neg (by simp)]
          dsimp only
          rw [nPend_cancelAct_same]
      · -- another message's payload: candidate unaffected
        unfold rxPayload
        rw [if_neg (by simp [ga, hmc])]
        refine ⟨htx2 _ rfl rfl (fun b _ => rfl), Or.inr (Or.inl ⟨g1, g2,
          ?_, ?_,
          noLockEv_append _ _ g5 (by intro cc; simp),
          notin_append_ne _ g6 (by simp), g7,
          Or.inr ⟨mc, ga, ?_,
            ⟨tp, List.mem_append_left _ gc⟩,
            notin_append_ne _ gd (by simp [hmc]),
            notin_append_ne _ ge (by simp)⟩⟩)⟩
        · rw [nPend_schedule, if_neg (by simp)]
          dsimp only
          rw [hrx SJobAct.rxstart rfl, g3]
        · rw [nPend_schedule, if_neg (by simp)]
          dsimp only
          rw [hrx SJobAct.rxtimeout rfl, g4]
        · rw [nPend_schedule, if_neg (by simp)]
          dsimp only
          rw [hrx SJobAct.rxlock rfl, gb]
  · -- phase 2: locked, payload cannot clear the candidate
    rw [if_pos g1]
    unfold rxPayload
    rw [if_neg (by simp [g2])]
    refine ⟨htx2 _ rfl rfl (fun b _ => rfl), Or.inr (Or.inr (Or.inl ⟨mx,
      g1, g2, g3, ?_, ?_, ?_, ?_, List.mem_append_left _ g8, ?_,
      notin_append_ne _ g10 (by simp), ?_⟩))⟩
    · rw [nPend_schedule, if_neg (by simp)]
      dsimp only
      rw [hrx SJobAct.rxstart rfl, g4]
    · rw [nPend_schedule, if_neg (by simp)]
      dsimp only
      rw [hrx SJobAct.rxtimeout rfl, g5]
    · rw [nPend_schedule, if_neg (by simp)]
      dsimp only
      rw [hrx SJobAct.rxlock rfl, g6]
    · obtain ⟨tp, gc⟩ := g7
      exact ⟨tp, List.mem_append_left _ gc⟩
    · intro c hcm
      rcases List.mem_append.mp hcm with h1 | h1
      · exact g9 c h1
      · exact absurd (List.mem_singleton.mp h1) (by simp)
    · rcases g11 with ⟨gac, gbc⟩ | ⟨gac, gbc⟩
      · exact Or.inl ⟨List.mem_append_left _ gac, gbc⟩
      · exact Or.inr ⟨notin_append_ne _ gac (by simp), gbc⟩
  · -- phase 3
    rw [if_neg (by simp [g1])]
    refine ⟨htx2 _ rfl rfl (fun b _ => rfl), Or.inr (Or.inr (Or.inr ⟨g1, g2,
      ?_, ?_, ?_,
      noLockEv_append _ _ g6 (by intro cc; simp),
      List.mem_append_left _ g7, g8⟩))⟩
    · rw [nPend_schedule, if_neg (by simp)]
      dsimp only
      rw [hrx SJobAct.rxstart rfl, g3]
    · rw [nPend_schedule, if_neg (by simp)]
      dsimp only
      rw [hrx SJobAct.rxtimeout rfl, g4]
    · rw [nPend_schedule, if_neg (by simp)]
      dsimp only
      rw [hrx SJobAct.rxlock rfl, g5]

theorem schedule_listening (sys : Sys) (t : ℚ) (a : SJobAct) :
    (schedule sys t a).listening = sys.listening := rfl

theorem schedule_pmsg (sys : Sys) (t : ℚ) (a : SJobAct) :
    (schedule sys t a).pmsg = sys.pmsg := rfl

theorem schedule_rcv (sys : Sys) (t : ℚ) (a : SJobAct) :
    (schedule sys t a).rcv = sys.rcv := rfl

theorem schedule_log (sys : Sys) (t : ℚ) (a : SJobAct) :
    (schedule sys t a).log = sys.log := rfl

theorem schedule_cbs (sys : Sys) (t : ℚ) (a : SJobAct) :
    (schedule sys t a).cbs = sys.cbs := rfl

theorem rxAdopt_log (env : List LoraMsg) (s : Sys) (m : ℕ) (t : Option ℚ) :
    (rxAdopt env s m t).log
      = s.log ++ [SEvent.adopt m (t.getD (msgAt env m).xbeg)] := rfl

theorem nPend_rxAdopt (env : List LoraMsg) (s : Sys) (m : ℕ) (t : Option ℚ)
    (b : SJobAct) :
    nPend (rxAdopt env s m t).queue b
      = nPend s.queue b + (if SJobAct.rxlock = b then 1 else 0) := by
  unfold rxAdopt
  dsimp only
  rw [nPend_schedule]

theorem mem_setInsert (x y : ℕ) (s : List ℕ) :
    x ∈ setInsert y s ↔ x ∈ s ∨ x = y := by
  unfold setInsert
  by_cases h : y ∈ s
  · rw [if_pos h]
    constructor
    · exact fun hh => Or.inl hh
    · rintro (hh | rfl)
      · exact hh
      · exact h
  · rw [if_neg h]
    simp

theorem sysInv_run_txstart (env : List LoraMsg) (sys : Sys) (j : SJob)
    (rest : List SJob) (m : ℕ) (hq : sys.queue = j :: rest)
    (hc : j.cancelled = false) (ha : j.act = SJobAct.txstart m)
    (hinv : SysInv sys) :
    SysInv (runAct env { sys with queue := rest } (SJobAct.txstart m)) := by
  have hnp : ∀ b, nPend sys.queue b
      = nPend rest b + (if SJobAct.txstart m = b then 1 else 0) := by
    intro b; rw [hq, nPend_cons, ha, hc]; simp
  have hds := hnp (SJobAct.txstart m)
  simp at hds
  have hph : nPend sys.queue (SJobAct.txstart m) = 1
      ∧ nPend sys.queue (SJobAct.txpayload m) = 0
      ∧ nPend sys.queue (SJobAct.txdone m) = 0
      ∧ m ∉ sys.pmsg ∧ SEvent.payload m ∉ sys.log
      ∧ SEvent.complete m ∉ sys.log := by
    rcases hinv.1 m with ⟨h1,h2,h3,h4,h5,h6⟩|⟨h1,h2,h3,h4,h5,h6⟩
      |⟨h1,h2,h3,h4,h5,h6⟩|⟨h1,h2,h3,h4,h5,h6⟩|⟨h1,h2,h3,h4,h5,h6⟩ <;>
      first
        | exact ⟨h1, h2, h3, h4, h5, h6⟩
        | omega
  obtain ⟨hc1, hc2, hc3, hc4, hc5, hc6⟩ := hph
  have hrest : ∀ b, b ≠ SJobAct.txstart m
      → nPend rest b = nPend sys.queue b := by
    intro b hb
    have := hnp b
    rw [if_neg (fun hh => hb hh.symm)] at this
    omega
  have hrx : ∀ a, isRxAct a = true → nPend rest a = nPend sys.queue a := by
    intro a haa
    refine hrest a fun hh => ?_
    rw [hh] at haa
    simp [isRxAct] at haa
  -- transmitter invariant after the preamble step
  have htx2 : ∀ (sys2 : Sys),
      sys2.pmsg = setInsert m sys.pmsg →
      (sys2.log = sys.log
        ∨ ∃ mm tt, sys2.log = sys.log ++ [SEvent.adopt mm tt]) →
      (∀ b, isRxAct b = false → nPend sys2.queue b = nPend rest b) →
      ∀ m', TxInv (schedule sys2 (msgAt env m).xpld (SJobAct.txpayload m)) m' := by
    intro sys2 hpm hlog hq2 m'
    have hcount : ∀ b, isRxAct b = false →
        nPend (schedule sys2 (msgAt env m).xpld (SJobAct.txpayload m)).queue b
          = nPend rest b + (if SJobAct.txpayload m = b then 1 else 0) := by
      intro b hb
      rw [nPend_schedule, hq2 b hb]
    have hmemp : ∀ mm, SEvent.payload mm
        ∈ (schedule sys2 (msgAt env m).xpld (SJobAct.txpayload m)).log
        ↔ SEvent.payload mm ∈ sys.log := by
      intro mm
      rw [schedule_log]
      rcases hlog with h1 | ⟨ma, ta, h1⟩ <;> rw [h1] <;> simp
    have hmemc : ∀ mm, SEvent.complete mm
        ∈ (schedule sys2 (msgAt env m).xpld (SJobAct.txpayload m)).log
        ↔ SEvent.complete mm ∈ sys.log := by
      intro mm
      rw [schedule_log]
      rcases hlog with h1 | ⟨ma, ta, h1⟩ <;> rw [h1] <;> simp
    have hpm2 : ∀ mm, mm
        ∈ (schedule sys2 (msgAt env m).xpld (SJobAct.txpayload m)).pmsg
        ↔ mm ∈ sys.pmsg ∨ mm = m := by
      intro mm
      rw [schedule_pmsg, hpm]
      exact mem_setInsert mm m sys.pmsg
    by_cases hm : m' = m
    · rw [hm]
      refine Or.inr (Or.inl ⟨?_, ?_, ?_, ?_, ?_, ?_⟩)
      · rw [hcount (SJobAct.txstart m) rfl, if_neg (by simp)]
        omega
      · rw [hcount (SJobAct.txpayload m) rfl, if_pos rfl,
          hrest (SJobAct.txpayload m) (by simp)]
        omega
      · rw [hcount (SJobAct.txdone m) rfl, if_neg (by simp),
          hrest (SJobAct.txdone m) (by simp)]
        omega
      · rw [hpm2]
        exact Or.inr rfl
      · rw [hmemp]
        exact hc5
      · rw [hmemc]
        exact hc6
    · have hm2 : ¬(m = m') := fun hh => hm hh.symm
      refine TxInv_transport sys _ m' ?_ ?_ ?_ ?_ ?_ ?_ (hinv.1 m')
      · rw [hcount (SJobAct.txstart m') rfl, if_neg (by simp),
          hrest (SJobAct.txstart m') (by simp [hm, hm2])]
        omega
      · rw [hcount (SJobAct.txpayload m') rfl, if_neg (by simp [hm, hm2]),
          hrest (SJobAct.txpayload m') (by simp)]
        omega
      · rw [hcount (SJobAct.txdone m') rfl, if_neg (by simp),
          hrest (SJobAct.txdone m') (by simp)]
        omega
      · rw [hpm2]
        simp [hm]
      · exact hmemp m'
      · exact hmemc m'
  have hrun0 : runAct env { sys with queue := rest } (SJobAct.txstart m)
      = schedule
          (if sys.listening = true then
            rxPreamble env { sys with
              queue := rest
              pmsg := setInsert m sys.pmsg } m none
          else { sys with
              queue := rest
              pmsg := setInsert m sys.pmsg })
          (msgAt env m).xpld (SJobAct.txpayload m) := rfl
  rw [hrun0]
  rcases hinv.2 with ⟨g1,g2,g3,g4,g5,g6,g7,g8,g9,g10⟩
    | ⟨g1,g2,g3,g4,g5,g6,g7,g8⟩
    | ⟨mx,g1,g2,g3,g4,g5,g6,g7,g8,g9,g10,g11⟩
    | ⟨g1,g2,g3,g4,g5,g6,g7,g8⟩
  · -- phase 0: not listening
    rw [if_neg (by simp [g1])]
    refine ⟨htx2 _ rfl (Or.inl rfl) (fun b _ => rfl), Or.inl ⟨g1, g2, g3,
      ?_, ?_, ?_, g7, g8, g9, g10⟩⟩
    · rw [nPend_schedule, if_neg (by simp)]
      dsimp only
      rw [hrx SJobAct.rxstart rfl, g4]
    · rw [nPend_schedule, if_neg (by simp)]
      dsimp only
      rw [hrx SJobAct.rxtimeout rfl, g5]
    · rw [nPend_schedule, if_neg (by simp)]
      dsimp only
      rw [hrx SJobAct.rxlock rfl, g6]
  · -- phase 1
    rw [if_pos g1]
    rcases g8 with ⟨ga, gb⟩ | ⟨mc, ga, gb, ⟨tp, gc⟩, gd, ge⟩
    · -- no candidate yet
      by_cases hmt : rxMatch env
          { sys with queue := rest, pmsg := setInsert m sys.pmsg } m
      · -- the new preamble matches: it is adopted
        unfold rxPreamble
        rw [if_pos ⟨hmt, ga⟩]
        refine ⟨htx2 _ rfl (Or.inr ⟨m, (msgAt env m).xbeg, rfl⟩)
          (fun b hb => ?_), Or.inr (Or.inl ⟨g1, g2, ?_, ?_, ?_, ?_, g7,
          Or.inr ⟨m, rfl, ?_, ⟨(msgAt env m).xbeg, ?_⟩, ?_, ?_⟩⟩)⟩
        · rw [nPend_rxAdopt]
          dsimp only
          rw [if_neg (fun hh => by rw [← hh] at hb; simp [isRxAct] at hb)]
          omega
        · rw [nPend_schedule, if_neg (by simp), nPend_rxAdopt,
            if_neg (by simp)]
          dsimp only
          rw [hrx SJobAct.rxstart rfl, g3]
        · rw [nPend_schedule, if_neg (by simp), nPend_rxAdopt,
            if_neg (by simp)]
          dsimp only
          rw [hrx SJobAct.rxtimeout rfl, g4]
        · rw [schedule_log, rxAdopt_log]
          refine noLockEv_append _ _ ?_ (by intro cc; simp)
          exact g5
        · rw [schedule_log, rxAdopt_log]
          exact notin_append_ne _ g6 (by simp)
        · rw [nPend_schedule, if_neg (by simp), nPend_rxAdopt,
            if_pos rfl]
          dsimp only
          rw [hrx SJobAct.rxlock rfl, gb]
        · rw [schedule_log, rxAdopt_log]
          exact List.mem_append_right _ (by simp)
        · rw [schedule_log, rxAdopt_log]
          exact notin_append_ne _ hc5 (by simp)
        · rw [schedule_log, rxAdopt_log]
          exact notin_append_ne _ hc6 (by simp)
      · -- no match: nothing happens
        unfold rxPreamble
        rw [if_neg (by simp [hmt])]
        refine ⟨htx2 _ rfl (Or.inl rfl) (fun b _ => rfl),
          Or.inr (Or.inl ⟨g1, g2, ?_, ?_, g5, g6, g7, Or.inl ⟨ga, ?_⟩⟩)⟩
        · rw [nPend_schedule, if_neg (by simp)]
          dsimp only
          rw [hrx SJobAct.rxstart rfl, g3]
        · rw [nPend_schedule, if_neg (by simp)]
          dsimp only
          rw [hrx SJobAct.rxtimeout rfl, g4]
        · rw [nPend_schedule, if_neg (by simp)]
          dsimp only
          rw [hrx SJobAct.rxlock rfl, gb]
    · -- candidate already held: no adoption
      unfold rxPreamble
      rw [if_neg (by simp [ga])]
      refine ⟨htx2 _ rfl (Or.inl rfl) (fun b _ => rfl),
        Or.inr (Or.inl ⟨g1, g2, ?_, ?_, g5, g6, g7,
          Or.inr ⟨mc, ga, ?_, ⟨tp, gc⟩, gd, ge⟩⟩)⟩
      · rw [nPend_schedule, if_neg (by simp)]
        dsimp only
        rw [hrx SJobAct.rxstart rfl, g3]
      · rw [nPend_schedule, if_neg (by simp)]
        dsimp only
        rw [hrx SJobAct.rxtimeout rfl, g4]
      · rw [nPend_schedule, if_neg (by simp)]
        dsimp only
        rw [hrx SJobAct.rxlock rfl, gb]
  · -- phase 2: locked, no adoption possible
    rw [if_pos g1]
    unfold rxPreamble
    rw [if_neg (by simp [g3])]
    refine ⟨htx2 _ rfl (Or.inl rfl) (fun b _ => rfl),
      Or.inr (Or.inr (Or.inl ⟨mx, g1, g2, g3, ?_, ?_, ?_, g7, g8, g9,
        g10, g11⟩))⟩
    · rw [nPend_schedule, if_neg (by simp)]
      dsimp only
      rw [hrx SJobAct.rxstart rfl, g4]
    · rw [nPend_schedule, if_neg (by simp)]
      dsimp only
      rw [hrx SJobAct.rxtimeout rfl, g5]
    · rw [nPend_schedule, if_neg (by simp)]
      dsimp only
      rw [hrx SJobAct.rxlock rfl, g6]
  · -- phase 3
    rw [if_neg (by simp [g1])]
    refine ⟨htx2 _ rfl (Or.inl rfl) (fun b _ => rfl),
      Or.inr (Or.inr (Or.inr ⟨g1, g2, ?_, ?_, ?_, g6, g7, g8⟩))⟩
    · rw [nPend_schedule, if_neg (by simp)]
      dsimp only
      rw [hrx SJobAct.rxstart rfl, g3]
    · rw [nPend_schedule, if_neg (by simp)]
      dsimp only
      rw [hrx SJobAct.rxtimeout rfl, g4]
    · rw [nPend_schedule, if_neg (by simp)]
      dsimp only
      rw [hrx SJobAct.rxlock rfl, g5]

theorem sysInv_run_rxtimeout (env : List LoraMsg) (sys : Sys) (j : SJob)
    (rest : List SJob) (hq : sys.queue = j :: rest)
    (hc : j.cancelled = false) (ha : j.act = SJobAct.rxtimeout)
    (hinv : SysInv sys) :
    SysInv (runAct env { sys with queue := rest } SJobAct.rxtimeout) := by
  have hnp : ∀ b, nPend sys.queue b
      = nPend rest b + (if SJobAct.rxtimeout = b then 1 else 0) := by
    intro b; rw [hq, nPend_cons, ha, hc]; simp
  have hds := hnp SJobAct.rxtimeout
  simp at hds
  have hrest : ∀ b, b ≠ SJobAct.rxtimeout
      → nPend rest b = nPend sys.queue b := by
    intro b hb
    have := hnp b
    rw [if_neg (fun hh => hb hh.symm)] at this
    omega
  have hrun0 : runAct env { sys with queue := rest } SJobAct.rxtimeout
      = { sys with
          listening := false
          queue := cancelRxAll rest
          cbs := sys.cbs ++ [none]
          log := sys.log ++ [SEvent.timeout] } := rfl
  rw [hrun0]
  rcases hinv.2 with ⟨g1,g2,g3,g4,g5,g6,g7,g8,g9,g10⟩
    | ⟨g1,g2,g3,g4,g5,g6,g7,g8⟩
    | ⟨mx,g1,g2,g3,g4,g5,g6,g7,g8,g9,g10,g11⟩
    | ⟨g1,g2,g3,g4,g5,g6,g7,g8⟩
  · exact absurd hds (by rw [g5]; omega)
  · -- phase 1: the timeout fires
    constructor
    · intro m'
      refine TxInv_transport sys _ m' ?_ ?_ ?_ Iff.rfl (by simp) (by simp)
        (hinv.1 m')
      · dsimp only
        rw [nPend_cancelRxAll_tx (SJobAct.txstart m') rest rfl,
          hrest _ (by simp)]
      · dsimp only
        rw [nPend_cancelRxAll_tx (SJobAct.txpayload m') rest rfl,
          hrest _ (by simp)]
      · dsimp only
        rw [nPend_cancelRxAll_tx (SJobAct.txdone m') rest rfl,
          hrest _ (by simp)]
    · refine Or.inr (Or.inr (Or.inr ⟨rfl, g2, ?_, ?_, ?_,
        noLockEv_append _ _ g5 (by intro cc; simp),
        List.mem_append_right _ (by simp), ?_⟩))
      · exact nPend_cancelRxAll_rx _ _ rfl
      · exact nPend_cancelRxAll_rx _ _ rfl
      · exact nPend_cancelRxAll_rx _ _ rfl
      · rw [g7]
        rfl
  · exact absurd hds (by rw [g5]; omega)
  · exact absurd hds (by rw [g4]; omega)

theorem sysInv_run_rxlock (env : List LoraMsg) (sys : Sys) (j : SJob)
    (rest : List SJob) (hq : sys.queue = j :: rest)
    (hc : j.cancelled = false) (ha : j.act = SJobAct.rxlock)
    (hinv : SysInv sys) :
    SysInv (runAct env { sys with queue := rest } SJobAct.rxlock) := by
  have hnp : ∀ b, nPend sys.queue b
      = nPend rest b + (if SJobAct.rxlock = b then 1 else 0) := by
    intro b; rw [hq, nPend_cons, ha, hc]; simp
  have hds := hnp SJobAct.rxlock
  simp at hds
  have hrest : ∀ b, b ≠ SJobAct.rxlock
      → nPend rest b = nPend sys.queue b := by
    intro b hb
    have := hnp b
    rw [if_neg (fun hh => hb hh.symm)] at this
    omega
  have hrun0 : runAct env { sys with queue := rest } SJobAct.rxlock
      = { sys with
          queue := cancelAct SJobAct.rxtimeout rest
          rcv := { sys.rcv with locked := true }
          log := sys.log ++ [SEvent.lock sys.rcv.msg] } := rfl
  rw [hrun0]
  rcases hinv.2 with ⟨g1,g2,g3,g4,g5,g6,g7,g8,g9,g10⟩
    | ⟨g1,g2,g3,g4,g5,g6,g7,g8⟩
    | ⟨mx,g1,g2,g3,g4,g5,g6,g7,g8,g9,g10,g11⟩
    | ⟨g1,g2,g3,g4,g5,g6,g7,g8⟩
  · exact absurd hds (by rw [g6]; omega)
  · -- phase 1: only with a pending lock, i.e. with a candidate
    rcases g8 with ⟨ga, gb⟩ | ⟨mc, ga, gb, ⟨tp, gc⟩, gd, ge⟩
    · exact absurd hds (by rw [gb]; omega)
    · constructor
      · intro m'
        refine TxInv_transport sys _ m' ?_ ?_ ?_ Iff.rfl (by simp) (by simp)
          (hinv.1 m')
        · dsimp only
          rw [nPend_cancelAct_ne SJobAct.rxtimeout (SJobAct.txstart m') rest
            (by simp), hrest _ (by simp)]
        · dsimp only
          rw [nPend_cancelAct_ne SJobAct.rxtimeout (SJobAct.txpayload m') rest
            (by simp), hrest _ (by simp)]
        · dsimp only
          rw [nPend_cancelAct_ne SJobAct.rxtimeout (SJobAct.txdone m') rest
            (by simp), hrest _ (by simp)]
      · refine Or.inr (Or.inr (Or.inl ⟨mc, g1, rfl, ga, ?_, ?_, ?_,
          ⟨tp, List.mem_append_left _ gc⟩, ?_, ?_,
          notin_append_ne _ g6 (by simp), Or.inr ⟨?_, g7⟩⟩))
        · dsimp only
          rw [nPend_cancelAct_ne SJobAct.rxtimeout SJobAct.rxstart rest
            (by simp), hrest _ (by simp), g3]
        · exact nPend_cancelAct_same _ _
        · dsimp only
          rw [nPend_cancelAct_ne SJobAct.rxtimeout SJobAct.rxlock rest
            (by simp)]
          omega
        · rw [ga]
          exact List.mem_append_right _ (by simp)
        · intro c hcm
          rcases List.mem_append.mp hcm with h1 | h1
          · exact absurd h1 (g5 c)
          · have h2 := List.mem_singleton.mp h1
            injection h2 with h3
            rw [h3]
            exact ga
        · exact notin_append_ne _ ge (by simp)
  · exact absurd hds (by rw [g6]; omega)
  · exact absurd hds (by rw [g5]; omega)

theorem sysInv_run_rxstart (env : List LoraMsg) (sys : Sys) (j : SJob)
    (rest : List SJob) (hq : sys.queue = j :: rest)
    (hc : j.cancelled = false) (ha : j.act = SJobAct.rxstart)
    (hinv : SysInv sys) :
    SysInv (runAct env { sys with queue := rest } SJobAct.rxstart) := by
  have hnp : ∀ b, nPend sys.queue b
      = nPend rest b + (if SJobAct.rxstart = b then 1 else 0) := by
    intro b; rw [hq, nPend_cons, ha, hc]; simp
  have hds := hnp SJobAct.rxstart
  simp at hds
  have hrest : ∀ b, b ≠ SJobAct.rxstart
      → nPend rest b = nPend sys.queue b := by
    intro b hb
    have := hnp b
    rw [if_neg (fun hh => hb hh.symm)] at this
    omega
  have hrun0 : runAct env { sys with queue := rest } SJobAct.rxstart
      = schedule
          (rxReplay env { sys with queue := rest, listening := true }
            sys.pmsg)
          ((rxReplay env { sys with queue := rest, listening := true }
              sys.pmsg).rcv.rxtime
            + LoraMsg.symtime
              (rxReplay env { sys with queue := rest, listening := true }
                sys.pmsg).rcv.rps
              (rxReplay env { sys with queue := rest, listening := true }
                sys.pmsg).rcv.minsyms)
          SJobAct.rxtimeout := rfl
  rw [hrun0]
  rcases hinv.2 with ⟨g1,g2,g3,g4,g5,g6,g7,g8,g9,g10⟩
    | ⟨g1,g2,g3,g4,g5,g6,g7,g8⟩
    | ⟨mx,g1,g2,g3,g4,g5,g6,g7,g8,g9,g10,g11⟩
    | ⟨g1,g2,g3,g4,g5,g6,g7,g8⟩
  · -- phase 0: rxstart runs
    rcases rxReplay_cases env sys.pmsg
        { sys with queue := rest, listening := true } g2
      with hrep | ⟨m0, hm0mem, hm0match, hrep⟩
    · -- replay adopts nothing
      rw [hrep]
      constructor
      · intro m'
        refine TxInv_transport sys _ m' ?_ ?_ ?_ Iff.rfl Iff.rfl Iff.rfl
          (hinv.1 m')
        · rw [nPend_schedule, if_neg (by simp)]
          dsimp only
          rw [hrest _ (by simp)]
          omega
        · rw [nPend_schedule, if_neg (by simp)]
          dsimp only
          rw [hrest _ (by simp)]
          omega
        · rw [nPend_schedule, if_neg (by simp)]
          dsimp only
          rw [hrest _ (by simp)]
          omega
      · refine Or.inr (Or.inl ⟨rfl, g3, ?_, ?_, g8, g9, g10,
          Or.inl ⟨g2, ?_⟩⟩)
        · rw [nPend_schedule, if_neg (by simp)]
          dsimp only
          omega
        · rw [nPend_schedule, if_pos rfl]
          dsimp only
          rw [hrest _ (by simp), g5]
        · rw [nPend_schedule, if_neg (by simp)]
          dsimp only
          rw [hrest _ (by simp), g6]
    · -- the replay adopts candidate m0 from the preamble set
      rw [hrep]
      have hm0tx : SEvent.payload m0 ∉ sys.log
          ∧ SEvent.complete m0 ∉ sys.log := by
        rcases hinv.1 m0 with ⟨h1,h2,h3,h4,h5,h6⟩|⟨h1,h2,h3,h4,h5,h6⟩
          |⟨h1,h2,h3,h4,h5,h6⟩|⟨h1,h2,h3,h4,h5,h6⟩|⟨h1,h2,h3,h4,h5,h6⟩ <;>
          first
            | exact ⟨h5, h6⟩
            | exact absurd hm0mem h4
      constructor
      · intro m'
        refine TxInv_transport sys _ m' ?_ ?_ ?_ Iff.rfl ?_ ?_ (hinv.1 m')
        · rw [nPend_schedule, if_neg (by simp), nPend_rxAdopt,
            if_neg (by simp)]
          dsimp only
          rw [hrest _ (by simp)]
          omega
        · rw [nPend_schedule, if_neg (by simp), nPend_rxAdopt,
            if_neg (by simp)]
          dsimp only
          rw [hrest _ (by simp)]
          omega
        · rw [nPend_schedule, if_neg (by simp), nPend_rxAdopt,
            if_neg (by simp)]
          dsimp only
          rw [hrest _ (by simp)]
          omega
        · rw [schedule_log, rxAdopt_log]
          simp
        · rw [schedule_log, rxAdopt_log]
          simp
      · refine Or.inr (Or.inl ⟨rfl, g3, ?_, ?_, ?_, ?_, g10,
          Or.inr ⟨m0, rfl, ?_, ⟨sys.rcv.rxtime, ?_⟩, ?_, ?_⟩⟩)
        · rw [nPend_schedule, if_neg (by simp), nPend_rxAdopt,
            if_neg (by simp)]
          dsimp only
          omega
        · rw [nPend_schedule, if_pos rfl, nPend_rxAdopt,
            if_neg (by simp)]
          dsimp only
          rw [hrest _ (by simp), g5]
        · rw [schedule_log, rxAdopt_log]
          exact noLockEv_append _ _ g8 (by intro cc; simp)
        · rw [schedule_log, rxAdopt_log]
          exact notin_append_ne _ g9 (by simp)
        · rw [nPend_schedule, if_neg (by simp), nPend_rxAdopt,
            if_pos rfl]
          dsimp only
          rw [hrest _ (by simp), g6]
        · rw [schedule_log, rxAdopt_log]
          exact List.mem_append_right _ (by simp)
        · rw [schedule_log, rxAdopt_log]
          exact notin_append_ne _ hm0tx.1 (by simp)
        · rw [schedule_log, rxAdopt_log]
          exact notin_append_ne _ hm0tx.2 (by simp)
  · exact absurd hds (by rw [g3]; omega)
  · exact absurd hds (by rw [g4]; omega)
  · exact absurd hds (by rw [g3]; omega)

theorem sysInv_drain (env : List LoraMsg) (fuel : ℕ) (sys : Sys)
    (hinv : SysInv sys) : SysInv (drain env fuel sys) := by
  induction fuel generalizing sys with
  | zero => exact hinv
  | succ n ih =>
      unfold drain
      cases hq : sys.queue with
      | nil => exact hinv
      | cons j rest =>
          apply ih
          by_cases hc : j.cancelled = true
          · rw [if_pos hc]
            have hnp : ∀ b, nPend rest b = nPend sys.queue b := by
              intro b
              rw [hq, nPend_cons, hc]
              simp
            constructor
            · intro m'
              exact TxInv_transport sys _ m' (hnp _) (hnp _) (hnp _)
                Iff.rfl Iff.rfl Iff.rfl (hinv.1 m')
            · exact RxPh_transport sys _ rfl rfl rfl (fun a _ => hnp a)
                (fun c => Iff.rfl) Iff.rfl (fun mm tt => Iff.rfl)
                (fun mm => Iff.rfl) (fun mm => Iff.rfl) rfl hinv.2
          · have hc2 : j.cancelled = false := by
              revert hc; cases j.cancelled <;> simp
            rw [if_neg hc]
            cases hact : j.act with
            | rxstart => exact sysInv_run_rxstart env sys j rest hq hc2 hact hinv
            | rxtimeout =>
                exact sysInv_run_rxtimeout env sys j rest hq hc2 hact hinv
            | rxlock => exact sysInv_run_rxlock env sys j rest hq hc2 hact hinv
            | txstart m =>
                exact sysInv_run_txstart env sys j rest m hq hc2 hact hinv
            | txpayload m =>
                exact sysInv_run_txpayload env sys j rest m hq hc2 hact hinv
            | txdone m =>
                exact sysInv_run_txdone env sys j rest m hq hc2 hact hinv

theorem transmitAll_counts (env : List LoraMsg) (n : ℕ) :
    (∀ m, nPend (transmitAll env sys0 n).queue (SJobAct.txstart m)
      = if m < n then 1 else 0)
    ∧ (∀ m, nPend (transmitAll env sys0 n).queue (SJobAct.txpayload m) = 0)
    ∧ (∀ m, nPend (transmitAll env sys0 n).queue (SJobAct.txdone m) = 0)
    ∧ nPend (transmitAll env sys0 n).queue SJobAct.rxstart = 0
    ∧ nPend (transmitAll env sys0 n).queue SJobAct.rxtimeout = 0
    ∧ nPend (transmitAll env sys0 n).queue SJobAct.rxlock = 0 := by
  induction n with
  | zero =>
      refine ⟨fun m => ?_, fun m => rfl, fun m => rfl, rfl, rfl, rfl⟩
      rw [if_neg (by omega)]
      rfl
  | succ n ih =>
      obtain ⟨i1, i2, i3, i4, i5, i6⟩ := ih
      refine ⟨fun m => ?_, fun m => ?_, fun m => ?_, ?_, ?_, ?_⟩
      · show nPend (schedule (transmitAll env sys0 n)
          (msgAt env n).xbeg (SJobAct.txstart n)).queue (SJobAct.txstart m)
          = _
        rw [nPend_schedule, i1 m]
        by_cases hm : n = m
        · have e1 : ¬(m < n) := by omega
          have e2 : SJobAct.txstart n = SJobAct.txstart m := by rw [hm]
          have e3 : m < n + 1 := by omega
          rw [if_neg e1, if_pos e2, if_pos e3]
        · have e2 : ¬(SJobAct.txstart n = SJobAct.txstart m) := by simp [hm]
          rw [if_neg e2]
          by_cases hm2 : m < n
          · have e3 : m < n + 1 := by omega
            rw [if_pos hm2, if_pos e3]
          · have e3 : ¬(m < n + 1) := by omega
            rw [if_neg hm2, if_neg e3]
      · show nPend (schedule (transmitAll env sys0 n)
          (msgAt env n).xbeg (SJobAct.txstart n)).queue (SJobAct.txpayload m)
          = _
        rw [nPend_schedule, i2 m, if_neg (by simp)]
      · show nPend (schedule (transmitAll env sys0 n)
          (msgAt env n).xbeg (SJobAct.txstart n)).queue (SJobAct.txdone m)
          = _
        rw [nPend_schedule, i3 m, if_neg (by simp)]
      · show nPend (schedule (transmitAll env sys0 n)
          (msgAt env n).xbeg (SJobAct.txstart n)).queue SJobAct.rxstart = _
        rw [nPend_schedule, i4, if_neg (by simp)]
      · show nPend (schedule (transmitAll env sys0 n)
          (msgAt env n).xbeg (SJobAct.txstart n)).queue SJobAct.rxtimeout = _
        rw [nPend_schedule, i5, if_neg (by simp)]
      · show nPend (schedule (transmitAll env sys0 n)
          (msgAt env n).xbeg (SJobAct.txstart n)).queue SJobAct.rxlock = _
        rw [nPend_schedule, i6, if_neg (by simp)]

theorem transmitAll_fields (env : List LoraMsg) (n : ℕ) :
    (transmitAll env sys0 n).listening = false
    ∧ (transmitAll env sys0 n).pmsg = []
    ∧ (transmitAll env sys0 n).cbs = []
    ∧ (transmitAll env sys0 n).log = [] := by
  induction n with
  | zero => exact ⟨rfl, rfl, rfl, rfl⟩
  | succ n ih => exact ih

theorem sysInv_init (env : List LoraMsg) (t : ℚ) (f : ℤ) (r k : ℕ) :
    SysInv (sysInit env t f r k) := by
  obtain ⟨c1, c2, c3, c4, c5, c6⟩ := transmitAll_counts env env.length
  obtain ⟨f1, f2, f3, f4⟩ := transmitAll_fields env env.length
  have hcnt : ∀ b, nPend (sysInit env t f r k).queue b
      = nPend (transmitAll env sys0 env.length).queue b
        + (if SJobAct.rxstart = b then 1 else 0) := by
    intro b
    show nPend (schedule _ t SJobAct.rxstart).queue b = _
    rw [nPend_schedule]
  constructor
  · intro m
    by_cases hm : m < env.length
    · refine Or.inl ⟨?_, ?_, ?_, ?_, ?_, ?_⟩
      · rw [hcnt, if_neg (by simp), c1, if_pos hm]
      · rw [hcnt, if_neg (by simp), c2]
      · rw [hcnt, if_neg (by simp), c3]
      · show m ∉ (transmitAll env sys0 env.length).pmsg
        rw [f2]
        exact List.not_mem_nil m
      · show SEvent.payload m ∉ (transmitAll env sys0 env.length).log
        rw [f4]
        exact List.not_mem_nil _
      · show SEvent.complete m ∉ (transmitAll env sys0 env.length).log
        rw [f4]
        exact List.not_mem_nil _
    · refine Or.inr (Or.inr (Or.inr (Or.inr ⟨?_, ?_, ?_, ?_, ?_, ?_⟩)))
      · rw [hcnt, if_neg (by simp), c1, if_neg hm]
      · rw [hcnt, if_neg (by simp), c2]
      · rw [hcnt, if_neg (by simp), c3]
      · show m ∉ (transmitAll env sys0 env.length).pmsg
        rw [f2]
        exact List.not_mem_nil m
      · show SEvent.payload m ∉ (transmitAll env sys0 env.length).log
        rw [f4]
        exact List.not_mem_nil _
      · show SEvent.complete m ∉ (transmitAll env sys0 env.length).log
        rw [f4]
        exact List.not_mem_nil _
  · refine Or.inl ⟨?_, rfl, rfl, ?_, ?_, ?_, ?_, ?_, ?_, ?_⟩
    · show (transmitAll env sys0 env.length).listening = false
      exact f1
    · rw [hcnt, if_pos rfl, c4]
    · rw [hcnt, if_neg (by simp), c5]
    · rw [hcnt, if_neg (by simp), c6]
    · show noAdoptEv (transmitAll env sys0 env.length).log
      rw [f4]
      intro mm tt hmm
      exact List.not_mem_nil _ hmm
    · show noLockEv (transmitAll env sys0 env.length).log
      rw [f4]
      intro cc hmm
      exact List.not_mem_nil _ hmm
    · show SEvent.timeout ∉ (transmitAll env sys0 env.length).log
      rw [f4]
      exact List.not_mem_nil _
    · show (transmitAll env sys0 env.length).cbs = []
      exact f3

/-- **C2** (amended): transmit every message of `env`, call
`receive(t, f, r, minsyms=k)`, and drain the scheduler completely.  If the
receiver never observes a matching preamble — neither replayed at tune-in
nor arriving while it listens, i.e. no candidate is ever adopted — then the
callback is invoked exactly once with `None` and the receiver is removed
from the medium's listeners.  If, on the other hand, the receiver's `lock`
job fires while message `m` is the candidate and `m` subsequently
completes, the callback is invoked exactly once, with `m`. -/
theorem c2_receiver_callback (env : List LoraMsg) (t : ℚ) (f : ℤ)
    (r k : ℕ) (fuel : ℕ)
    (hdone : (drain env fuel (sysInit env t f r k)).queue = []) :
    ((∀ m tp, SEvent.adopt m tp ∉ (drain env fuel (sysInit env t f r k)).log)
      → (drain env fuel (sysInit env t f r k)).cbs = [none]
        ∧ (drain env fuel (sysInit env t f r k)).listening = false)
    ∧ (∀ m,
        SEvent.lock (some m) ∈ (drain env fuel (sysInit env t f r k)).log →
        SEvent.complete m ∈ (drain env fuel (sysInit env t f r k)).log →
        (drain env fuel (sysInit env t f r k)).cbs = [some m]) := by
  have hinv := sysInv_drain env fuel _ (sysInv_init env t f r k)
  have hzero : ∀ b, nPend (drain env fuel (sysInit env t f r k)).queue b
      = 0 := by
    intro b
    rw [hdone]
    rfl
  rcases hinv.2 with ⟨g1,g2,g3,g4,g5,g6,g7,g8,g9,g10⟩
    | ⟨g1,g2,g3,g4,g5,g6,g7,g8⟩
    | ⟨mx,g1,g2,g3,g4,g5,g6,g7,g8,g9,g10,g11⟩
    | ⟨g1,g2,g3,g4,g5,g6,g7,g8⟩
  · rw [hzero] at g4
    exact absurd g4 (by omega)
  · rw [hzero] at g4
    exact absurd g4 (by omega)
  · -- locked phase
    constructor
    · intro hno
      obtain ⟨tp, htp⟩ := g7
      exact absurd htp (hno mx tp)
    · intro m hlk hcm
      have hmx : m = mx := by
        have := g9 (some m) hlk
        exact Option.some_inj.mp this
      rw [hmx]
      rcases g11 with ⟨ga, gb⟩ | ⟨ga, gb⟩
      · exact gb
      · rw [hmx] at hcm
        exact absurd hcm ga
  · -- timed-out phase
    constructor
    · intro hno
      exact ⟨g8, g1⟩
    · intro m hlk hcm
      exact absurd hlk (g6 (some m))

unseal Rat.add Rat.mul Rat.inv in
theorem c2_witness :
    (drain [c1msgW] 10 (sysInit [c1msgW] 0 868 0 6)).queue = []
    ∧ (drain [c1msgW] 10 (sysInit [c1msgW] 0 868 0 6)).cbs = [some 0] := by
  refine ⟨by decide, ?_⟩
  exact (c2_receiver_callback [c1msgW] 0 868 0 6 10 (by decide)).2 0
    (by decide) (by decide)

/-- **C6** (amended): after `receive(t, f, r, minsyms=k)` with an FSK `r`
(low three bits zero), a message reaching `msg_preamble` while no candidate
is held is adopted iff its frequency is `f` and its rps is exactly `0` —
the receiver's normalised rps — not merely any FSK rps. -/
theorem c6_fsk_preamble_match (env : List LoraMsg) (sys : Sys) (t : ℚ)
    (f : ℤ) (r k : ℕ) (m : ℕ) (topt : Option ℚ)
    (hfsk : Rps.isFSK r = true) :
    (rxPreamble env (receiveCall sys t f r k) m topt).rcv.msg = some m
    ↔ ((msgAt env m).freq = f ∧ (msgAt env m).rps = 0) := by
  have hr0 : (receiveCall sys t f r k).rcv.freq = f := rfl
  have hr1 : (receiveCall sys t f r k).rcv.rps = 0 := by
    show (if Rps.isFSK r = true then 0 else r) = 0
    rw [hfsk]
    simp
  have hr2 : (receiveCall sys t f r k).rcv.msg = none := rfl
  unfold rxPreamble
  by_cases hmt : rxMatch env (receiveCall sys t f r k) m
  · rw [if_pos ⟨hmt, hr2⟩]
    constructor
    · intro _
      obtain ⟨hha, hhb⟩ := hmt
      exact ⟨hha.trans hr0, hhb.trans hr1⟩
    · intro _
      rfl
  · rw [if_neg (by simp [hmt])]
    constructor
    · intro hcontra
      exact absurd (hr2.symm.trans hcontra) (by simp)
    · rintro ⟨hha, hhb⟩
      exact absurd ⟨hha.trans hr0.symm, hhb.trans hr1.symm⟩ hmt

/-- Witness for C6: an FSK receive (`r = 0`) adopting the FSK message
`c1msgW` (rps `0`, freq `868`). -/
theorem c6_witness :
    Rps.isFSK 0 = true
    ∧ (rxPreamble [c1msgW] (receiveCall sys0 0 868 0 5) 0 none).rcv.msg
        = some 0 :=
  ⟨rfl, (c6_fsk_preamble_match [c1msgW] sys0 0 868 0 5 0 none rfl).mpr
    ⟨rfl, rfl⟩⟩

unseal Rat.add Rat.mul Rat.inv in
/-- Counterexample to C6 as stated: `rps = 8` is a valid FSK rps
(`LoraMsg.__init__` accepts it, and `LoraMsg.match` holds against an FSK
receiver), its frequency matches, yet `msg_preamble` does not adopt the
message because `msg.rps == self.rps` compares the full values `8 ≠ 0`. -/
theorem c6_counterexample :
    Rps.isFSK 8 = true
    ∧ mkLoraMsg 0 [] 868 8 none none none none 8 none = some c6msg
    ∧ LoraMsg.matched c6msg 868 0 = true
    ∧ (rxPreamble [c6msg] (receiveCall sys0 0 868 0 5) 0 none).rcv.msg
        = none := by
  refine ⟨rfl, by decide, rfl, ?_⟩
  decide

unseal Rat.add Rat.mul Rat.inv in
/-- Counterexample to C2 as stated: the only message matches the receive
parameters and begins its preamble strictly before the receive time
`1/3125` (so no matching message begins its preamble while the receiver is
listening), yet after a full drain the callback fires once with the
message — the in-flight preamble is replayed to the tuning-in receiver by
`add_listener` — and `cb(None)` is never invoked. -/
theorem c2_counterexample :
    c1msgW.rps = 0 ∧ c1msgW.freq = 868
    ∧ c1msgW.xbeg < 1 / 3125 ∧ (1 / 3125 : ℚ) < c1msgW.xpld
    ∧ (drain [c1msgW] 10 (sysInit [c1msgW] (1 / 3125) 868 0 6)).queue = []
    ∧ (drain [c1msgW] 10 (sysInit [c1msgW] (1 / 3125) 868 0 6)).cbs
        = [some 0] := by
  refine ⟨rfl, rfl, by decide, by decide, by decide, by decide⟩

/-! ### CPython heapq lemmas -/

theorem hget_set_eq (h : List Job) (p : ℕ) (x : Job) (hp : p < h.length) :
    hget (h.set p x) p = x := by
  simp [hget, List.getD_eq_getElem?_getD, List.getElem?_set, hp]

theorem hget_set_ne (h : List Job) (p i : ℕ) (x : Job) (hne : p ≠ i) :
    hget (h.set p x) i = hget h i := by
  simp [hget, List.getD_eq_getElem?_getD, List.getElem?_set, hne]

theorem hget_append_lt (h : List Job) (t : List Job) (i : ℕ)
    (hi : i < h.length) : hget (h ++ t) i = hget h i := by
  simp [hget, List.getD_eq_getElem?_getD, List.getElem?_append_left hi]

theorem hget_append_right (h : List Job) (x : Job) :
    hget (h ++ [x]) h.length = x := by
  simp [hget, List.getD_eq_getElem?_getD]

theorem set_hget_self (h : List Job) (p : ℕ) :
    h.set p (hget h p) = h := by
  apply List.ext_getElem?
  intro n
  rw [List.getElem?_set]
  by_cases hpn : p = n
  · subst hpn
    rw [if_pos rfl]
    by_cases hlt : p < h.length
    · rw [if_pos hlt]
      simp [hget, List.getD_eq_getElem?_getD, List.getElem?_eq_getElem hlt]
    · rw [if_neg hlt]
      have h0 : h[p]? = none := List.getElem?_eq_none_iff.mpr (by omega)
      rw [h0]
  · rw [if_neg hpn]

theorem perm_swap_middle (T M D : List Job) (a b : Job) :
    (T ++ a :: (M ++ b :: D)).Perm (T ++ b :: (M ++ a :: D)) := by
  apply List.Perm.append_left
  have h1 : (a :: (M ++ b :: D)).Perm (a :: b :: (M ++ D)) :=
    List.Perm.cons a List.perm_middle
  have h2 : (b :: (M ++ a :: D)).Perm (b :: a :: (M ++ D)) :=
    List.Perm.cons b List.perm_middle
  exact h1.trans ((List.Perm.swap b a (M ++ D)).trans h2.symm)

theorem set_set_swap_perm (l : List Job) (i j : ℕ) (a b : Job)
    (hij : i < j) (hj : j < l.length) :
    ((l.set i a).set j b).Perm ((l.set i b).set j a) := by
  have hlen : (l.set i a).length = l.length := by simp
  have hlen2 : (l.set i b).length = l.length := by simp
  have htl : (l.take j).length = j := by
    rw [List.length_take]
    omega
  rw [@List.set_eq_take_cons_drop _ b j (l.set i a) (by omega),
    @List.set_eq_take_cons_drop _ a j (l.set i b) (by omega)]
  rw [List.set_take, List.set_take, List.drop_set, List.drop_set,
    if_pos (by omega), if_pos (by omega)]
  rw [@List.set_eq_take_cons_drop _ a i (l.take j) (by omega),
    @List.set_eq_take_cons_drop _ b i (l.take j) (by omega)]
  simp only [List.append_assoc, List.cons_append]
  exact perm_swap_middle _ _ _ a b

theorem set_copy_set_perm (h : List Job) (i j : ℕ) (x : Job)
    (hi : i < h.length) (hj : j < h.length) (hne : i ≠ j) :
    ((h.set i (hget h j)).set j x).Perm (h.set i x) := by
  rcases Nat.lt_or_ge i j with hlt | hge
  · have h2 := set_set_swap_perm h i j (hget h j) x hlt hj
    have h3 : (h.set i x).set j (hget h j) = h.set i x := by
      have h4 : hget h j = hget (h.set i x) j := (hget_set_ne h i j x hne).symm
      rw [h4, set_hget_self]
    rw [h3] at h2
    exact h2
  · have hlt : j < i := by omega
    have h2 := set_set_swap_perm h j i x (hget h j) hlt hi
    have h3 : (h.set j (hget h j)).set i x = h.set i x := by
      rw [set_hget_self]
    rw [h3] at h2
    have h4 : (h.set i (hget h j)).set j x = (h.set j x).set i (hget h j) :=
      List.set_comm _ _ _ hne
    rw [h4]
    exact h2

theorem siftdownGo_perm (fuel : ℕ) : ∀ (h : List Job) (sp pos : ℕ) (x : Job),
    pos < h.length → (siftdownGo fuel h sp pos x).Perm (h.set pos x) := by
  induction fuel with
  | zero =>
      intro h sp pos x _
      exact List.Perm.refl _
  | succ fuel ih =>
      intro h sp pos x hpos
      unfold siftdownGo
      by_cases h1 : sp < pos
      · rw [if_pos h1]
        by_cases h2 : x.ticks < (hget h ((pos - 1) / 2)).ticks
        · rw [if_pos h2]
          have hpp : (pos - 1) / 2 < h.length := by omega
          have hne : pos ≠ (pos - 1) / 2 := by omega
          have hrec := ih (h.set pos (hget h ((pos - 1) / 2))) sp
            ((pos - 1) / 2) x (by simpa using hpp)
          exact hrec.trans (set_copy_set_perm h pos ((pos - 1) / 2) x hpos
            hpp hne)
        · rw [if_neg h2]
      · rw [if_neg h1]

theorem bubbleInv_step (h : List Job) (pos : ℕ) (x : Job)
    (hpos : pos < h.length) (h1 : 0 < pos) (hb : bubbleInv h pos x)
    (h2 : x.ticks < (hget h ((pos - 1) / 2)).ticks) :
    bubbleInv (h.set pos (hget h ((pos - 1) / 2))) ((pos - 1) / 2) x := by
  obtain ⟨hb1, hb2⟩ := hb
  have hpp : (pos - 1) / 2 < h.length := by omega
  have hnepp : pos ≠ (pos - 1) / 2 := by omega
  constructor
  · intro i hi hi0 hip
    rw [List.length_set] at hi
    by_cases hipos : i = pos
    · -- the old hole: its parent is the new hole, holding x
      subst hipos
      rw [hget_set_eq _ _ _ (by simpa using hpp),
        hget_set_ne _ _ _ _ (Ne.symm hnepp), hget_set_eq _ _ _ hpos]
      omega
    · by_cases hpar : (i - 1) / 2 = pos
      · -- a child of the old hole, which now holds the parent value
        rw [hpar, hget_set_ne _ _ _ _ (by omega : (pos - 1) / 2 ≠ pos),
          hget_set_eq _ _ _ hpos,
          hget_set_ne _ _ _ _ (by omega : (pos - 1) / 2 ≠ i),
          hget_set_ne _ _ _ _ (Ne.symm hipos)]
        exact hb2 h1 i hi hi0 hpar
      · by_cases hpar2 : (i - 1) / 2 = (pos - 1) / 2
        · -- a sibling of the old hole under the new hole
          rw [hpar2, hget_set_eq _ _ _ (by simpa using hpp),
            hget_set_ne _ _ _ _ (fun hh => hip hh.symm),
            hget_set_ne _ _ _ _ (Ne.symm hipos)]
          have hr := hb1 i hi hi0 hipos
          rw [hpar2, hget_set_ne _ _ _ _ hnepp,
            hget_set_ne _ _ _ _ (Ne.symm hipos)] at hr
          omega
        · -- untouched relation
          rw [hget_set_ne _ _ _ _ (fun hh => hpar2 hh.symm),
            hget_set_ne _ _ _ _ (fun hh => hpar hh.symm),
            hget_set_ne _ _ _ _ (fun hh => hip hh.symm),
            hget_set_ne _ _ _ _ (Ne.symm hipos)]
          have hr := hb1 i hi hi0 hipos
          rw [hget_set_ne _ _ _ _ (fun hh => hpar hh.symm),
            hget_set_ne _ _ _ _ (Ne.symm hipos)] at hr
          exact hr
  · intro hpp0 c hc hc0 hcp
    rw [List.length_set] at hc
    have hposgp : pos ≠ ((pos - 1) / 2 - 1) / 2 := by omega
    have hg1 : (hget h (((pos - 1) / 2 - 1) / 2)).ticks
        ≤ (hget h ((pos - 1) / 2)).ticks := by
      have hr := hb1 ((pos - 1) / 2) hpp hpp0 (Ne.symm hnepp)
      rw [hget_set_ne _ _ _ _ hposgp, hget_set_ne _ _ _ _ hnepp] at hr
      exact hr
    rw [hget_set_ne _ _ _ _ hposgp]
    by_cases hcpos : c = pos
    · subst hcpos
      rw [hget_set_eq _ _ _ hpos]
      exact hg1
    · rw [hget_set_ne _ _ _ _ (Ne.symm hcpos)]
      have hr2 := hb1 c hc hc0 hcpos
      rw [hcp, hget_set_ne _ _ _ _ hnepp,
        hget_set_ne _ _ _ _ (Ne.symm hcpos)] at hr2
      omega

theorem siftdownGo_heapInv (fuel : ℕ) : ∀ (h : List Job) (pos : ℕ) (x : Job),
    pos ≤ fuel → pos < h.length → bubbleInv h pos x →
    heapInv (siftdownGo fuel h 0 pos x) := by
  induction fuel with
  | zero =>
      intro h pos x hf hpos hb
      have hp0 : pos = 0 := by omega
      subst hp0
      unfold siftdownGo
      intro i hi hi0
      rw [List.length_set] at hi
      exact hb.1 i hi hi0 (by omega)
  | succ fuel ih =>
      intro h pos x hf hpos hb
      unfold siftdownGo
      by_cases h1 : 0 < pos
      · rw [if_pos h1]
        by_cases h2 : x.ticks < (hget h ((pos - 1) / 2)).ticks
        · rw [if_pos h2]
          refine ih _ _ _ (by omega) (by simpa using (by omega : (pos - 1) / 2 < h.length)) ?_
          exact bubbleInv_step h pos x hpos h1 hb h2
        · rw [if_neg h2]
          intro i hi hi0
          rw [List.length_set] at hi
          by_cases hip : i = pos
          · subst hip
            rw [hget_set_eq _ _ _ hpos,
              hget_set_ne _ _ _ _ (by omega : i ≠ (i - 1) / 2)]
            omega
          · exact hb.1 i hi hi0 hip
      · rw [if_neg h1]
        have hp0 : pos = 0 := by omega
        subst hp0
        intro i hi hi0
        rw [List.length_set] at hi
        exact hb.1 i hi hi0 (by omega)

theorem set_append_right_self (h : List Job) (x : Job) :
    (h ++ [x]).set h.length x = h ++ [x] := by
  apply List.ext_getElem?
  intro n
  rw [List.getElem?_set]
  by_cases hn : h.length = n
  · subst hn
    rw [if_pos rfl, if_pos (by simp)]
    rw [List.getElem?_append_right (le_refl _)]
    simp
  · rw [if_neg hn]

theorem heappush_perm (h : List Job) (x : Job) :
    (heappush h x).Perm (x :: h) := by
  unfold heappush siftdown
  rw [hget_append_right]
  have hlen : h.length < (h ++ [x]).length := by simp
  refine (siftdownGo_perm _ _ _ _ _ hlen).trans ?_
  rw [set_append_right_self]
  exact List.perm_append_singleton x h

theorem heappush_heapInv (h : List Job) (x : Job) (hinv : heapInv h) :
    heapInv (heappush h x) := by
  unfold heappush siftdown
  rw [hget_append_right]
  refine siftdownGo_heapInv h.length (h ++ [x]) h.length x (le_refl _)
    (by simp) ⟨?_, ?_⟩
  · intro i hi hi0 hip
    simp only [List.length_append, List.length_singleton] at hi
    have hilt : i < h.length := by omega
    rw [set_append_right_self,
      hget_append_lt _ _ _ (by omega), hget_append_lt _ _ _ hilt]
    exact hinv i hilt hi0
  · intro hl0 c hc hc0 hcp
    simp only [List.length_append, List.length_singleton] at hc
    exfalso
    omega

theorem siftupGo_basic (fuel : ℕ) : ∀ (h : List Job) (pos : ℕ),
    (siftupGo fuel h pos).1.length = h.length
    ∧ ((siftupGo fuel h pos).2 < h.length ∨ (siftupGo fuel h pos).2 = pos) := by
  induction fuel with
  | zero =>
      intro h pos
      exact ⟨rfl, Or.inr rfl⟩
  | succ fuel ih =>
      intro h pos
      unfold siftupGo
      by_cases h1 : 2 * pos + 1 < h.length
      · rw [if_pos h1]
        by_cases h2 : 2 * pos + 2 < h.length
            ∧ ¬((hget h (2 * pos + 1)).ticks < (hget h (2 * pos + 2)).ticks)
        · rw [if_pos h2]
          obtain ⟨ha, hb⟩ := ih (h.set pos (hget h (2 * pos + 2))) (2 * pos + 2)
          rw [List.length_set] at ha hb
          exact ⟨ha, by omega⟩
        · rw [if_neg h2]
          obtain ⟨ha, hb⟩ := ih (h.set pos (hget h (2 * pos + 1))) (2 * pos + 1)
          rw [List.length_set] at ha hb
          exact ⟨ha, by omega⟩
      · rw [if_neg h1]
        exact ⟨rfl, Or.inr rfl⟩

theorem siftupGo_stitch_perm (fuel : ℕ) : ∀ (h : List Job) (pos : ℕ)
    (x : Job), pos < h.length →
    (((siftupGo fuel h pos).1.set (siftupGo fuel h pos).2 x)).Perm
      (h.set pos x) := by
  induction fuel with
  | zero =>
      intro h pos x _
      exact List.Perm.refl _
  | succ fuel ih =>
      intro h pos x hpos
      unfold siftupGo
      by_cases h1 : 2 * pos + 1 < h.length
      · rw [if_pos h1]
        by_cases h2 : 2 * pos + 2 < h.length
            ∧ ¬((hget h (2 * pos + 1)).ticks < (hget h (2 * pos + 2)).ticks)
        · rw [if_pos h2]
          refine (ih _ _ x (by simpa using h2.1)).trans ?_
          exact set_copy_set_perm h pos (2 * pos + 2) x hpos h2.1 (by omega)
        · rw [if_neg h2]
          refine (ih _ _ x (by simpa using h1)).trans ?_
          exact set_copy_set_perm h pos (2 * pos + 1) x hpos h1 (by omega)
      · rw [if_neg h1]

theorem walkInv_step (h : List Job) (pos c : ℕ) (hpos : pos < h.length)
    (hw : walkInv h pos) (hc : c < h.length) (hc0 : 0 < c)
    (hcp : (c - 1) / 2 = pos)
    (hmin : ∀ d, d < h.length → (d - 1) / 2 = pos → 0 < d → d ≠ c →
      (hget h c).ticks ≤ (hget h d).ticks) :
    walkInv (h.set pos (hget h c)) c := by
  obtain ⟨hw1, hw2⟩ := hw
  have hcpos : pos < c := by omega
  constructor
  · intro i hi hi0 hic hipc
    rw [List.length_set] at hi
    by_cases hip : i = pos
    · rw [hip]
      rw [hget_set_ne _ _ _ _ (by omega : pos ≠ (pos - 1) / 2),
        hget_set_eq _ _ _ hpos]
      exact hw2 (by omega) c hc (by omega) hcp
    · by_cases hpar : (i - 1) / 2 = pos
      · rw [hpar, hget_set_eq _ _ _ hpos,
          hget_set_ne _ _ _ _ (Ne.symm hip)]
        exact hmin i hi hpar hi0 hic
      · rw [hget_set_ne _ _ _ _ (fun hh => hpar hh.symm),
          hget_set_ne _ _ _ _ (Ne.symm hip)]
        exact hw1 i hi hi0 hip hpar
  · intro hcc0 d hd hd0 hdp
    rw [List.length_set] at hd
    rw [hcp, hget_set_eq _ _ _ hpos,
      hget_set_ne _ _ _ _ (by omega : pos ≠ d)]
    have hr := hw1 d hd hd0 (by omega) (by omega)
    rw [hdp] at hr
    exact hr

theorem siftupGo_spec (fuel : ℕ) : ∀ (h : List Job) (pos : ℕ),
    h.length - pos ≤ fuel → pos < h.length → walkInv h pos →
    (siftupGo fuel h pos).2 < h.length
    ∧ h.length ≤ 2 * (siftupGo fuel h pos).2 + 1
    ∧ walkInv (siftupGo fuel h pos).1 (siftupGo fuel h pos).2 := by
  induction fuel with
  | zero =>
      intro h pos hf hpos hw
      omega
  | succ fuel ih =>
      intro h pos hf hpos hw
      unfold siftupGo
      by_cases h1 : 2 * pos + 1 < h.length
      · rw [if_pos h1]
        by_cases h2 : 2 * pos + 2 < h.length
            ∧ ¬((hget h (2 * pos + 1)).ticks < (hget h (2 * pos + 2)).ticks)
        · rw [if_pos h2]
          have hwstep := walkInv_step h pos (2 * pos + 2) hpos ⟨hw.1, hw.2⟩
            h2.1 (by omega) (by omega) ?eq1
          case eq1 =>
            intro d hd hdp hd0 hdc
            have hd1 : d = 2 * pos + 1 := by omega
            subst hd1
            omega
          have hrec := ih (h.set pos (hget h (2 * pos + 2))) (2 * pos + 2)
            (by rw [List.length_set]; omega) (by rw [List.length_set]; exact h2.1)
            hwstep
          rw [List.length_set] at hrec
          exact hrec
        · rw [if_neg h2]
          have hmin1 : ∀ d, d < h.length → (d - 1) / 2 = pos → 0 < d →
              d ≠ 2 * pos + 1 →
              (hget h (2 * pos + 1)).ticks ≤ (hget h d).ticks := by
            intro d hd hdp hd0 hdc
            have hd1 : d = 2 * pos + 2 := by omega
            subst hd1
            by_cases h3 : (hget h (2 * pos + 1)).ticks
                < (hget h (2 * pos + 2)).ticks
            · omega
            · exact absurd ⟨hd, h3⟩ h2
          have hwstep := walkInv_step h pos (2 * pos + 1) hpos ⟨hw.1, hw.2⟩
            h1 (by omega) (by omega) hmin1
          have hrec := ih (h.set pos (hget h (2 * pos + 1))) (2 * pos + 1)
            (by rw [List.length_set]; omega) (by rw [List.length_set]; exact h1)
            hwstep
          rw [List.length_set] at hrec
          exact hrec
      · rw [if_neg h1]
        exact ⟨hpos, by omega, hw⟩

theorem hget_eq_getElem (h : List Job) (i : ℕ) (hi : i < h.length) :
    hget h i = h[i] := by
  simp [hget, List.getD_eq_getElem?_getD, List.getElem?_eq_getElem hi]

theorem hget_dropLast (h : List Job) (i : ℕ) (hi : i < h.length - 1) :
    hget h.dropLast i = hget h i := by
  rw [hget_eq_getElem _ _ (by rw [List.length_dropLast]; omega),
    hget_eq_getElem _ _ (by omega)]
  exact List.getElem_dropLast h i (by rw [List.length_dropLast]; omega)

theorem hget_last (t : List Job) (tne : t ≠ []) :
    hget t (t.length - 1) = t.getLast tne := by
  have h0 : 0 < t.length := List.length_pos.mpr tne
  rw [hget_eq_getElem _ _ (by omega), List.getLast_eq_getElem]

theorem siftup_perm (h : List Job) (pos : ℕ) (hpos : pos < h.length) :
    (siftup h pos).Perm h := by
  have hb := siftupGo_basic h.length h pos
  have hfp : (siftupGo h.length h pos).2 < h.length := by
    rcases hb.2 with hh | hh
    · exact hh
    · rw [hh]
      exact hpos
  have hXlen : ((siftupGo h.length h pos).1.set (siftupGo h.length h pos).2
      (hget h pos)).length = h.length := by
    rw [List.length_set, hb.1]
  unfold siftup siftdown
  rw [hget_set_eq _ _ _ (by rw [hb.1]; exact hfp)]
  refine (siftdownGo_perm _ _ _ _ _ (by rw [hXlen]; exact hfp)).trans ?_
  rw [List.set_set]
  exact (siftupGo_stitch_perm h.length h pos (hget h pos) hpos).trans
    (by rw [set_hget_self])

theorem siftup_heapInv (h : List Job) (h0 : 0 < h.length)
    (hw : walkInv h 0) : heapInv (siftup h 0) := by
  obtain ⟨hfp, hleaf, hwfin⟩ := siftupGo_spec h.length h 0 (by omega) h0 hw
  have hb := siftupGo_basic h.length h 0
  unfold siftup siftdown
  rw [hget_set_eq _ _ _ (by rw [hb.1]; exact hfp)]
  refine siftdownGo_heapInv _ _ _ _ (le_refl _)
    (by rw [List.length_set, hb.1]; exact hfp) ⟨?_, ?_⟩
  · intro i hi hi0 hifp
    simp only [List.length_set, hb.1] at hi
    have hpar : (i - 1) / 2 ≠ (siftupGo h.length h 0).2 := by omega
    rw [List.set_set,
      hget_set_ne _ _ _ _ (fun hh => hpar hh.symm),
      hget_set_ne _ _ _ _ (Ne.symm hifp)]
    exact hwfin.1 i (by rw [hb.1]; exact hi) hi0 hifp hpar
  · intro hfp0 c hc hc0 hcp
    simp only [List.length_set, hb.1] at hc
    exfalso
    omega

theorem heappop_spec (h : List Job) (hne : h ≠ []) (hinv : heapInv h) :
    ∃ h1, heappop h = some (hget h 0, h1)
      ∧ ((hget h 0) :: h1).Perm h ∧ heapInv h1 := by
  cases h with
  | nil => exact absurd rfl hne
  | cons a t =>
      by_cases hlen : (a :: t).length = 1
      · have ht : t = [] := by
          simp at hlen
          exact hlen
        subst ht
        refine ⟨[], ?_, ?_, ?_⟩
        · rfl
        · exact List.Perm.refl _
        · intro i hi hi0
          simp at hi
      · have htne : t ≠ [] := by
          intro hh
          subst hh
          exact hlen rfl
        have htlen : 0 < t.length := List.length_pos.mpr htne
        have hpop : heappop (a :: t)
            = some (hget (a :: t) 0,
              siftup (((a :: t).dropLast).set 0
                (hget (a :: t) ((a :: t).length - 1))) 0) := by
          unfold heappop
          rw [if_neg hlen]
        have hdl : (a :: t).dropLast = a :: t.dropLast :=
          List.dropLast_cons_of_ne_nil htne
        have hXne : (((a :: t).dropLast).set 0
            (hget (a :: t) ((a :: t).length - 1))).length = t.length := by
          rw [List.length_set, List.length_dropLast]
          simp
        refine ⟨_, hpop, ?_, ?_⟩
        · -- membership conservation up to permutation
          refine (List.Perm.cons _ (siftup_perm _ 0 (by rw [hXne]; exact htlen))).trans ?_
          -- (hget (a::t) 0) :: X0 ~ a :: t
          rw [hdl]
          have hle : hget (a :: t) ((a :: t).length - 1)
              = t.getLast htne := by
            have h1 : (a :: t).length - 1 = t.length - 1 + 1 := by
              simp
              omega
            rw [h1]
            show hget t (t.length - 1) = t.getLast htne
            exact hget_last t htne
          have hget0 : hget (a :: t) 0 = a := rfl
          rw [hget0, hle]
          show (a :: ((a :: t.dropLast).set 0 (t.getLast htne))).Perm (a :: t)
          refine List.Perm.cons a ?_
          show ((t.getLast htne) :: t.dropLast).Perm t
          refine ((List.perm_append_singleton (t.getLast htne)
            t.dropLast).symm).trans ?_
          rw [List.dropLast_append_getLast htne]
        · -- the heap invariant survives the pop
          refine siftup_heapInv _ (by rw [hXne]; exact htlen) ⟨?_, ?_⟩
          · intro i hi hi0 hine hipar
            rw [List.length_set, List.length_dropLast] at hi
            simp at hi
            rw [hget_set_ne _ _ _ _ (fun hh => hipar hh.symm),
              hget_set_ne _ _ _ _ (Ne.symm hine),
              hget_dropLast _ _ (by simp; omega),
              hget_dropLast _ _ (by simp; omega)]
            exact hinv i (by simp; omega) hi0
          · intro hcontra
            exact absurd hcontra (by omega)

theorem root_min (h : List Job) (hinv : heapInv h) :
    ∀ x ∈ h, (hget h 0).ticks ≤ x.ticks := by
  have hidx : ∀ i, i < h.length → (hget h 0).ticks ≤ (hget h i).ticks := by
    intro i
    induction i using Nat.strong_induction_on with
    | _ i ih =>
        intro hi
        by_cases h0 : i = 0
        · subst h0
          exact le_refl _
        · have hp := hinv i hi (by omega)
          have hq := ih ((i - 1) / 2) (by omega) (by omega)
          omega
  intro x hx
  obtain ⟨i, hi, hix⟩ := List.mem_iff_getElem.mp hx
  have := hidx i hi
  rw [hget_eq_getElem _ _ hi, hix] at this
  exact this

theorem pushAct_spec : ∀ (a : Act) (h : List Job) (n : ℕ), heapInv h →
    heapInv (pushAct h n a).1
    ∧ ((pushAct h n a).1).Perm ((pushAct h n a).2.2 ++ h)
    ∧ (∀ j ∈ (pushAct h n a).2.2, j.cancelled = false) := by
  intro a
  induction a with
  | nil =>
      intro h n hinv
      refine ⟨hinv, List.Perm.refl _, ?_⟩
      intro j hj
      exact absurd hj (List.not_mem_nil j)
  | cons t child rest ihc ihr =>
      intro h n hinv
      have hpush := heappush_heapInv h ⟨t, n, false, child⟩ hinv
      obtain ⟨i1, i2, i3⟩ := ihr (heappush h ⟨t, n, false, child⟩) (n + 1)
        hpush
      unfold pushAct
      refine ⟨i1, ?_, ?_⟩
      · refine i2.trans ?_
        refine (List.Perm.append_left _ (heappush_perm h _)).trans ?_
        exact List.perm_middle
      · intro j hj
        rcases List.mem_cons.mp hj with hj1 | hj1
        · rw [hj1]
        · exact i3 j hj1

theorem stepGo_spec : ∀ (fuel : ℕ) (now : ℤ) (h : List Job) (n : ℕ),
    heapInv h →
    heapInv (stepGo fuel now h n).heap
    ∧ (∀ j ∈ (stepGo fuel now h n).trace,
        j.cancelled = false ∧ j.ticks ≤ now)
    ∧ (∀ j ∈ (stepGo fuel now h n).skipped, j.cancelled = true)
    ∧ (∀ j ∈ (stepGo fuel now h n).pushed, j.cancelled = false)
    ∧ ((stepGo fuel now h n).trace ++ ((stepGo fuel now h n).skipped
        ++ (stepGo fuel now h n).heap)).Perm
      (h ++ (stepGo fuel now h n).pushed) := by
  intro fuel
  induction fuel with
  | zero =>
      intro now h n hinv
      exact ⟨hinv, fun j hj => absurd hj (List.not_mem_nil j),
        fun j hj => absurd hj (List.not_mem_nil j),
        fun j hj => absurd hj (List.not_mem_nil j),
        by simp [stepGo]⟩
  | succ fuel ih =>
      intro now h n hinv
      cases h with
      | nil =>
          exact ⟨hinv, fun j hj => absurd hj (List.not_mem_nil j),
            fun j hj => absurd hj (List.not_mem_nil j),
            fun j hj => absurd hj (List.not_mem_nil j),
            by simp [stepGo]⟩
      | cons a t =>
          unfold stepGo
          dsimp only
          by_cases hle : (hget (a :: t) 0).ticks ≤ now
          · rw [if_pos hle]
            obtain ⟨h1, hpop, hperm, hinv1⟩ :=
              heappop_spec (a :: t) (by simp) hinv
            rw [hpop]
            dsimp only
            by_cases hc : (hget (a :: t) 0).cancelled = true
            · rw [if_pos hc]
              obtain ⟨i1, i2, i3, i4, i5⟩ := ih now h1 n hinv1
              dsimp only
              refine ⟨i1, i2, ?_, i4, ?_⟩
              · intro j2 hj2
                rcases List.mem_cons.mp hj2 with hj3 | hj3
                · rw [hj3]
                  exact hc
                · exact i3 j2 hj3
              · exact (List.perm_middle).trans
                  ((List.Perm.cons _ i5).trans
                    (List.Perm.append_right _ hperm))
            · have hc2 : (hget (a :: t) 0).cancelled = false := by
                revert hc
                cases (hget (a :: t) 0).cancelled <;> simp
              rw [if_neg hc]
              obtain ⟨p1, p2, p3⟩ :=
                pushAct_spec (hget (a :: t) 0).act h1 n hinv1
              obtain ⟨i1, i2, i3, i4, i5⟩ := ih now
                (pushAct h1 n (hget (a :: t) 0).act).1
                (pushAct h1 n (hget (a :: t) 0).act).2.1 p1
              dsimp only
              refine ⟨i1, ?_, i3, ?_, ?_⟩
              · intro j2 hj2
                rcases List.mem_cons.mp hj2 with hj3 | hj3
                · rw [hj3]
                  exact ⟨hc2, hle⟩
                · exact i2 j2 hj3
              · intro j2 hj2
                rcases List.mem_append.mp hj2 with hj3 | hj3
                · exact p3 j2 hj3
                · exact i4 j2 hj3
              · have key : ((pushAct h1 n (hget (a :: t) 0).act).1
                    ++ (stepGo fuel now
                      (pushAct h1 n (hget (a :: t) 0).act).1
                      (pushAct h1 n (hget (a :: t) 0).act).2.1).pushed).Perm
                    (h1 ++ ((pushAct h1 n (hget (a :: t) 0).act).2.2
                      ++ (stepGo fuel now
                        (pushAct h1 n (hget (a :: t) 0).act).1
                        (pushAct h1 n (hget (a :: t) 0).act).2.1).pushed)) := by
                  refine (List.Perm.append_right _ p2).trans ?_
                  rw [List.append_assoc]
                  exact List.perm_append_comm_assoc _ _ _
                refine (List.Perm.cons _ (i5.trans key)).trans ?_
                exact List.Perm.append_right _ hperm
          · rw [if_neg hle]
            exact ⟨hinv, fun j hj => absurd hj (List.not_mem_nil j),
              fun j hj => absurd hj (List.not_mem_nil j),
              fun j hj => absurd hj (List.not_mem_nil j),
              by rw [List.append_nil]; exact List.Perm.refl (a :: t)⟩

theorem stepGo_sorted : ∀ (fuel : ℕ) (now : ℤ) (h : List Job) (n : ℕ),
    heapInv h → (∀ j ∈ h, j.act = Act.nil) →
    (stepGo fuel now h n).trace.Pairwise (fun x y => x.ticks ≤ y.ticks)
    ∧ (∀ j ∈ (stepGo fuel now h n).trace, j ∈ h) := by
  intro fuel
  induction fuel with
  | zero =>
      intro now h n _ _
      exact ⟨List.Pairwise.nil, fun j hj => absurd hj (List.not_mem_nil j)⟩
  | succ fuel ih =>
      intro now h n hinv hnil
      cases h with
      | nil =>
          exact ⟨List.Pairwise.nil,
            fun j hj => absurd hj (List.not_mem_nil j)⟩
      | cons a t =>
          unfold stepGo
          dsimp only
          by_cases hle : (hget (a :: t) 0).ticks ≤ now
          · rw [if_pos hle]
            obtain ⟨h1, hpop, hperm, hinv1⟩ :=
              heappop_spec (a :: t) (by simp) hinv
            rw [hpop]
            dsimp only
            have hsub1 : ∀ x ∈ h1, x ∈ (a :: t) :=
              fun x hx => hperm.subset (List.mem_cons_of_mem _ hx)
            have hnil1 : ∀ j ∈ h1, j.act = Act.nil :=
              fun j hj => hnil j (hsub1 j hj)
            by_cases hc : (hget (a :: t) 0).cancelled = true
            · rw [if_pos hc]
              obtain ⟨s1, s2⟩ := ih now h1 n hinv1 hnil1
              exact ⟨s1, fun j hj => hsub1 j (s2 j hj)⟩
            · rw [if_neg hc]
              have hroot : hget (a :: t) 0 ∈ (a :: t) :=
                hperm.subset (List.mem_cons_self _ _)
              have hrootnil : (hget (a :: t) 0).act = Act.nil := hnil _ hroot
              rw [hrootnil]
              dsimp only [pushAct]
              obtain ⟨s1, s2⟩ := ih now h1 n hinv1 hnil1
              refine ⟨List.Pairwise.cons ?_ s1, ?_⟩
              · intro y hy
                exact root_min (a :: t) hinv y (hsub1 y (s2 y hy))
              · intro j hj
                rcases List.mem_cons.mp hj with hj1 | hj1
                · rw [hj1]
                  exact hroot
                · exact hsub1 j (s2 j hj1)
          · rw [if_neg hle]
            exact ⟨List.Pairwise.nil,
              fun j hj => absurd hj (List.not_mem_nil j)⟩

/-- **C3** (amended): for any `schedule`-built heap (any heap satisfying
the `heapq` invariant, with jobs possibly cancelled) and a complete
`step()` sweep at the captured `now`:
jobs run only when due, cancelled jobs are popped but never run, every
pending uncancelled job due at `now` runs in the sweep, a job scheduled
from within a running job runs in the same sweep iff its ticks are `≤`
`now`, and — when no running job reschedules — the sweep runs jobs in
ascending order of their ticks.  Equal-ticks jobs, however, run in heap
order, which need not be the order in which they were scheduled
(see the counterexample). -/
theorem c3_runtime_step_order (h : List Job) (n : ℕ) (now : ℤ) (fuel : ℕ)
    (hinv : heapInv h) (hdone : sweepDone (rtStep fuel now h n) now) :
    (∀ j ∈ (rtStep fuel now h n).trace, j.cancelled = false ∧ j.ticks ≤ now)
    ∧ (∀ j ∈ (rtStep fuel now h n).skipped, j.cancelled = true)
    ∧ (∀ j ∈ h, j.cancelled = false → j.ticks ≤ now →
        j ∈ (rtStep fuel now h n).trace)
    ∧ (∀ j ∈ (rtStep fuel now h n).pushed,
        (j ∈ (rtStep fuel now h n).trace ↔ j.ticks ≤ now))
    ∧ ((∀ j ∈ h, j.act = Act.nil) →
        (rtStep fuel now h n).trace.Pairwise
          (fun x y => x.ticks ≤ y.ticks)) := by
  obtain ⟨f1, f2, f3, f4, f5⟩ := stepGo_spec fuel now h n hinv
  have hlate : ∀ x ∈ (rtStep fuel now h n).heap, now < x.ticks := by
    intro x hx
    rcases hdone with hd | hd
    · rw [hd] at hx
      exact absurd hx (List.not_mem_nil x)
    · have h2 := root_min _ f1 x hx
      unfold rtStep at hd
      omega
  have hsplit : ∀ j, j ∈ h ∨ j ∈ (rtStep fuel now h n).pushed →
      j ∈ (rtStep fuel now h n).trace ∨ j ∈ (rtStep fuel now h n).skipped
        ∨ j ∈ (rtStep fuel now h n).heap := by
    intro j hj
    have hmem : j ∈ h ++ (rtStep fuel now h n).pushed := by
      rcases hj with hj | hj
      · exact List.mem_append_left _ hj
      · exact List.mem_append_right _ hj
    rcases List.mem_append.mp ((f5.mem_iff).mpr hmem) with h1 | h1
    · exact Or.inl h1
    · rcases List.mem_append.mp h1 with h2 | h2
      · exact Or.inr (Or.inl h2)
      · exact Or.inr (Or.inr h2)
  refine ⟨f2, f3, ?_, ?_, ?_⟩
  · intro j hj hcf htk
    rcases hsplit j (Or.inl hj) with m1 | m2 | m3
    · exact m1
    · have hx := f3 j m2
      rw [hcf] at hx
      exact Bool.noConfusion hx
    · have := hlate j m3
      omega
  · intro j hj
    constructor
    · intro htr
      exact (f2 j htr).2
    · intro htk
      rcases hsplit j (Or.inr hj) with m1 | m2 | m3
      · exact m1
      · have hcf := f4 j hj
        have hx := f3 j m2
        rw [hcf] at hx
        exact Bool.noConfusion hx
      · have := hlate j m3
        omega
  · intro hnil
    exact (stepGo_sorted fuel now h n hinv hnil).1

/-- Witness for C3: the counterexample heap (ticks `1`, `1`, `0`, no-op
jobs) swept at `now = 1` — the trace is sorted by ticks and the
job scheduled third (ticks `0`) does run. -/
theorem c3_witness :
    (rtStep 5 1 c3heap 3).trace.Pairwise (fun x y => x.ticks ≤ y.ticks)
    ∧ Job.mk 0 2 false Act.nil ∈ (rtStep 5 1 c3heap 3).trace := by
  have hmain := c3_runtime_step_order c3heap 3 1 5 (by decide) (by decide)
  constructor
  · exact hmain.2.2.2.2 (by decide)
  · exact hmain.2.2.1 ⟨0, 2, false, Act.nil⟩ (by decide) (by decide)
      (by decide)

/-- Counterexample to C3 as stated: schedule three no-op jobs with ticks
`1`, `1`, `0` in this order (`seq` records the schedule order) and sweep
with `now = 1`.  The two ticks-`1` jobs run in the order `seq 1` then
`seq 0` — the *reverse* of the order in which they were scheduled —
because `heapq` with `Job.__lt__` comparing only `_ticks` is not stable:
pushing the ticks-`0` job moves the first ticks-`1` job to a leaf, and
`heappop` then surfaces the second one first. -/
theorem c3_counterexample :
    (rtStep 5 1 c3heap 3).trace.map Job.seq = [2, 1, 0]
    ∧ (rtStep 5 1 c3heap 3).trace.map Job.ticks = [0, 1, 1]
    ∧ sweepDone (rtStep 5 1 c3heap 3) 1 := by
  exact ⟨by decide, by decide, by decide⟩
